import Mathlib

/-!
BoatManagement.c: shallow embedding and verified properties.

The program keeps an array `Boat* boats[MAX_BOATS]` together with `boatCount`.
The embedding represents the live prefix `boats[0 .. boatCount-1]` as a `List Boat`
(so `boatCount` is the length of the list) and every operation as a function from the
old store to the new store and the text written to standard output.

Conventions of the embedding:

* a C string is the list of its characters before the terminating NUL; the parsing code
  writes the name, the tag and the detail of a line into `name[128]`, `locType[10]` and
  `detailStr[20]` without a field width, and a write past the end of a buffer is undefined
  behaviour: the embedding gives the result of the parsing code for a line whose strings
  fit their buffers (`FieldsFit`), and the statements about lines are made for such
  lines;
* `int` is an `Int` in the range of 32 bits;
* `float` is an IEEE-754 binary32 value, held exactly: a finite value is
  `± k · 2^(-149)`; `double` likewise with `2^(-1074)`; arithmetic rounds to nearest,
  ties to even;
* memory obtained from `malloc` and automatic buffers that are never assigned hold an
  indeterminate value, which is an explicit argument (`Uninit`) of the operation;
* `qsort` is an argument: any function that returns a sorted permutation (`IsQsort`);
* the conversions of `printf` and `sscanf` behave as in the GNU C library on a platform
  with 64-bit `long`; floating-point expressions are evaluated in the precision of their
  type; `malloc` succeeds; input text has no NUL character.
-/

namespace BoatManagement

/-! ## Constants and the record type -/

/-- The capacity of the array of boats. -/
def MAX_BOATS : Nat := 120

/-- The size of the `name` member, less the terminating NUL. -/
def MAX_NAME_LENGTH : Nat := 127

/-- The `LocationType` enumeration of the source. -/
inductive LocationType where
  | SLIP
  | LAND
  | TRAILOR
  | STORAGE
  deriving DecidableEq

/-- The `LocationDetails` union of the source, as the member that was last written. -/
inductive LocationDetails where
  | slipNumber (n : Int)
  | bayLetter (c : Char)
  | trailorLicense (s : List Char)
  | storageNumber (n : Int)
  deriving DecidableEq

/-- An IEEE-754 binary32 value. `fin neg k` is the finite value `(-1)^neg · k · 2^(-149)`;
it is a value of the format when `k` has at most 24 significant bits and does not
exceed `FLT_MAX_K` (see `float.valid`). -/
inductive float where
  | nan
  | inf (neg : Bool)
  | fin (neg : Bool) (k : Nat)
  deriving DecidableEq

/-- An IEEE-754 binary64 value. `fin neg k` is `(-1)^neg · k · 2^(-1074)`. -/
inductive double where
  | nan
  | inf (neg : Bool)
  | fin (neg : Bool) (k : Nat)
  deriving DecidableEq

/-- The `Boat` structure of the source. -/
structure Boat where
  name : List Char
  length : Int
  locationType : LocationType
  details : LocationDetails
  amountOwed : float
  deriving DecidableEq

/-! ## Floating point -/

/-- Number of bits of a natural number, by repeated halving; `fuel` bounds the number of
halvings. -/
def bitLengthAux : Nat → Nat → Nat
  | 0, _ => 0
  | fuel + 1, n => if n = 0 then 0 else bitLengthAux fuel (n / 2) + 1

/-- Number of bits of a natural number (`0` for `0`). -/
def bitLength (n : Nat) : Nat := bitLengthAux n n

/-- Round the non-negative rational `n / d` to the nearest natural number that has at most
`p` significant bits, ties to the even significand. -/
def roundNE (p n d : Nat) : Nat :=
  let s := bitLength (n / d) - p
  let D := d * 2 ^ s
  let q := n / D
  let r := n % D
  let q1 := if D < 2 * r ∨ (2 * r = D ∧ q % 2 = 1) then q + 1 else q
  q1 * 2 ^ s

/-- The largest finite binary32 value, in units of `2^(-149)`. -/
def FLT_MAX_K : Nat := (2 ^ 24 - 1) * 2 ^ 253

/-- The largest finite binary64 value, in units of `2^(-1074)`. -/
def DBL_MAX_K : Nat := (2 ^ 53 - 1) * 2 ^ 2045

/-- The binary32 value nearest to `± n / d` (in units of `2^(-149)`); overflow gives an
infinity. -/
def mkFloat (neg : Bool) (n d : Nat) : float :=
  let k := roundNE 24 n d
  if k ≤ FLT_MAX_K then float.fin neg k else float.inf neg

/-- The binary64 value nearest to `± n / d` (in units of `2^(-1074)`). -/
def mkDouble (neg : Bool) (n d : Nat) : double :=
  let k := roundNE 53 n d
  if k ≤ DBL_MAX_K then double.fin neg k else double.inf neg

/-- The signed number of units of a sign and a magnitude. -/
def signed (neg : Bool) (k : Nat) : Int := if neg then -(k : Int) else (k : Int)

/-- A value of the binary32 format: a NaN, an infinity, or a finite value that rounding
leaves alone. -/
def float.valid : float → Prop
  | float.fin _ k => roundNE 24 k 1 = k ∧ k ≤ FLT_MAX_K
  | _ => True

instance (a : float) : Decidable a.valid := by
  cases a <;> unfold float.valid <;> infer_instance

/-- A finite binary32 value. -/
def float.finite : float → Bool
  | float.fin _ _ => true
  | _ => false

/-- The C comparison `a > b` on `float`. -/
def float.gt : float → float → Bool
  | float.nan, _ => false
  | _, float.nan => false
  | float.inf s, float.inf t => !s && t
  | float.inf s, float.fin _ _ => !s
  | float.fin _ _, float.inf t => t
  | float.fin s j, float.fin t k => decide (signed t k < signed s j)

/-- The C comparison `a <= b` on `float`. -/
def float.le : float → float → Bool
  | float.nan, _ => false
  | _, float.nan => false
  | float.inf s, float.inf t => s || !t
  | float.inf s, float.fin _ _ => s
  | float.fin _ _, float.inf t => !t
  | float.fin s j, float.fin t k => decide (signed s j ≤ signed t k)

/-- The C subtraction `a - b` on `float`. -/
def float.sub : float → float → float
  | float.nan, _ => float.nan
  | _, float.nan => float.nan
  | float.inf s, float.inf t => if s = t then float.nan else float.inf s
  | float.inf s, float.fin _ _ => float.inf s
  | float.fin _ _, float.inf t => float.inf (!t)
  | float.fin s j, float.fin t k =>
    let x := signed s j - signed t k
    if x = 0 then float.fin (s && !t) 0 else mkFloat (decide (x < 0)) x.natAbs 1

/-- The conversion of a `float` to `double`, which is exact. -/
def float.toDouble : float → double
  | float.nan => double.nan
  | float.inf s => double.inf s
  | float.fin s k => double.fin s (k * 2 ^ 925)

/-- The conversion of a `double` to `float`, which rounds. -/
def double.toFloat : double → float
  | double.nan => float.nan
  | double.inf s => float.inf s
  | double.fin s k => if k = 0 then float.fin s 0 else mkFloat s k (2 ^ 925)

/-- The conversion of an `int` to `double`, which is exact. -/
def double.ofInt (i : Int) : double := double.fin (decide (i < 0)) (i.natAbs * 2 ^ 1074)

/-- The C multiplication on `double`. -/
def double.mul : double → double → double
  | double.nan, _ => double.nan
  | _, double.nan => double.nan
  | double.inf s, double.inf t => double.inf (xor s t)
  | double.inf s, double.fin t k => if k = 0 then double.nan else double.inf (xor s t)
  | double.fin s j, double.inf t => if j = 0 then double.nan else double.inf (xor s t)
  | double.fin s j, double.fin t k =>
    if j * k = 0 then double.fin (xor s t) 0 else mkDouble (xor s t) (j * k) (2 ^ 1074)

/-- The C addition on `double`. -/
def double.add : double → double → double
  | double.nan, _ => double.nan
  | _, double.nan => double.nan
  | double.inf s, double.inf t => if s = t then double.inf s else double.nan
  | double.inf s, double.fin _ _ => double.inf s
  | double.fin _ _, double.inf t => double.inf t
  | double.fin s j, double.fin t k =>
    let x := signed s j + signed t k
    if x = 0 then double.fin (s && t) 0 else mkDouble (decide (x < 0)) x.natAbs 1

/-! ## Characters and strings -/

/-- The C `tolower` in the "C" locale, as a character code. -/
def tolower (c : Char) : Nat :=
  if 65 ≤ c.toNat ∧ c.toNat ≤ 90 then c.toNat + 32 else c.toNat

/-- The C `strcasecmp`: the difference of the first pair of characters that differ after
`tolower`, the end of a string counting as NUL; the comparison stops at a NUL. -/
def strcasecmp : List Char → List Char → Int
  | [], [] => 0
  | [], b :: _ => - (tolower b : Int)
  | a :: _, [] => (tolower a : Int)
  | a :: as, b :: bs =>
    if tolower a = tolower b then (if tolower a = 0 then 0 else strcasecmp as bs)
    else (tolower a : Int) - (tolower b : Int)

/-- The comparison function `compareBoats` handed to `qsort`. -/
def compareBoats (boatA boatB : Boat) : Int := strcasecmp boatA.name boatB.name

/-- The C `isspace` in the "C" locale. -/
def isspace (c : Char) : Bool := c.toNat = 32 || (9 ≤ c.toNat && c.toNat ≤ 13)

/-- The C `isdigit`. -/
def isdigit (c : Char) : Bool := 48 ≤ c.toNat && c.toNat ≤ 57

/-- The C `isalpha` in the "C" locale. -/
def isalpha (c : Char) : Bool :=
  (65 ≤ c.toNat && c.toNat ≤ 90) || (97 ≤ c.toNat && c.toNat ≤ 122)

/-- The value of a decimal digit character. -/
def digitVal (c : Char) : Nat := c.toNat - 48

/-- The character of a decimal digit. -/
def digitChar (d : Nat) : Char := Char.ofNat (48 + d)

/-- The value of a run of decimal digits. -/
def digitsValue (ds : List Char) : Nat := ds.foldl (fun acc c => acc * 10 + digitVal c) 0

/-! ## Formatted output (`printf`) -/

/-- Decimal digits of a natural number, most significant first, in front of `acc`; `fuel`
bounds the number of digits. -/
def natDigitsAux : Nat → Nat → List Char → List Char
  | 0, _, acc => acc
  | fuel + 1, n, acc =>
    if n < 10 then digitChar n :: acc else natDigitsAux fuel (n / 10) (digitChar (n % 10) :: acc)

/-- Decimal digits of a natural number, most significant first. -/
def natDigits (n : Nat) : List Char := natDigitsAux (n + 1) n []

/-- The text of `printf("%d", i)`. -/
def fmt_d (i : Int) : List Char :=
  if i < 0 then '-' :: natDigits i.natAbs else natDigits i.natAbs

/-- The quotient `n / d` rounded to the nearest natural number, ties to even. -/
def divRoundEven (n d : Nat) : Nat :=
  let q := n / d
  let r := n % d
  if d < 2 * r ∨ (2 * r = d ∧ q % 2 = 1) then q + 1 else q

/-- The number of hundredths that `printf("%.2f")` shows for the magnitude `k · 2^(-149)`:
the exact binary value rounded to two decimals, ties to even. -/
def hundredths (k : Nat) : Nat := divRoundEven (k * 100) (2 ^ 149)

/-- The text of `printf("%.2f", x)` for a `float` argument (promoted to `double`, which is
exact). The sign bit of a NaN is not held by the embedding: `nan` stands for `nan` and
`-nan`. -/
def fmt_2f : float → List Char
  | float.nan => ['n', 'a', 'n']
  | float.inf neg => if neg then ['-', 'i', 'n', 'f'] else ['i', 'n', 'f']
  | float.fin neg k =>
    let h := hundredths k
    let body := natDigits (h / 100) ++ ['.', digitChar (h % 100 / 10), digitChar (h % 10)]
    if neg then '-' :: body else body

/-! ## Formatted input (`sscanf`) -/

/-- An optional sign in front of a number: whether it is `-`, and the rest. -/
def scanSign : List Char → Bool × List Char
  | [] => (false, [])
  | c :: s => if c = '-' then (true, s) else if c = '+' then (false, s) else (false, c :: s)

/-- The conversion of the number read by `%d` to `int`: the library reads a `long`
(saturating at its bounds) and stores its low 32 bits. -/
def toInt32 (x : Int) : Int :=
  let l := if 2 ^ 63 - 1 < x then 2 ^ 63 - 1 else if x < -(2 ^ 63) then -(2 ^ 63) else x
  (l + 2 ^ 31) % 2 ^ 32 - 2 ^ 31

/-- The directive `%d`: skips white space, reads an optional sign and a non-empty run of
decimal digits; gives the `int` and the rest of the input, or fails. -/
def scan_d (s : List Char) : Option (Int × List Char) :=
  let (neg, s1) := scanSign (s.dropWhile isspace)
  let ds := s1.takeWhile isdigit
  if ds = [] then none else some (toInt32 (signed neg (digitsValue ds)), s1.dropWhile isdigit)

/-- Strip a prefix given in lower case, ignoring the case of the input. -/
def stripPrefixCI : List Char → List Char → Option (List Char)
  | s, [] => some s
  | [], _ :: _ => none
  | c :: s, p :: ps => if tolower c = p.toNat then stripPrefixCI s ps else none

/-- The value of a hexadecimal digit character. -/
def hexVal (c : Char) : Option Nat :=
  if isdigit c then some (c.toNat - 48)
  else if 97 ≤ tolower c ∧ tolower c ≤ 102 then some (tolower c - 87)
  else none

/-- The value of a run of hexadecimal digits. -/
def hexValue (ds : List Char) : Nat := ds.foldl (fun acc c => acc * 16 + (hexVal c).getD 0) 0

/-- The binary32 value nearest to `± m · 10^e10 · 2^e2`. -/
def floatOfScaled (neg : Bool) (m : Nat) (e10 e2 : Int) : float :=
  if m = 0 then float.fin neg 0
  else mkFloat neg (m * 10 ^ e10.toNat * 2 ^ (e2 + 149).toNat)
    (10 ^ (-e10).toNat * 2 ^ (-(e2 + 149)).toNat)

/-- The exponent part after a mantissa: the letter `mark` (in either case), an optional
sign and digits give the exponent; anything else gives `0`. -/
def scanExponent (mark : Nat) (s : List Char) : Int :=
  match s with
  | [] => 0
  | c :: s1 =>
    if tolower c = mark then
      let (neg, s2) := scanSign s1
      let ds := s2.takeWhile isdigit
      if ds = [] then 0 else signed neg (digitsValue ds)
    else 0

/-- The directive `%f` as the last directive of a format: skips white space and converts
the longest leading number (decimal with optional fraction and exponent, hexadecimal with
optional binary exponent, `inf`, `infinity` or `nan` in any case) to the nearest `float`;
fails when there is none. -/
def scan_f (s : List Char) : Option float :=
  let (neg, s1) := scanSign (s.dropWhile isspace)
  match stripPrefixCI s1 ['i', 'n', 'f'] with
  | some s2 =>
    (match s2 with
     | [] => some (float.inf neg)
     | c :: _ =>
       if tolower c = 105 then
         (match stripPrefixCI s2 ['i', 'n', 'i', 't', 'y'] with
          | some _ => some (float.inf neg)
          | none => none)
       else some (float.inf neg))
  | none =>
    match stripPrefixCI s1 ['n', 'a', 'n'] with
    | some _ => some float.nan
    | none =>
      match stripPrefixCI s1 ['0', 'x'] with
      | some s2 =>
        let ip := s2.takeWhile (fun c => (hexVal c).isSome)
        let s3 := s2.dropWhile (fun c => (hexVal c).isSome)
        (match s3 with
         | [] => if ip = [] then none else some (floatOfScaled neg (hexValue ip) 0 0)
         | c :: s4 =>
           if c = '.' then
             let fp := s4.takeWhile (fun c => (hexVal c).isSome)
             let s5 := s4.dropWhile (fun c => (hexVal c).isSome)
             some (floatOfScaled neg (hexValue (ip ++ fp)) 0
               (scanExponent 112 s5 - 4 * (fp.length : Int)))
           else if ip = [] then none
           else some (floatOfScaled neg (hexValue ip) 0 (scanExponent 112 s3)))
      | none =>
        let ip := s1.takeWhile isdigit
        let s3 := s1.dropWhile isdigit
        match s3 with
        | [] => if ip = [] then none else some (floatOfScaled neg (digitsValue ip) 0 0)
        | c :: s4 =>
          if c = '.' then
            let fp := s4.takeWhile isdigit
            let s5 := s4.dropWhile isdigit
            if ip = [] ∧ fp = [] then none
            else some (floatOfScaled neg (digitsValue (ip ++ fp))
              (scanExponent 101 s5 - (fp.length : Int)) 0)
          else if ip = [] then none
          else some (floatOfScaled neg (digitsValue ip) (scanExponent 101 s3) 0)

/-! ## Parsing a line of boat data -/

/-- The indeterminate contents of the objects that the parsing code reads or keeps without
having assigned them: the `Boat` obtained from `malloc` and the automatic buffers
`locType` and `detailStr`. -/
structure Uninit where
  boat : Boat
  locType : List Char
  detailStr : List Char

/-- The call `sscanf(line, "%[^,],%d,%[^,],%[^,],%f", name, &length, locType, detailStr,
&amountOwed)`: the directives are processed in order and processing stops at the first one
that fails; what was assigned before stays assigned, the rest keeps its prior contents.
The directives `%[^,]` have no field width: this is the result of the call when each
string that it writes fits its buffer (`FieldsFit`); otherwise the call writes past the
end of a buffer and its behaviour is undefined. -/
def sscanfBoat (u : Uninit) (line : List Char) : Uninit :=
  let name := line.takeWhile (fun c => c ≠ ',')
  if name = [] then u else
  let u1 : Uninit := { u with boat := { u.boat with name := name } }
  match line.dropWhile (fun c => c ≠ ',') with
  | [] => u1
  | _ :: r2 =>
    match scan_d r2 with
    | none => u1
    | some (len, r3) =>
      let u2 : Uninit := { u1 with boat := { u1.boat with length := len } }
      match r3 with
      | [] => u2
      | c3 :: r4 =>
        if c3 ≠ ',' then u2 else
        let locType := r4.takeWhile (fun c => c ≠ ',')
        if locType = [] then u2 else
        let u3 : Uninit := { u2 with locType := locType }
        match r4.dropWhile (fun c => c ≠ ',') with
        | [] => u3
        | _ :: r6 =>
          let detailStr := r6.takeWhile (fun c => c ≠ ',')
          if detailStr = [] then u3 else
          let u4 : Uninit := { u3 with detailStr := detailStr }
          match r6.dropWhile (fun c => c ≠ ',') with
          | [] => u4
          | _ :: r8 =>
            match scan_f r8 with
            | none => u4
            | some f => { u4 with boat := { u4.boat with amountOwed := f } }

/-- The call `sscanf(detailStr, "%d", &n)` on a member of the union: the number read, or
the prior contents of the union when the directive fails. -/
def scanDetail (mk : Int → LocationDetails) (prior : LocationDetails)
    (detailStr : List Char) : LocationDetails :=
  match scan_d detailStr with
  | some (n, _) => mk n
  | none => prior

/-- The parsing code shared, statement for statement, by `loadBoats` (lines 146-172) and
`addBoat` (lines 259-285): the `sscanf` call followed by the chain of `strcasecmp` tests
that sets `locationType` and the matching member of `details`. -/
def parseBoat (u : Uninit) (line : List Char) : Boat :=
  let v := sscanfBoat u line
  if strcasecmp v.locType ['s', 'l', 'i', 'p'] = 0 then
    { v.boat with locationType := LocationType.SLIP,
                  details := scanDetail LocationDetails.slipNumber v.boat.details v.detailStr }
  else if strcasecmp v.locType ['l', 'a', 'n', 'd'] = 0 then
    { v.boat with locationType := LocationType.LAND,
                  details := LocationDetails.bayLetter (v.detailStr.headD (Char.ofNat 0)) }
  else if strcasecmp v.locType ['t', 'r', 'a', 'i', 'l', 'o', 'r'] = 0 then
    { v.boat with locationType := LocationType.TRAILOR,
                  details := LocationDetails.trailorLicense (v.detailStr.take 9) }
  else if strcasecmp v.locType ['s', 't', 'o', 'r', 'a', 'g', 'e'] = 0 then
    { v.boat with locationType := LocationType.STORAGE,
                  details := scanDetail LocationDetails.storageNumber v.boat.details v.detailStr }
  else v.boat

/-- Memory in which the name, `locType` and `detailStr` hold the empty string. -/
def blankMemory : Uninit :=
  ⟨⟨[], 0, LocationType.SLIP, LocationDetails.slipNumber 0, float.fin false 0⟩, [], []⟩

/-- Each string that the `sscanf` call writes for the line fits its buffer together with
the terminating NUL: the name in `name[MAX_NAME_LENGTH + 1]`, the tag in `locType[10]` and
the detail in `detailStr[20]`. The call is taken on memory that holds empty strings, so
the strings found afterwards are the ones written. -/
def FieldsFit (line : List Char) : Prop :=
  (sscanfBoat blankMemory line).boat.name.length ≤ MAX_NAME_LENGTH ∧
  (sscanfBoat blankMemory line).locType.length < 10 ∧
  (sscanfBoat blankMemory line).detailStr.length < 20

instance (line : List Char) : Decidable (FieldsFit line) := by
  unfold FieldsFit; infer_instance

/-! ## Sorting -/

/-- A comparison function that `qsort` may be given: it orders the elements totally and
transitively. -/
def Consistent {α : Type} (cmp : α → α → Int) : Prop :=
  (∀ a b, cmp a b ≤ 0 ∨ cmp b a ≤ 0) ∧ (∀ a b c, cmp a b ≤ 0 → cmp b c ≤ 0 → cmp a c ≤ 0)

/-- The contract of the C library function `qsort`: with a consistent comparison function
the array afterwards is a permutation of the array before, in ascending order. The order
of elements that compare equal is not specified. -/
def IsQsort (qsort : (Boat → Boat → Int) → List Boat → List Boat) : Prop :=
  ∀ cmp, Consistent cmp → ∀ l,
    (qsort cmp l).Perm l ∧ (qsort cmp l).Pairwise (fun a b => cmp a b ≤ 0)

/-- Insertion sort, an instance of `qsort`. -/
def insertionQsort (cmp : Boat → Boat → Int) (l : List Boat) : List Boat :=
  l.insertionSort (fun a b => cmp a b ≤ 0)

/-! ## Adding and loading -/

/-- The function `addBoat`: the new store and the text printed. -/
def addBoat (qsort : (Boat → Boat → Int) → List Boat → List Boat) (u : Uninit)
    (boats : List Boat) (boatData : List Char) : List Boat × String :=
  if boats.length ≥ MAX_BOATS then
    (boats, "Cannot add more boats. Maximum capacity reached.\n")
  else
    (qsort compareBoats (boats ++ [parseBoat u boatData]), "")

/-- The loop of `fgets`: at most `n` characters, ending after a newline. -/
def fgetsAux : Nat → List Char → List Char × List Char
  | 0, s => ([], s)
  | _ + 1, [] => ([], [])
  | n + 1, c :: s =>
    if c = '\n' then ([c], s) else ((fgetsAux n s).1.cons c, (fgetsAux n s).2)

/-- The call `fgets(line, size, file)`: the characters read and the rest of the stream, or
`none` at the end of the stream. -/
def fgets (size : Nat) (stream : List Char) : Option (List Char × List Char) :=
  if stream = [] then none else some (fgetsAux (size - 1) stream)

/-- The statement `if (len > 0 && line[len-1] == '\n') line[len-1] = '\0';`. -/
def stripNewline (line : List Char) : List Char :=
  if line.getLast? = some '\n' then line.dropLast else line

/-- The reading loop of `loadBoats`,
`while (fgets(line, sizeof(line), file) && *boatCount < MAX_BOATS)`, with `fuel` the
number of records that still fit; `g i` is the indeterminate memory of the record with
index `i`. -/
def loadLoop (g : Nat → Uninit) : Nat → List Char → List Boat → List Boat
  | 0, _, boats => boats
  | fuel + 1, stream, boats =>
    match fgets 256 stream with
    | none => boats
    | some (line, rest) =>
      loadLoop g fuel rest (boats ++ [parseBoat (g boats.length) (stripNewline line)])

/-- The strings of every line that the reading loop hands to the parsing code fit their
buffers; `fuel` as in `loadLoop`. -/
def streamFits : Nat → List Char → Bool
  | 0, _ => true
  | fuel + 1, stream =>
    match fgets 256 stream with
    | none => true
    | some (line, rest) => decide (FieldsFit (stripNewline line)) && streamFits fuel rest

/-- The function `loadBoats`: `file` is the content of the file, `none` when it cannot be
opened; the new store and the text printed. -/
def loadBoats (qsort : (Boat → Boat → Int) → List Boat → List Boat) (g : Nat → Uninit)
    (filename : String) (file : Option (List Char)) (boats : List Boat) : List Boat × String :=
  match file with
  | none => (boats, "Could not open file " ++ filename ++ ". Starting with empty inventory.\n")
  | some stream => (qsort compareBoats (loadLoop g MAX_BOATS stream []), "")

/-! ## Saving -/

/-- The location part of a line written by `saveBoats`: the `switch` on `locationType`
with the member of `details` that each case reads; `none` when that member is not the one
the union holds. -/
def saveLocation (b : Boat) : Option (List Char) :=
  match b.locationType, b.details with
  | LocationType.SLIP, LocationDetails.slipNumber n =>
    some (['s', 'l', 'i', 'p', ','] ++ fmt_d n ++ [','])
  | LocationType.LAND, LocationDetails.bayLetter c =>
    some (['l', 'a', 'n', 'd', ','] ++ [c] ++ [','])
  | LocationType.TRAILOR, LocationDetails.trailorLicense s =>
    some (['t', 'r', 'a', 'i', 'l', 'o', 'r', ','] ++ s ++ [','])
  | LocationType.STORAGE, LocationDetails.storageNumber n =>
    some (['s', 't', 'o', 'r', 'a', 'g', 'e', ','] ++ fmt_d n ++ [','])
  | _, _ => none

/-- The three `fprintf` calls of one iteration of `saveBoats`. -/
def saveLine (b : Boat) : Option (List Char) :=
  match saveLocation b with
  | some loc => some (b.name ++ [','] ++ fmt_d b.length ++ [','] ++ loc ++ fmt_2f b.amountOwed
      ++ ['\n'])
  | none => none

/-- The function `saveBoats` when the file can be opened: the text written to the file. -/
def saveBoats : List Boat → Option (List Char)
  | [] => some []
  | b :: rest =>
    match saveLine b, saveBoats rest with
    | some l, some t => some (l ++ t)
    | _, _ => none

/-! ## Lookup, removal and payment -/

/-- The search loop of `removeBoat` and `acceptPayment`:
`for (i = ...; i < boatCount; i++) if (strcasecmp(boats[i]->name, boatName) == 0) ...break`.
The first argument is the index of the head of the list still to be searched. -/
def findLoop (boatName : List Char) : Nat → List Boat → Option Nat
  | _, [] => none
  | i, b :: rest => if strcasecmp b.name boatName = 0 then some i else findLoop boatName (i + 1) rest

/-- The value of `foundIndex` after the search loop (`none` for `-1`). -/
def findBoat (boats : List Boat) (boatName : List Char) : Option Nat :=
  findLoop boatName 0 boats

/-- The shift loop of `removeBoat`:
`for (i = foundIndex; i < boatCount - 1; i++) boats[i] = boats[i + 1];`
with `fuel` the number of iterations still to run. -/
def shiftLoop : Nat → Nat → List Boat → List Boat
  | 0, _, boats => boats
  | fuel + 1, i, boats =>
    match boats[i + 1]? with
    | some b => shiftLoop fuel (i + 1) (boats.set i b)
    | none => boats

/-- The function `removeBoat` after the name has been read: the new store and the text
printed. -/
def removeBoat (boats : List Boat) (boatName : List Char) : List Boat × String :=
  match findBoat boats boatName with
  | some foundIndex =>
    let shifted := shiftLoop (boats.length - 1 - foundIndex) foundIndex boats
    (shifted.take (boats.length - 1), "")
  | none => (boats, "No boat with that name\n\n")

/-- The function `acceptPayment` after the name has been read; `paymentAmount` is what
`scanf("%f", &paymentAmount)` leaves in the variable. The new store and the text
printed. The index that the search loop gives is always inside the store, so the last
but one case is never taken. -/
def acceptPayment (boats : List Boat) (boatName : List Char) (paymentAmount : float) :
    List Boat × String :=
  match findBoat boats boatName with
  | some foundIndex =>
    match boats[foundIndex]? with
    | some b =>
      if paymentAmount.gt b.amountOwed then
        (boats, "Please enter the amount to be paid                 : " ++
          "That is more than the amount owed, $" ++ String.mk (fmt_2f b.amountOwed) ++ "\n\n")
      else
        (boats.set foundIndex { b with amountOwed := b.amountOwed.sub paymentAmount },
          "Please enter the amount to be paid                 : ")
    | none => (boats, "")
  | none => (boats, "No boat with that name\n\n")

/-! ## Monthly fees -/

/-- The constant of type `double` that a decimal literal `m / 10^e` denotes. -/
def doubleLit (m e : Nat) : double := mkDouble false (m * 2 ^ 1074) (10 ^ e)

/-- The factor of the `switch` in `updateMonthlyFees`: the literals `12.50`, `14.00`,
`25.00` and `11.20`. -/
def feeRate : LocationType → double
  | LocationType.SLIP => doubleLit 1250 2
  | LocationType.LAND => doubleLit 1400 2
  | LocationType.TRAILOR => doubleLit 2500 2
  | LocationType.STORAGE => doubleLit 1120 2

/-- One iteration of the loop of `updateMonthlyFees`:
`boats[i]->amountOwed += rate * boats[i]->length;` where the product and the sum are
computed in `double` and the result is converted to `float`. -/
def accrue (b : Boat) : Boat :=
  { b with amountOwed :=
      (b.amountOwed.toDouble.add ((feeRate b.locationType).mul (double.ofInt b.length))).toFloat }

/-- The function `updateMonthlyFees`: the new store and the text printed. -/
def updateMonthlyFees (boats : List Boat) : List Boat × String :=
  (boats.map accrue, "\n")

/-! ## Notions used by the statements -/

/-- The exact value of a finite `float`, in units of `2^(-149)`. -/
def float.units : float → Option Int
  | float.fin s k => some (signed s k)
  | _ => none

/-- The exact value of a finite `float`, in currency units. -/
def float.value : float → Option ℚ
  | float.fin s k => some ((signed s k : ℚ) / 2 ^ 149)
  | _ => none

/-- The monthly rate per foot of the specification, as an exact number. -/
def ratePerFoot : LocationType → ℚ
  | LocationType.SLIP => 12.50
  | LocationType.LAND => 14.00
  | LocationType.TRAILOR => 25.00
  | LocationType.STORAGE => 11.20

/-- The amount that a reload gives: the value shown with two decimals by `%.2f` (the exact
value rounded to hundredths, ties to even), converted to the nearest `float`. -/
def round2 : float → float
  | float.nan => float.nan
  | float.inf s => float.inf s
  | float.fin s k => floatOfScaled s (hundredths k) (-2) 0

/-- A record after a save and a reload: the amount owed is rounded to two decimals. -/
def reloaded (b : Boat) : Boat := { b with amountOwed := round2 b.amountOwed }

/-- The record found by the search loop: the first one whose name equals `boatName`
ignoring case. -/
def FirstMatch (boats : List Boat) (boatName : List Char) (i : Nat) (b : Boat) : Prop :=
  boats[i]? = some b ∧ strcasecmp b.name boatName = 0 ∧
    ∀ c ∈ boats.take i, strcasecmp c.name boatName ≠ 0

instance (boats : List Boat) (boatName : List Char) (i : Nat) (b : Boat) :
    Decidable (FirstMatch boats boatName i b) := by
  unfold FirstMatch; infer_instance

/-- The location type that the chain of `strcasecmp` tests selects for a tag. -/
def tagType (tag : List Char) : Option LocationType :=
  if strcasecmp tag ['s', 'l', 'i', 'p'] = 0 then some LocationType.SLIP
  else if strcasecmp tag ['l', 'a', 'n', 'd'] = 0 then some LocationType.LAND
  else if strcasecmp tag ['t', 'r', 'a', 'i', 'l', 'o', 'r'] = 0 then some LocationType.TRAILOR
  else if strcasecmp tag ['s', 't', 'o', 'r', 'a', 'g', 'e'] = 0 then some LocationType.STORAGE
  else none

/-- The location detail that a detail text denotes for a location type: the leading
number, the first character, or the first nine characters. -/
def detailValue : LocationType → List Char → Option LocationDetails
  | LocationType.SLIP, d => (scan_d d).map (fun r => LocationDetails.slipNumber r.1)
  | LocationType.LAND, d => d.head?.map LocationDetails.bayLetter
  | LocationType.TRAILOR, d => some (LocationDetails.trailorLicense (d.take 9))
  | LocationType.STORAGE, d => (scan_d d).map (fun r => LocationDetails.storageNumber r.1)

/-- A field that the directive `%[^,]` reads whole: not empty and without a comma. -/
def IsField (s : List Char) : Prop := s ≠ [] ∧ ',' ∉ s

instance (s : List Char) : Decidable (IsField s) := by unfold IsField; infer_instance

/-- A text without a comma and without a line break. -/
def PlainText (s : List Char) : Prop := ',' ∉ s ∧ '\n' ∉ s

instance (s : List Char) : Decidable (PlainText s) := by unfold PlainText; infer_instance

/-- An `int`. -/
def IsInt (i : Int) : Prop := -2 ^ 31 ≤ i ∧ i < 2 ^ 31

instance (i : Int) : Decidable (IsInt i) := by unfold IsInt; infer_instance

/-- The location detail is the member of the union that the location type selects, and it
is a slip number, a bay letter, a plate of one to nine characters, or a storage number. -/
def WellFormedLocation : LocationType → LocationDetails → Prop
  | LocationType.SLIP, LocationDetails.slipNumber n => IsInt n
  | LocationType.LAND, LocationDetails.bayLetter c => isalpha c = true
  | LocationType.TRAILOR, LocationDetails.trailorLicense s =>
    s ≠ [] ∧ s.length ≤ 9 ∧ PlainText s
  | LocationType.STORAGE, LocationDetails.storageNumber n => IsInt n
  | _, _ => False

instance (ty : LocationType) (d : LocationDetails) : Decidable (WellFormedLocation ty d) := by
  cases ty <;> cases d <;> unfold WellFormedLocation <;> infer_instance

/-- A well-formed record. -/
def WellFormed (b : Boat) : Prop :=
  b.name ≠ [] ∧ b.name.length ≤ MAX_NAME_LENGTH ∧ PlainText b.name ∧ IsInt b.length ∧
  WellFormedLocation b.locationType b.details ∧ b.amountOwed.valid

instance (b : Boat) : Decidable (WellFormed b) := by unfold WellFormed; infer_instance

/-! ## Sample data -/

/-- Indeterminate memory used by the examples. -/
def exampleUninit : Uninit :=
  ⟨⟨[], 0, LocationType.SLIP, LocationDetails.slipNumber 0, float.fin false 0⟩, [], []⟩

/-- A boat of length 20 in slip 15 that owes `owed` whole currency units. -/
def exampleBoat (name : String) (owed : Nat) : Boat :=
  ⟨name.toList, 20, LocationType.SLIP, LocationDetails.slipNumber 15,
    float.fin false (owed * 2 ^ 149)⟩

/-- A store with two records whose names are equal ignoring case. -/
def exampleStore : List Boat :=
  [exampleBoat "Amy" 100, exampleBoat "bob" 250, exampleBoat "Bob" 0]

/-- A boat of length 1 in slip 3 that owes 16777216.00. -/
def exampleSkiff : Boat :=
  ⟨"Skiff".toList, 1, LocationType.SLIP, LocationDetails.slipNumber 3,
    float.fin false (16777216 * 2 ^ 149)⟩

/-- A boat of length 1 in storage bay 7 that owes nothing. -/
def exampleStorageBoat : Boat :=
  ⟨"Dinghy".toList, 1, LocationType.STORAGE, LocationDetails.storageNumber 7, float.fin false 0⟩

/-! ## Tags, saved lines and files of lines -/

/-- The lower-case word of a location type, `slip`, `land`, `trailor` or `storage`: the
word that the parsing code compares the tag with and that `saveBoats` writes. -/
def tagWord : LocationType → List Char
  | LocationType.SLIP => ['s', 'l', 'i', 'p']
  | LocationType.LAND => ['l', 'a', 'n', 'd']
  | LocationType.TRAILOR => ['t', 'r', 'a', 'i', 'l', 'o', 'r']
  | LocationType.STORAGE => ['s', 't', 'o', 'r', 'a', 'g', 'e']

/-- Two texts are equal ignoring case: they have the same characters after `tolower`. -/
def EqIgnoreCase (a b : List Char) : Prop := a.map tolower = b.map tolower

instance (a b : List Char) : Decidable (EqIgnoreCase a b) := by
  unfold EqIgnoreCase; infer_instance

/-- A C string: a text without the character NUL. -/
def NoNul (s : List Char) : Prop := Char.ofNat 0 ∉ s

instance (s : List Char) : Decidable (NoNul s) := by unfold NoNul; infer_instance

/-- The end of a field: nothing more, or a comma and more. -/
def FieldEnd (rest : List Char) : Prop := rest = [] ∨ ∃ r, rest = ',' :: r

/-- What follows the tag of a line without a detail: nothing, or a comma followed by
nothing or by another comma. -/
def NoDetail (rest : List Char) : Prop :=
  rest = [] ∨ rest = [','] ∨ ∃ r, rest = ',' :: ',' :: r

/-- The decimal numeral of an integer: a minus sign when it is negative, then its digits,
without a superfluous leading zero. -/
def IsDecimalOf (i : Int) (t : List Char) : Prop :=
  ∃ ds : List Char, t = (if i < 0 then ['-'] else []) ++ ds ∧ ds ≠ [] ∧
    (∀ c ∈ ds, isdigit c = true) ∧ digitsValue ds = i.natAbs ∧
    (ds.head? = some '0' → ds = ['0'])

/-- A text of the amount `± k · 2^(-149)` with exactly two fractional digits: a minus sign
when the sign is set, the digits of the whole part, a point and two digits; the number of
hundredths shown differs from the exact amount by at most half a hundredth. -/
def IsTwoDecimalsOf (neg : Bool) (k : Nat) (t : List Char) : Prop :=
  ∃ (ds : List Char) (d1 d2 : Char),
    t = (if neg then ['-'] else []) ++ ds ++ ['.', d1, d2] ∧ ds ≠ [] ∧
    (∀ c ∈ ds, isdigit c = true) ∧ isdigit d1 = true ∧ isdigit d2 = true ∧
    (ds.head? = some '0' → ds = ['0']) ∧
    2 * (digitsValue (ds ++ [d1, d2]) * 2 ^ 149) ≤ 2 * (k * 100) + 2 ^ 149 ∧
    2 * (k * 100) ≤ 2 * (digitsValue (ds ++ [d1, d2]) * 2 ^ 149) + 2 ^ 149

/-- The text of a location detail: the decimal slip number, the bay letter, the plate as it
is, or the decimal storage number. -/
def IsDetailText : LocationDetails → List Char → Prop
  | LocationDetails.slipNumber n, t => IsDecimalOf n t
  | LocationDetails.bayLetter c, t => t = [c]
  | LocationDetails.trailorLicense s, t => t = s
  | LocationDetails.storageNumber n, t => IsDecimalOf n t

/-- The text of a finite amount owed, with exactly two fractional digits. -/
def IsAmountText : float → List Char → Prop
  | float.fin s k, t => IsTwoDecimalsOf s k t
  | _, _ => False

/-- A line `name,length,tag,detail,amount` of a record, without its newline. -/
def IsRecordLine (b : Boat) (line : List Char) : Prop :=
  ∃ lengthText detailText amountText : List Char,
    line = b.name ++ ',' :: (lengthText ++ ',' :: (tagWord b.locationType ++ ',' ::
      (detailText ++ ',' :: amountText))) ∧
    IsDecimalOf b.length lengthText ∧ IsDetailText b.details detailText ∧
    IsAmountText b.amountOwed amountText

/-- The union holds the member that the location type selects. -/
def MemberMatches : LocationType → LocationDetails → Prop
  | LocationType.SLIP, LocationDetails.slipNumber _ => True
  | LocationType.LAND, LocationDetails.bayLetter _ => True
  | LocationType.TRAILOR, LocationDetails.trailorLicense _ => True
  | LocationType.STORAGE, LocationDetails.storageNumber _ => True
  | _, _ => False

instance (ty : LocationType) (d : LocationDetails) : Decidable (MemberMatches ty d) := by
  cases ty <;> cases d <;> unfold MemberMatches <;> infer_instance

/-- Neither the name nor the bay letter or plate of the record has a line break. -/
def NoLineBreak (b : Boat) : Prop :=
  '\n' ∉ b.name ∧
  match b.details with
  | LocationDetails.bayLetter c => c ≠ '\n'
  | LocationDetails.trailorLicense s => '\n' ∉ s
  | _ => True

/-- The text of a file with the given lines, each ended by a newline. -/
def fileText (lines : List (List Char)) : List Char := lines.flatMap (fun l => l ++ ['\n'])

/-- A boat that owes an infinite amount. -/
def exampleInfinite : Boat :=
  ⟨"Marlin".toList, 20, LocationType.SLIP, LocationDetails.slipNumber 15, float.inf false⟩

/-- A store with one boat at each kind of location. -/
def exampleFleet : List Boat :=
  [⟨"Ark".toList, 30, LocationType.LAND, LocationDetails.bayLetter 'C', float.fin false 0⟩,
   ⟨"Gull".toList, 18, LocationType.TRAILOR, LocationDetails.trailorLicense "ABC123".toList,
     float.fin false (25 * 2 ^ 148)⟩,
   exampleBoat "Marlin" 150,
   exampleStorageBoat]

/-- The lines of a file: the lines ended by a newline and, when it is not empty, the text
after the last newline. -/
def allLines (lines : List (List Char)) (last : List Char) : List (List Char) :=
  if last = [] then lines else lines ++ [last]

/-- The records that the parsing code makes of a list of lines; the record of the line with
index `i` is made in the memory `g (start + i)`. -/
def parseLines (g : Nat → Uninit) : Nat → List (List Char) → List Boat
  | _, [] => []
  | start, l :: ls => parseBoat (g start) l :: parseLines g (start + 1) ls

/-- A line that describes a record: `name,length,tag,detail,amount` with a name and a
detail that are not empty, a length that is a numeral, one of the four tags ignoring case,
a detail that fits the tag and an amount that is a number. -/
def Describes (line : List Char) (b : Boat) : Prop :=
  ∃ lengthText tag detail amountText : List Char,
    line = b.name ++ ',' :: (lengthText ++ ',' :: (tag ++ ',' :: (detail ++ ',' :: amountText))) ∧
    IsField b.name ∧ scan_d lengthText = some (b.length, []) ∧
    IsField tag ∧ tagType tag = some b.locationType ∧
    IsField detail ∧ detailValue b.locationType detail = some b.details ∧
    scan_f amountText = some b.amountOwed

/-- The store is in ascending order of the names compared ignoring case. -/
def SortedByName (boats : List Boat) : Prop :=
  boats.Pairwise (fun a b => compareBoats a b ≤ 0)

instance (boats : List Boat) : Decidable (SortedByName boats) := by
  unfold SortedByName; infer_instance

/-- A store that holds Amy twice, with different amounts owed. -/
def exampleTwins : List Boat :=
  [exampleBoat "Amy" 100, exampleBoat "amy" 250, exampleBoat "Bob" 0]

/-- The name field of a line: the characters before the first comma. -/
def nameField (line : List Char) : List Char := line.takeWhile (fun c => c ≠ ',')

/-- A line of 145 characters whose name field has 130 characters. -/
def exampleLongLine : List Char := List.replicate 130 'A' ++ ",20,slip,1,0.00".toList

/-- Memory in which `detailStr` holds the detail of an earlier line. -/
def exampleStale : Uninit :=
  ⟨exampleUninit.boat, "trailor".toList, "ABC123".toList⟩

/-- The store after calling `addBoat` on each line in turn; as in `loadBoats`, the record
with index `i` is made in the memory `g i`. -/
def addEach (qsort : (Boat → Boat → Int) → List Boat → List Boat) (g : Nat → Uninit) :
    List Boat → List (List Char) → List Boat
  | boats, [] => boats
  | boats, l :: ls => addEach qsort g (addBoat qsort (g boats.length) boats l).1 ls

/-- The lines bob, Amy, Cleo, the last of them with one field only. -/
def exampleLines : List (List Char) :=
  ["bob,20,slip,15,250.00".toList, "Amy,20,slip,15,100.00".toList, "Cleo".toList]

/-- A line of 300 characters: the amount is written with 281 fractional digits. -/
def exampleLongAmount : List Char := "Amy,20,slip,15,100.".toList ++ List.replicate 281 '0'

/-! # Theorems -/

set_option maxRecDepth 100000
set_option exponentiation.threshold 4096

/-! ## Lists and scanning -/

/-- Skipping a prefix stays inside the first list when something of it is left. -/
theorem dropWhile_append_of_ne_nil (p : Char → Bool) (l1 l2 : List Char)
    (h : l1.dropWhile p ≠ []) : (l1 ++ l2).dropWhile p = l1.dropWhile p ++ l2 := by
  induction l1 with
  | nil => simp at h
  | cons x xs ih =>
    by_cases hx : p x = true
    · simp only [List.cons_append, List.dropWhile_cons, hx, if_true] at h ⊢
      exact ih h
    · simp [List.dropWhile_cons, hx]

/-- A run that fills the first list ends at a following character outside the class. -/
theorem takeWhile_append_stop (p : Char → Bool) (l1 : List Char) (c : Char) (r : List Char)
    (h : l1.dropWhile p = []) (hc : p c = false) :
    (l1 ++ c :: r).takeWhile p = l1 ∧ (l1 ++ c :: r).dropWhile p = c :: r := by
  induction l1 with
  | nil => simp [List.takeWhile_cons, List.dropWhile_cons, hc]
  | cons x xs ih =>
    by_cases hx : p x = true
    · simp only [List.dropWhile_cons, hx, if_true] at h
      simp only [List.cons_append, List.takeWhile_cons, List.dropWhile_cons, hx, if_true]
      exact ⟨by rw [(ih h).1], (ih h).2⟩
    · simp [List.dropWhile_cons, hx] at h

/-- A list of characters of the class is taken whole. -/
theorem takeWhile_all (p : Char → Bool) (l : List Char) (h : ∀ c ∈ l, p c = true) :
    l.takeWhile p = l ∧ l.dropWhile p = [] := by
  have h1 : l.dropWhile p = [] := List.dropWhile_eq_nil_iff.mpr h
  refine ⟨?_, h1⟩
  have := List.takeWhile_append_dropWhile p l
  rw [h1, List.append_nil] at this
  exact this

/-- The directive `%[^,]` reads a field up to the comma that follows it. -/
theorem takeWhile_field (f rest : List Char) (h : ',' ∉ f) :
    (f ++ ',' :: rest).takeWhile (fun c => c ≠ ',') = f ∧
    (f ++ ',' :: rest).dropWhile (fun c => c ≠ ',') = ',' :: rest := by
  apply takeWhile_append_stop
  · rw [List.dropWhile_eq_nil_iff]
    intro x hx
    have : x ≠ ',' := fun hxc => h (hxc ▸ hx)
    simpa using this
  · simp

/-- The sign is read from the front of a text that is not empty. -/
theorem scanSign_append (w y : List Char) (h : w ≠ []) :
    scanSign (w ++ y) = ((scanSign w).1, (scanSign w).2 ++ y) := by
  cases w with
  | nil => exact absurd rfl h
  | cons x xs =>
    simp only [List.cons_append, scanSign]
    split_ifs <;> rfl

/-- The directive `%d` reads a complete number the same way when a character that is not
a digit follows it. -/
theorem scan_d_append (t : List Char) (n : Int) (c : Char) (r : List Char)
    (h : scan_d t = some (n, [])) (hc : isdigit c = false) :
    scan_d (t ++ c :: r) = some (n, c :: r) := by
  unfold scan_d at h ⊢
  have hw : t.dropWhile isspace ≠ [] := by
    intro h0
    rw [h0] at h
    simp [scanSign] at h
  rw [dropWhile_append_of_ne_nil isspace t (c :: r) hw, scanSign_append _ _ hw]
  generalize scanSign (List.dropWhile isspace t) = sg at h ⊢
  obtain ⟨neg, s1⟩ := sg
  simp only at h ⊢
  split_ifs at h with hds
  simp only [Option.some.injEq, Prod.mk.injEq] at h
  obtain ⟨hn, hrest⟩ := h
  obtain ⟨htake, hdrop⟩ := takeWhile_append_stop isdigit s1 c r hrest hc
  have hs1 : s1.takeWhile isdigit = s1 := by
    have := List.takeWhile_append_dropWhile isdigit s1
    rw [hrest, List.append_nil] at this
    exact this
  rw [htake, hdrop]
  rw [hs1] at hds hn
  simp [hds, hn]

/-! ## Comparison of names -/

/-- Swapping the arguments of `strcasecmp` negates the result. -/
theorem strcasecmp_antisymm (a b : List Char) : strcasecmp b a = - strcasecmp a b := by
  induction a generalizing b with
  | nil => cases b <;> simp [strcasecmp]
  | cons x as ih =>
    cases b with
    | nil => simp [strcasecmp]
    | cons y bs =>
      simp only [strcasecmp]
      by_cases h : tolower x = tolower y
      · rw [if_pos h, if_pos h.symm, ih bs, h]
        split_ifs <;> simp
      · rw [if_neg h, if_neg (fun h2 => h h2.symm)]
        omega

/-- The order `strcasecmp a b ≤ 0` is transitive. -/
theorem strcasecmp_trans (a b c : List Char) (h1 : strcasecmp a b ≤ 0)
    (h2 : strcasecmp b c ≤ 0) : strcasecmp a c ≤ 0 := by
  induction a generalizing b c with
  | nil => cases c <;> simp [strcasecmp]
  | cons x as ih =>
    cases b with
    | nil =>
      cases c with
      | nil => simpa [strcasecmp] using h1
      | cons z cs =>
        simp only [strcasecmp] at h1 h2 ⊢
        split_ifs <;> omega
    | cons y bs =>
      cases c with
      | nil =>
        simp only [strcasecmp] at h1 h2 ⊢
        split_ifs at h1 <;> omega
      | cons z cs =>
        simp only [strcasecmp] at h1 h2 ⊢
        by_cases hxy : tolower x = tolower y
        · by_cases hyz : tolower y = tolower z
          · rw [if_pos hxy] at h1
            rw [if_pos hyz] at h2
            rw [if_pos (hxy.trans hyz)]
            by_cases h0 : tolower x = 0
            · rw [if_pos h0]
            · rw [if_neg h0] at h1 ⊢
              rw [if_neg (fun h => h0 (hxy.trans h))] at h2
              exact ih bs cs h1 h2
          · rw [if_neg hyz] at h2
            rw [if_neg (fun h => hyz (hxy.symm.trans h))]
            omega
        · rw [if_neg hxy] at h1
          by_cases hyz : tolower y = tolower z
          · rw [if_neg (fun h => hxy (h.trans hyz.symm))]
            omega
          · rw [if_neg hyz] at h2
            have : tolower x ≠ tolower z := by omega
            rw [if_neg this]
            omega

/-- The comparison function `compareBoats` is one that `qsort` may be given. -/
theorem compareBoats_consistent : Consistent compareBoats := by
  constructor
  · intro a b
    have := strcasecmp_antisymm a.name b.name
    unfold compareBoats
    omega
  · intro a b c h1 h2
    exact strcasecmp_trans a.name b.name c.name h1 h2

/-- Insertion sort meets the contract of `qsort`. -/
theorem insertionQsort_isQsort : IsQsort insertionQsort := by
  intro cmp hc l
  haveI : IsTotal Boat (fun a b => cmp a b ≤ 0) := ⟨hc.1⟩
  haveI : IsTrans Boat (fun a b => cmp a b ≤ 0) := ⟨hc.2⟩
  exact ⟨List.perm_insertionSort _ l, List.sorted_insertionSort _ l⟩

/-- Sorting leaves a store alone whose names are in order and distinct ignoring case. -/
theorem qsort_sorted_distinct (qsort : (Boat → Boat → Int) → List Boat → List Boat)
    (hq : IsQsort qsort) (l : List Boat)
    (hsorted : l.Pairwise (fun a b => compareBoats a b ≤ 0))
    (hdistinct : l.Pairwise (fun a b => compareBoats a b ≠ 0)) :
    qsort compareBoats l = l := by
  obtain ⟨hperm, hs⟩ := hq compareBoats compareBoats_consistent l
  refine List.Perm.eq_of_sorted ?_ hs hsorted hperm
  intro a b ha hb hab hba
  by_contra hne
  have hsym : Symmetric (fun a b : Boat => compareBoats a b ≠ 0) := by
    intro x y hxy
    have := strcasecmp_antisymm x.name y.name
    unfold compareBoats at hxy ⊢
    omega
  have := List.Pairwise.forall hsym hdistinct (hperm.subset ha) hb hne
  have h2 := strcasecmp_antisymm a.name b.name
  unfold compareBoats at this hab hba
  omega

/-! ## The search and shift loops -/

/-- The search loop finds nothing when no name matches. -/
theorem findLoop_none (boatName : List Char) (boats : List Boat)
    (h : ∀ b ∈ boats, strcasecmp b.name boatName ≠ 0) (k : Nat) :
    findLoop boatName k boats = none := by
  induction boats generalizing k with
  | nil => rfl
  | cons b rest ih =>
    have hb : strcasecmp b.name boatName ≠ 0 := h b (List.mem_cons_self _ _)
    simp only [findLoop, hb, if_false]
    exact ih (fun c hc => h c (List.mem_cons_of_mem _ hc)) (k + 1)

/-- The search loop stops at the first match. -/
theorem findLoop_firstMatch (boatName : List Char) (boats : List Boat) (i : Nat) (b : Boat)
    (h : FirstMatch boats boatName i b) (k : Nat) :
    findLoop boatName k boats = some (k + i) := by
  induction boats generalizing k i with
  | nil => simp [FirstMatch] at h
  | cons c rest ih =>
    obtain ⟨hget, hm, hfirst⟩ := h
    cases i with
    | zero =>
      simp only [List.getElem?_cons_zero, Option.some.injEq] at hget
      subst hget
      simp [findLoop, hm]
    | succ i =>
      have hc : strcasecmp c.name boatName ≠ 0 := hfirst c (by simp)
      simp only [findLoop, hc, if_false]
      have := ih i ⟨by simpa using hget, hm, fun d hd => hfirst d (by simp [hd])⟩ (k + 1)
      rw [this]; congr 1; omega

/-- When some name matches there is a first match. -/
theorem exists_firstMatch (boatName : List Char) (boats : List Boat)
    (h : ∃ b ∈ boats, strcasecmp b.name boatName = 0) :
    ∃ i b, FirstMatch boats boatName i b := by
  induction boats with
  | nil => simp at h
  | cons c rest ih =>
    by_cases hc : strcasecmp c.name boatName = 0
    · exact ⟨0, c, by simp, hc, by simp⟩
    · obtain ⟨b, hb, hm⟩ := h
      have hb2 : b ∈ rest := by
        rcases List.mem_cons.mp hb with rfl | h2
        · exact absurd hm hc
        · exact h2
      obtain ⟨i, d, hget, hd, hfirst⟩ := ih ⟨b, hb2, hm⟩
      refine ⟨i + 1, d, by simpa using hget, hd, ?_⟩
      intro e he
      rcases List.mem_cons.mp (by simpa using he) with rfl | h3
      · exact hc
      · exact hfirst e h3

/-- The shift loop moves every record after the removed one a place down; the last slot
keeps its old content. -/
theorem shiftLoop_append (pre suf : List Boat) (x : Boat) :
    shiftLoop suf.length pre.length (pre ++ x :: suf)
      = pre ++ suf ++ [(x :: suf).getLast (List.cons_ne_nil _ _)] := by
  induction suf generalizing pre x with
  | nil => simp [shiftLoop]
  | cons y suf ih =>
    have h1 : (pre ++ x :: y :: suf)[pre.length + 1]? = some y := by
      rw [List.getElem?_append_right (by omega)]
      simp
    have h2 : (pre ++ x :: y :: suf).set pre.length y = (pre ++ [y]) ++ y :: suf := by
      simp [List.set_append_right]
    simp only [List.length_cons, shiftLoop, h1, h2]
    have := ih (pre ++ [y]) y
    simp only [List.length_append, List.length_singleton] at this
    rw [this]
    simp

/-- With a first match at `i`, `removeBoat` erases the record at `i`. -/
theorem removeBoat_firstMatch (boats : List Boat) (boatName : List Char) (i : Nat) (b : Boat)
    (h : FirstMatch boats boatName i b) :
    removeBoat boats boatName = (boats.eraseIdx i, "") := by
  have hfind : findBoat boats boatName = some i := by
    have := findLoop_firstMatch boatName boats i b h 0
    simpa [findBoat] using this
  have hget : boats[i]? = some b := h.1
  have hi : i < boats.length := (List.getElem?_eq_some_iff.mp hget).1
  obtain ⟨pre, suf, hsplit, hlen⟩ : ∃ pre suf, boats = pre ++ b :: suf ∧ pre.length = i := by
    refine ⟨boats.take i, boats.drop (i + 1), ?_, by simp; omega⟩
    obtain ⟨hi', hb⟩ := List.getElem?_eq_some_iff.mp hget
    rw [← hb]
    simp
  subst hsplit
  subst hlen
  simp only [removeBoat, hfind]
  have hfuel : (pre ++ b :: suf).length - 1 - pre.length = suf.length := by simp
  rw [hfuel, shiftLoop_append]
  have : (pre ++ b :: suf).length - 1 = (pre ++ suf).length := by simp
  rw [this, List.take_left']
  · congr 1
    rw [List.eraseIdx_append_of_length_le (le_refl _)]
    simp
  · rfl

/-- With a first match and no overpayment, `acceptPayment` subtracts in place. -/
theorem acceptPayment_firstMatch (boats : List Boat) (boatName : List Char)
    (paymentAmount : float) (i : Nat) (b : Boat) (hfound : FirstMatch boats boatName i b)
    (hok : paymentAmount.gt b.amountOwed = false) :
    acceptPayment boats boatName paymentAmount
      = (boats.set i { b with amountOwed := b.amountOwed.sub paymentAmount },
          "Please enter the amount to be paid                 : ") := by
  have hfind : findBoat boats boatName = some i := by
    have := findLoop_firstMatch boatName boats i b hfound 0
    simpa [findBoat] using this
  have hget := hfound.1
  simp [acceptPayment, hfind, hget, hok]

/-- Either `acceptPayment` leaves the store alone or it subtracts an amount that is not
greater, in one place. -/
theorem acceptPayment_cases (boats : List Boat) (boatName : List Char) (p : float) :
    (acceptPayment boats boatName p).1 = boats ∨
    ∃ (i : Nat) (b : Boat), boats[i]? = some b ∧ p.gt b.amountOwed = false ∧
      (acceptPayment boats boatName p).1 = boats.set i { b with amountOwed := b.amountOwed.sub p } := by
  unfold acceptPayment
  cases hfind : findBoat boats boatName with
  | none => left; rfl
  | some i =>
    cases hget : boats[i]? with
    | none => left; simp [hget]
    | some b =>
      by_cases hgt : p.gt b.amountOwed = true
      · left; simp [hget, hgt]
      · right
        refine ⟨i, b, hget, by simpa using hgt, ?_⟩
        simp [hget, hgt]

/-- Below capacity `addBoat` sorts the old records followed by the parsed one. -/
theorem addBoat_room (qsort : (Boat → Boat → Int) → List Boat → List Boat) (u : Uninit)
    (boats : List Boat) (boatData : List Char) (h : boats.length < MAX_BOATS) :
    addBoat qsort u boats boatData
      = (qsort compareBoats (boats ++ [parseBoat u boatData]), "") := by
  simp [addBoat, Nat.not_le.mpr h]

/-! ## Rounding -/

/-- The halving loop counts the bits when it has enough fuel. -/
theorem bitLengthAux_le_iff (fuel n b : Nat) (h : n ≤ fuel) :
    bitLengthAux fuel n ≤ b ↔ n < 2 ^ b := by
  induction fuel generalizing n b with
  | zero =>
    have : n = 0 := by omega
    subst this
    simp [bitLengthAux]
  | succ fuel ih =>
    unfold bitLengthAux
    split_ifs with h0
    · subst h0; simp
    · have hn : n / 2 ≤ fuel := by omega
      cases b with
      | zero => simp; omega
      | succ b =>
        rw [Nat.succ_le_succ_iff, ih (n / 2) b hn, pow_succ]
        omega

/-- A number has at most `b` bits exactly when it is below `2^b`. -/
theorem bitLength_le_iff (n b : Nat) : bitLength n ≤ b ↔ n < 2 ^ b :=
  bitLengthAux_le_iff n n b (le_refl n)

/-- A number is below two to the number of its bits. -/
theorem lt_two_pow_bitLength (n : Nat) : n < 2 ^ bitLength n :=
  (bitLength_le_iff n _).mp (le_refl _)

/-- The number of bits is monotone. -/
theorem bitLength_mono {m n : Nat} (h : m ≤ n) : bitLength m ≤ bitLength n :=
  (bitLength_le_iff m _).mpr (lt_of_le_of_lt h (lt_two_pow_bitLength n))

/-- Scaling by `2^j` adds at most `j` bits. -/
theorem bitLength_mul_pow_le (m j : Nat) : bitLength (m * 2 ^ j) ≤ bitLength m + j := by
  rw [bitLength_le_iff, pow_add]
  exact Nat.mul_lt_mul_of_pos_right (lt_two_pow_bitLength m) (Nat.pow_pos (by norm_num))

/-- Rounding with denominator one, unfolded. -/
theorem roundNE_one (p n : Nat) :
    roundNE p n 1 =
      (if 2 ^ (bitLength n - p) < 2 * (n % 2 ^ (bitLength n - p)) ∨
          (2 * (n % 2 ^ (bitLength n - p)) = 2 ^ (bitLength n - p) ∧
            n / 2 ^ (bitLength n - p) % 2 = 1)
        then n / 2 ^ (bitLength n - p) + 1 else n / 2 ^ (bitLength n - p))
        * 2 ^ (bitLength n - p) := by
  simp [roundNE]

/-- A multiple of its own rounding step is left alone by rounding. -/
theorem roundNE_of_dvd (p n : Nat) (h : 2 ^ (bitLength n - p) ∣ n) : roundNE p n 1 = n := by
  rw [roundNE_one]
  have hpos : 0 < 2 ^ (bitLength n - p) := Nat.pow_pos (by norm_num)
  have hr : n % 2 ^ (bitLength n - p) = 0 := Nat.mod_eq_zero_of_dvd h
  have hne : ¬ (2 ^ (bitLength n - p) < 2 * 0 ∨ (2 * 0 = 2 ^ (bitLength n - p) ∧
      n / 2 ^ (bitLength n - p) % 2 = 1)) := by
    rintro (h1 | ⟨h1, _⟩) <;> omega
  rw [hr, if_neg hne]
  exact Nat.div_mul_cancel h

/-- A number that rounding leaves alone is a multiple of its rounding step. -/
theorem dvd_of_roundNE_eq (p n : Nat) (h : roundNE p n 1 = n) : 2 ^ (bitLength n - p) ∣ n := by
  rw [roundNE_one] at h
  exact Dvd.intro_left _ h

/-- Rounding goes up by less than one step. -/
theorem roundNE_le_upper (p n : Nat) :
    roundNE p n 1 ≤ (n / 2 ^ (bitLength n - p) + 1) * 2 ^ (bitLength n - p) := by
  rw [roundNE_one]
  apply Nat.mul_le_mul_right
  split_ifs <;> omega

/-- Rounding does not step over a value of the format: what lies below stays below. -/
theorem roundNE_le_of_le (p n a : Nat) (ha : roundNE p a 1 = a) (h : n ≤ a) :
    roundNE p n 1 ≤ a := by
  have hs : bitLength n - p ≤ bitLength a - p := Nat.sub_le_sub_right (bitLength_mono h) p
  have hdvd : 2 ^ (bitLength n - p) ∣ a :=
    Dvd.dvd.trans (pow_dvd_pow 2 hs) (dvd_of_roundNE_eq p a ha)
  by_cases hn : 2 ^ (bitLength n - p) ∣ n
  · rw [roundNE_of_dvd p n hn]; exact h
  · obtain ⟨m, hm⟩ := hdvd
    have hpos : 0 < 2 ^ (bitLength n - p) := Nat.pow_pos (by norm_num)
    have hlt : n < a := by
      rcases Nat.lt_or_eq_of_le h with h1 | h1
      · exact h1
      · exact absurd ⟨m, h1.trans hm⟩ hn
    have hq : n / 2 ^ (bitLength n - p) < m := by
      rw [Nat.div_lt_iff_lt_mul hpos, mul_comm, ← hm]; exact hlt
    calc roundNE p n 1 ≤ (n / 2 ^ (bitLength n - p) + 1) * 2 ^ (bitLength n - p) :=
          roundNE_le_upper p n
      _ ≤ m * 2 ^ (bitLength n - p) := Nat.mul_le_mul_right _ hq
      _ = a := by rw [hm, mul_comm]

/-- Rounding a quotient does not depend on a common factor. -/
theorem roundNE_mul_right (p n d c : Nat) (hc : 0 < c) :
    roundNE p (n * c) (d * c) = roundNE p n d := by
  unfold roundNE
  have h1 : n * c / (d * c) = n / d := Nat.mul_div_mul_right n d hc
  simp only [h1]
  have h2 : d * c * 2 ^ (bitLength (n / d) - p) = d * 2 ^ (bitLength (n / d) - p) * c := by ring
  rw [h2, Nat.mul_div_mul_right _ _ hc, Nat.mul_mod_mul_right]
  have e1 : (d * 2 ^ (bitLength (n / d) - p) * c < 2 * (n % (d * 2 ^ (bitLength (n / d) - p)) * c))
      ↔ (d * 2 ^ (bitLength (n / d) - p) < 2 * (n % (d * 2 ^ (bitLength (n / d) - p)))) := by
    rw [← mul_assoc]; exact Nat.mul_lt_mul_right hc
  have e2 : (2 * (n % (d * 2 ^ (bitLength (n / d) - p)) * c) = d * 2 ^ (bitLength (n / d) - p) * c)
      ↔ (2 * (n % (d * 2 ^ (bitLength (n / d) - p))) = d * 2 ^ (bitLength (n / d) - p)) := by
    rw [← mul_assoc]; exact Nat.mul_left_inj (Nat.pos_iff_ne_zero.mp hc)
  simp only [e1, e2]

/-- Rounding `n * c / c` is rounding `n`. -/
theorem roundNE_scaled (p n c : Nat) (hc : 0 < c) : roundNE p (n * c) c = roundNE p n 1 := by
  have := roundNE_mul_right p n 1 c hc
  rwa [one_mul] at this

/-- A number with at most `p` significant bits is a value of the format. -/
theorem roundNE_mul_pow (p m j : Nat) (hm : m < 2 ^ p) : roundNE p (m * 2 ^ j) 1 = m * 2 ^ j := by
  apply roundNE_of_dvd
  have h1 : bitLength (m * 2 ^ j) ≤ p + j := by
    rw [bitLength_le_iff, pow_add]
    exact Nat.mul_lt_mul_of_pos_right hm (Nat.pow_pos (by norm_num))
  exact Dvd.dvd.trans (pow_dvd_pow 2 (by omega)) (Dvd.intro_left m rfl)

/-- A value of a format, scaled by a power of two, is a value of any wider format. -/
theorem roundNE_widen (p q m j : Nat) (hpq : p ≤ q) (hm : roundNE p m 1 = m) :
    roundNE q (m * 2 ^ j) 1 = m * 2 ^ j := by
  apply roundNE_of_dvd
  have h1 := bitLength_mul_pow_le m j
  have h2 := dvd_of_roundNE_eq p m hm
  have h3 : bitLength (m * 2 ^ j) - q ≤ (bitLength m - p) + j := by omega
  calc 2 ^ (bitLength (m * 2 ^ j) - q) ∣ 2 ^ ((bitLength m - p) + j) := pow_dvd_pow 2 h3
    _ = 2 ^ (bitLength m - p) * 2 ^ j := pow_add _ _ _
    _ ∣ m * 2 ^ j := Nat.mul_dvd_mul_right h2 _

/-- A finite amount that is not below zero has a non-negative number of units. -/
theorem signed_nonneg_of_zero_le (t : Bool) (k : Nat)
    (h : (float.fin false 0).le (float.fin t k) = true) : 0 ≤ signed t k := by
  simpa [float.le, signed] using h

/-- An integer is its magnitude with its sign. -/
theorem signed_decide_natAbs (x : Int) : signed (decide (x < 0)) x.natAbs = x := by
  unfold signed
  by_cases h : x < 0
  · simp only [h, decide_True, if_true]; omega
  · simp only [h, decide_False, Bool.false_eq_true, if_false]; omega

/-- The magnitude of a signed number of units. -/
theorem natAbs_signed (s : Bool) (k : Nat) : (signed s k).natAbs = k := by
  unfold signed; split_ifs <;> omega

/-- Scaling commutes with the sign. -/
theorem signed_mul (s : Bool) (k c : Nat) : signed s (k * c) = signed s k * c := by
  unfold signed; split_ifs <;> push_cast <;> ring

/-- The units of an `int` converted to `double`, scaled. -/
theorem signed_decide_neg (i : Int) (c : Nat) :
    signed (decide (i < 0)) (i.natAbs * c) = i * c := by
  rw [signed_mul, signed_decide_natAbs]

/-- The value of a `float` is its number of units over `2^149`. -/
theorem value_eq_some_iff (a : float) (q : ℚ) :
    a.value = some q ↔ ∃ z : Int, a.units = some z ∧ q = (z : ℚ) / 2 ^ 149 := by
  cases a with
  | nan => simp [float.value, float.units]
  | inf _ => simp [float.value, float.units]
  | fin s k =>
    simp only [float.value, float.units, Option.some.injEq]
    constructor
    · intro h; exact ⟨signed s k, rfl, h.symm⟩
    · rintro ⟨w, hw, hq⟩; rw [hq, hw]

/-! ## Subtraction of a payment -/

/-- A finite non-negative amount that is not greater than a balance takes it down, or
leaves it as it is. -/
theorem float_sub_le (a p : float) (hv : a.valid) (hpf : p.finite = true)
    (hp0 : (float.fin false 0).le p = true) (hng : p.gt a = false) :
    a.sub p = a ∨ (a.sub p).le a = true := by
  cases p with
  | nan => simp [float.finite] at hpf
  | inf _ => simp [float.finite] at hpf
  | fin t k =>
    cases a with
    | nan => left; rfl
    | inf s => left; rfl
    | fin s j =>
      right
      have h0 : 0 ≤ signed t k := signed_nonneg_of_zero_le t k hp0
      have h1 : signed t k ≤ signed s j := by
        simpa [float.gt] using hng
      simp only [float.sub]
      split_ifs with hx
      · simp only [float.le, decide_eq_true_eq]
        have : signed (s && !t) 0 = 0 := by simp [signed]
        rw [this]; omega
      · have hs : signed s j = (j : Int) := by
          unfold signed at h0 h1 hx ⊢
          split_ifs at h0 h1 hx ⊢ <;> omega
        obtain ⟨x, hxdef⟩ : ∃ x, x = signed s j - signed t k := ⟨_, rfl⟩
        rw [← hxdef] at hx ⊢
        have hxle : x.natAbs ≤ j := by omega
        have hround := roundNE_le_of_le 24 _ j hv.1 hxle
        have hmax : j ≤ FLT_MAX_K := hv.2
        have hnn : ¬ (x < 0) := by omega
        simp only [mkFloat]
        rw [if_pos (le_trans hround hmax)]
        simp only [float.le, decide_eq_true_eq, hnn, decide_False, hs]
        simp only [signed, Bool.false_eq_true, if_false]
        exact_mod_cast hround

/-- The `float` difference is the exact difference when that is a `float` (in units). -/
theorem float_sub_exact (a p c : float) (x y : Int) (ha : a.units = some x)
    (hp : p.units = some y) (hc : c.valid) (hcu : c.units = some (x - y)) :
    (a.sub p).units = some (x - y) := by
  cases a with
  | nan => simp [float.units] at ha
  | inf _ => simp [float.units] at ha
  | fin s j =>
    cases p with
    | nan => simp [float.units] at hp
    | inf _ => simp [float.units] at hp
    | fin t k =>
      cases c with
      | nan => simp [float.units] at hcu
      | inf _ => simp [float.units] at hcu
      | fin r m =>
        simp only [float.units, Option.some.injEq] at ha hp hcu
        subst ha; subst hp
        simp only [float.sub]
        split_ifs with hx
        · simp only [float.units, Option.some.injEq]
          rw [hx]; simp [signed]
        · have hm : (signed s j - signed t k).natAbs = m := by
            rw [← hcu]; exact natAbs_signed r m
          have hr : roundNE 24 m 1 = m := hc.1
          have hmax : m ≤ FLT_MAX_K := hc.2
          simp only [mkFloat, hm, hr, if_pos hmax, float.units, Option.some.injEq]
          rw [← hm]; exact signed_decide_natAbs _

/-- The `float` difference is the exact difference when that is a `float`. -/
theorem float_sub_exact_value (a p c : float) (v w : ℚ) (ha : a.value = some v)
    (hp : p.value = some w) (hc : c.valid) (hcv : c.value = some (v - w)) :
    (a.sub p).value = some (v - w) := by
  obtain ⟨x, hx, hvx⟩ := (value_eq_some_iff _ _).mp ha
  obtain ⟨y, hy, hwy⟩ := (value_eq_some_iff _ _).mp hp
  obtain ⟨z, hz, hvz⟩ := (value_eq_some_iff _ _).mp hcv
  have hzxy : z = x - y := by
    have h1 : (z : ℚ) = x - y := by
      have h4 : (2 : ℚ) ^ 149 ≠ 0 := pow_ne_zero 149 (by norm_num)
      rw [hvx, hwy] at hvz
      field_simp at hvz
      linarith
    exact_mod_cast h1
  rw [value_eq_some_iff]
  exact ⟨z, by rw [hzxy]; exact float_sub_exact a p c x y hx hy hc (by rw [← hzxy]; exact hz), hvz⟩

/-- The `float` difference of two equal finite values is zero. -/
theorem float_sub_self_value (a p : float) (v : ℚ) (ha : a.value = some v)
    (hp : p.value = some v) : (a.sub p).value = some 0 := by
  have := float_sub_exact_value a p (float.fin false 0) v v ha hp (by decide)
    (by simp [float.value, signed])
  simpa using this

/-! ## Accrual of a fee -/

/-- The literal `12.50` as a `double`. -/
theorem feeRate_slip : feeRate LocationType.SLIP = double.fin false (25 * 2 ^ 1073) := by decide

/-- The literal `14.00` as a `double`. -/
theorem feeRate_land : feeRate LocationType.LAND = double.fin false (28 * 2 ^ 1073) := by decide

/-- The literal `25.00` as a `double`. -/
theorem feeRate_trailor : feeRate LocationType.TRAILOR = double.fin false (50 * 2 ^ 1073) := by
  decide

/-- The literal `11.20` as a `double`: the nearest value, which is below `11.20`. -/
theorem feeRate_storage :
    feeRate LocationType.STORAGE = double.fin false (6305039478318694 * 2 ^ 1025) := by decide

/-- The product of a rate that is a multiple of one half and a length is exact in
`double`. -/
theorem double_mul_exact (R2 : Nat) (len : Int) (h : R2 * len.natAbs < 2 ^ 53) :
    (double.fin false (R2 * 2 ^ 1073)).mul (double.ofInt len)
      = double.fin (decide (len < 0)) (R2 * len.natAbs * 2 ^ 1073) := by
  simp only [double.ofInt, double.mul, Bool.false_bne]
  split_ifs with h0
  · have : R2 * len.natAbs * 2 ^ 1073 = 0 := by
      rcases Nat.mul_eq_zero.mp h0 with h1 | h1
      · have : R2 = 0 := by
          rcases Nat.mul_eq_zero.mp h1 with h2 | h2
          · exact h2
          · exact absurd h2 (by positivity)
        simp [this]
      · have : len.natAbs = 0 := by
          rcases Nat.mul_eq_zero.mp h1 with h2 | h2
          · exact h2
          · exact absurd h2 (by positivity)
        simp [this]
    rw [this]
  · have e1 : R2 * 2 ^ 1073 * (len.natAbs * 2 ^ 1074) = R2 * len.natAbs * 2 ^ 1073 * 2 ^ 1074 := by
      ring
    simp only [mkDouble]
    rw [e1, roundNE_scaled _ _ _ (Nat.pow_pos (by norm_num)), roundNE_mul_pow 53 _ 1073 h]
    have hmax : R2 * len.natAbs * 2 ^ 1073 ≤ DBL_MAX_K := by
      have : R2 * len.natAbs * 2 ^ 1073 ≤ 2 ^ 53 * 2 ^ 1073 :=
        Nat.mul_le_mul_right _ (le_of_lt h)
      exact le_trans this (by decide)
    rw [if_pos hmax]

/-- The `double` sum converted to `float` is the exact sum when that is a `float`. -/
theorem double_add_toFloat_exact (s t : Bool) (k P : Nat) (z : Int) (e : float)
    (hz : signed s (k * 2 ^ 925) + signed t P = z * 2 ^ 925) (he : e.valid)
    (heu : e.units = some z) :
    (((double.fin s (k * 2 ^ 925)).add (double.fin t P)).toFloat).units = some z := by
  cases e with
  | nan => simp [float.units] at heu
  | inf _ => simp [float.units] at heu
  | fin r m =>
    simp only [float.units, Option.some.injEq] at heu
    simp only [double.add, hz]
    have hpow : (2 : Int) ^ 925 ≠ 0 := pow_ne_zero 925 (by norm_num)
    split_ifs with h0
    · have hz0 : z = 0 := by
        rcases mul_eq_zero.mp h0 with h1 | h1
        · exact h1
        · exact absurd h1 hpow
      simp [double.toFloat, float.units, signed, hz0]
    · have hz0 : z ≠ 0 := fun h => h0 (by rw [h]; simp)
      have hm : z.natAbs = m := by rw [← heu]; exact natAbs_signed r m
      have hm0 : m ≠ 0 := by omega
      have habs : (z * 2 ^ 925).natAbs = m * 2 ^ 925 := by
        rw [Int.natAbs_mul, Int.natAbs_pow, hm]; rfl
      have hneg : decide (z * 2 ^ 925 < 0) = decide (z < 0) := by
        have : (z * 2 ^ 925 < 0) ↔ (z < 0) := by
          constructor
          · intro h; by_contra h2
            have : 0 ≤ z * 2 ^ 925 := mul_nonneg (not_lt.mp h2) (le_of_lt (pow_pos (by norm_num) 925))
            exact absurd h (not_lt.mpr this)
          · intro h; exact mul_neg_of_neg_of_pos h (pow_pos (by norm_num) 925)
        simp only [this]
      have hr53 : roundNE 53 (m * 2 ^ 925) 1 = m * 2 ^ 925 :=
        roundNE_widen 24 53 m 925 (by norm_num) he.1
      have hmax53 : m * 2 ^ 925 ≤ DBL_MAX_K :=
        le_trans (Nat.mul_le_mul_right _ he.2) (by decide)
      have hk0 : m * 2 ^ 925 ≠ 0 := Nat.mul_ne_zero hm0 (pow_ne_zero 925 (by norm_num))
      have hr24 : roundNE 24 (m * 2 ^ 925) (2 ^ 925) = m := by
        rw [roundNE_scaled _ _ _ (Nat.pow_pos (by norm_num))]
        exact he.1
      simp only [mkDouble, habs, hneg, hr53, if_pos hmax53, double.toFloat, if_neg hk0, mkFloat,
        hr24, if_pos he.2, float.units, Option.some.injEq]
      rw [← hm]; exact signed_decide_natAbs z

/-- One month of fees is exact whenever the exact new balance is a `float`. -/
theorem accrue_exact (b : Boat) (R2 : Nat)
    (hrate : feeRate b.locationType = double.fin false (R2 * 2 ^ 1073))
    (hR : R2 * b.length.natAbs < 2 ^ 53) (x : Int) (e : float)
    (hx : b.amountOwed.units = some x) (he : e.valid)
    (heu : e.units = some (x + R2 * b.length * 2 ^ 148)) :
    (accrue b).amountOwed.units = some (x + R2 * b.length * 2 ^ 148) := by
  cases ha : b.amountOwed with
  | nan => simp [ha, float.units] at hx
  | inf _ => simp [ha, float.units] at hx
  | fin s k =>
    simp only [ha, float.units, Option.some.injEq] at hx
    simp only [accrue, ha, float.toDouble, hrate, double_mul_exact R2 b.length hR]
    apply double_add_toFloat_exact s _ k _ _ e _ he heu
    rw [signed_mul, hx]
    have h1 : R2 * b.length.natAbs * 2 ^ 1073 = b.length.natAbs * (R2 * 2 ^ 1073) := by ring
    rw [h1, signed_decide_neg]
    push_cast
    ring

/-- One month of fees at 12.50, 14.00 or 25.00 per foot is exact whenever the exact new
balance is a `float`. -/
theorem accrue_exact_value (b : Boat) (hty : b.locationType ≠ LocationType.STORAGE)
    (hlo : -2 ^ 31 ≤ b.length) (hhi : b.length < 2 ^ 31) (v : ℚ) (e : float)
    (hv : b.amountOwed.value = some v) (he : e.valid)
    (hev : e.value = some (v + ratePerFoot b.locationType * b.length)) :
    (accrue b).amountOwed.value = some (v + ratePerFoot b.locationType * b.length) := by
  obtain ⟨x, hx, hvx⟩ := (value_eq_some_iff _ _).mp hv
  obtain ⟨z, hz, hvz⟩ := (value_eq_some_iff _ _).mp hev
  have hlen : b.length.natAbs < 2 ^ 31 + 1 := by omega
  have key : ∀ R2 : Nat, R2 < 64 → feeRate b.locationType = double.fin false (R2 * 2 ^ 1073) →
      ratePerFoot b.locationType = (R2 : ℚ) / 2 →
      (accrue b).amountOwed.value = some (v + ratePerFoot b.locationType * b.length) := by
    intro R2 hR hfee hrate
    have hzx : z = x + R2 * b.length * 2 ^ 148 := by
      have h1 : (z : ℚ) = x + (R2 : ℚ) * b.length * 2 ^ 148 := by
        have h2 : (z : ℚ) / 2 ^ 149 = x / 2 ^ 149 + (R2 : ℚ) / 2 * b.length := by
          rw [← hvz, hvx, hrate]
        have h3 : (2 : ℚ) ^ 149 = 2 * 2 ^ 148 := by rw [← pow_succ']
        have h4 : (2 : ℚ) ^ 148 ≠ 0 := pow_ne_zero 148 (by norm_num)
        rw [h3] at h2
        field_simp at h2
        linarith
      exact_mod_cast h1
    have hR53 : R2 * b.length.natAbs < 2 ^ 53 := by
      calc R2 * b.length.natAbs < 64 * (2 ^ 31 + 1) := by
            apply Nat.mul_lt_mul'' hR hlen
        _ < 2 ^ 53 := by norm_num
    have := accrue_exact b R2 hfee hR53 x e hx he (by rw [← hzx]; exact hz)
    rw [value_eq_some_iff]
    exact ⟨z, by rw [hzx]; exact this, hvz⟩
  cases hc : b.locationType with
  | SLIP =>
    rw [hc] at key
    exact key 25 (by norm_num) feeRate_slip (by norm_num [ratePerFoot])
  | LAND =>
    rw [hc] at key
    exact key 28 (by norm_num) feeRate_land (by norm_num [ratePerFoot])
  | TRAILOR =>
    rw [hc] at key
    exact key 50 (by norm_num) feeRate_trailor (by norm_num [ratePerFoot])
  | STORAGE => exact absurd hc hty

/-- The rate `11.20` of a boat in storage is not a binary fraction: one foot for one month,
from a balance of zero, gives the `float` next to `11.20`, not `11.20`. -/
theorem accrue_storage_inexact :
    (updateMonthlyFees [exampleStorageBoat]).1
      = [{ exampleStorageBoat with
            amountOwed := float.fin false 7992586943040428565551016043567329791036096512 }] ∧
    exampleStorageBoat.amountOwed.value = some 0 ∧
    (float.fin false 7992586943040428565551016043567329791036096512).value
      ≠ some (0 + ratePerFoot LocationType.STORAGE * 1) := by
  refine ⟨by decide, by simp [exampleStorageBoat, float.value, float.units, signed], ?_⟩
  simp only [float.value, signed, ne_eq, Option.some.injEq, ratePerFoot]
  norm_num

/-! ## Decimal digits -/

/-- The character of a digit is a digit with that value, and none of the special
characters. -/
theorem digitChar_props (d : Nat) (h : d < 10) :
    isdigit (digitChar d) = true ∧ digitVal (digitChar d) = d ∧ isspace (digitChar d) = false ∧
    digitChar d ≠ ',' ∧ digitChar d ≠ '\n' ∧ digitChar d ≠ '-' ∧ digitChar d ≠ '+' ∧
    tolower (digitChar d) = 48 + d := by
  interval_cases d <;> decide

/-- The digit loop does not depend on fuel beyond the number, and puts the digits in
front. -/
theorem natDigitsAux_eq (n : Nat) : ∀ (fuel : Nat) (acc : List Char), n < fuel →
    natDigitsAux fuel n acc = natDigitsAux (n + 1) n [] ++ acc := by
  induction n using Nat.strong_induction_on with
  | _ n ih =>
    intro fuel acc hf
    cases fuel with
    | zero => omega
    | succ f =>
      by_cases h10 : n < 10
      · simp [natDigitsAux, h10]
      · have hdiv : n / 10 < n := by omega
        simp only [natDigitsAux, h10, if_false]
        rw [ih (n / 10) hdiv f _ (by omega), ih (n / 10) hdiv n [digitChar (n % 10)] hdiv]
        simp

/-- A number below ten has one digit. -/
theorem natDigits_small (n : Nat) (h : n < 10) : natDigits n = [digitChar n] := by
  simp [natDigits, natDigitsAux, h]

/-- The digits of a number are the digits of its tenth followed by its last digit. -/
theorem natDigits_step (n : Nat) (h : 10 ≤ n) :
    natDigits n = natDigits (n / 10) ++ [digitChar (n % 10)] := by
  have h10 : ¬ n < 10 := by omega
  unfold natDigits
  simp only [natDigitsAux, h10, if_false]
  exact natDigitsAux_eq (n / 10) n _ (by omega)

/-- A number has at least one digit. -/
theorem natDigits_ne_nil (n : Nat) : natDigits n ≠ [] := by
  by_cases h : n < 10
  · simp [natDigits_small n h]
  · rw [natDigits_step n (by omega)]; simp

/-- The digits of a number are digit characters. -/
theorem natDigits_isdigit (n : Nat) : ∀ c ∈ natDigits n, isdigit c = true := by
  induction n using Nat.strong_induction_on with
  | _ n ih =>
    by_cases h : n < 10
    · rw [natDigits_small n h]
      intro c hc
      rw [List.mem_singleton.mp hc]
      exact (digitChar_props n h).1
    · rw [natDigits_step n (by omega)]
      intro c hc
      rcases List.mem_append.mp hc with h1 | h1
      · exact ih (n / 10) (by omega) c h1
      · rw [List.mem_singleton.mp h1]
        exact (digitChar_props (n % 10) (Nat.mod_lt _ (by norm_num))).1

/-- The value of a run of digits with one more digit. -/
theorem digitsValue_append (l : List Char) (c : Char) :
    digitsValue (l ++ [c]) = digitsValue l * 10 + digitVal c := by
  simp [digitsValue, List.foldl_append]

/-- The digits of a number have the number as value. -/
theorem digitsValue_natDigits (n : Nat) : digitsValue (natDigits n) = n := by
  induction n using Nat.strong_induction_on with
  | _ n ih =>
    by_cases h : n < 10
    · rw [natDigits_small n h]
      simp [digitsValue, (digitChar_props n h).2.1]
    · rw [natDigits_step n (by omega), digitsValue_append, ih (n / 10) (by omega),
        (digitChar_props (n % 10) (Nat.mod_lt _ (by norm_num))).2.1]
      omega

/-- A number below `10^d` has at most `d` digits. -/
theorem natDigits_length_le (d n : Nat) (hd : 0 < d) (h : n < 10 ^ d) :
    (natDigits n).length ≤ d := by
  induction d generalizing n with
  | zero => omega
  | succ d ih =>
    by_cases h10 : n < 10
    · rw [natDigits_small n h10]; simp
    · rw [natDigits_step n (by omega)]
      have hd0 : 0 < d := by
        rcases Nat.eq_zero_or_pos d with h0 | h0
        · subst h0; simp at h; omega
        · exact h0
      have : n / 10 < 10 ^ d := by
        rw [Nat.div_lt_iff_lt_mul (by norm_num)]
        rw [pow_succ] at h; exact h
      have := ih (n / 10) hd0 this
      simp; omega

/-- An `int` is stored as it is. -/
theorem toInt32_of_range (i : Int) (hlo : -2 ^ 31 ≤ i) (hhi : i < 2 ^ 31) : toInt32 i = i := by
  unfold toInt32
  have h1 : ¬ (2 ^ 63 - 1 < i) := by omega
  have h2 : ¬ (i < -(2 ^ 63)) := by omega
  simp only [h1, h2, if_false]
  omega

/-- The directive `%d` reads back what `printf("%d")` writes. -/
theorem scan_d_fmt_d (i : Int) (hlo : -2 ^ 31 ≤ i) (hhi : i < 2 ^ 31) :
    scan_d (fmt_d i) = some (i, []) := by
  have hne := natDigits_ne_nil i.natAbs
  have hdig := natDigits_isdigit i.natAbs
  obtain ⟨htake, hdrop⟩ := takeWhile_all isdigit _ hdig
  obtain ⟨c, cs, hcs⟩ := List.exists_cons_of_ne_nil hne
  have hc : isdigit c = true := hdig c (by rw [hcs]; simp)
  have hcsp : isspace c = false := by
    unfold isdigit at hc; unfold isspace
    simp only [Bool.and_eq_true, decide_eq_true_eq] at hc
    simp only [Bool.or_eq_false_iff, decide_eq_false_iff_not, Bool.and_eq_false_imp,
      decide_eq_true_eq]
    omega
  have hcm : c ≠ '-' := by
    intro h; rw [h] at hc; exact absurd hc (by decide)
  have hcp : c ≠ '+' := by
    intro h; rw [h] at hc; exact absurd hc (by decide)
  unfold scan_d fmt_d
  by_cases hneg : i < 0
  · simp only [hneg, if_true]
    have h1 : ('-' :: natDigits i.natAbs).dropWhile isspace = '-' :: natDigits i.natAbs := by
      rw [List.dropWhile_cons]; simp [show isspace '-' = false by decide]
    simp only [h1, scanSign, if_true, htake, hdrop, hne, if_false, digitsValue_natDigits]
    have : signed true i.natAbs = i := by unfold signed; simp only [if_true]; omega
    rw [this, toInt32_of_range i hlo hhi]
  · simp only [hneg, if_false]
    have h1 : (natDigits i.natAbs).dropWhile isspace = natDigits i.natAbs := by
      rw [hcs, List.dropWhile_cons]; simp [hcsp]
    have h2 : scanSign (natDigits i.natAbs) = (false, natDigits i.natAbs) := by
      rw [hcs]; simp [scanSign, hcm, hcp]
    simp only [h1, h2, htake, hdrop, hne, if_false, digitsValue_natDigits]
    have : signed false i.natAbs = i := by
      unfold signed; simp only [Bool.false_eq_true, if_false]; omega
    rw [this, toInt32_of_range i hlo hhi]

/-- A digit character is none of the characters that the directives treat specially. -/
theorem isdigit_tolower (c : Char) (h : isdigit c = true) :
    48 ≤ tolower c ∧ tolower c ≤ 57 ∧ isspace c = false ∧ c ≠ '-' ∧ c ≠ '+' ∧ c ≠ '.' ∧
    c ≠ ',' ∧ c ≠ '\n' := by
  have h2 : 48 ≤ c.toNat ∧ c.toNat ≤ 57 := by
    unfold isdigit at h
    simpa using h
  refine ⟨?_, ?_, ?_, ?_, ?_, ?_, ?_, ?_⟩
  · unfold tolower; split_ifs <;> omega
  · unfold tolower; split_ifs <;> omega
  · unfold isspace
    simp only [Bool.or_eq_false_iff, decide_eq_false_iff_not, Bool.and_eq_false_imp,
      decide_eq_true_eq]
    omega
  all_goals
    intro hc
    rw [hc] at h
    exact absurd h (by decide)

/-- The digits, the point and the two decimals that `%.2f` writes are read by `%f` as the
number of hundredths they show. -/
theorem scan_f_decimal (neg : Bool) (ds : List Char) (d1 d2 : Char) (hne : ds ≠ [])
    (hds : ∀ c ∈ ds, isdigit c = true) (h1 : isdigit d1 = true) (h2 : isdigit d2 = true) :
    scan_f ((if neg then ['-'] else []) ++ (ds ++ ['.', d1, d2]))
      = some (floatOfScaled neg (digitsValue (ds ++ [d1, d2])) (-2) 0) := by
  obtain ⟨c, cs, hcs⟩ := List.exists_cons_of_ne_nil hne
  have hc : isdigit c = true := hds c (by rw [hcs]; simp)
  obtain ⟨hc48, hc57, hcsp, hcm, hcp, -, -, -⟩ := isdigit_tolower c hc
  have hsign : scanSign (((if neg then ['-'] else []) ++ (ds ++ ['.', d1, d2])).dropWhile isspace)
      = (neg, ds ++ ['.', d1, d2]) := by
    cases neg
    · simp [hcs, List.dropWhile_cons, hcsp, scanSign, hcm, hcp]
    · simp [List.dropWhile_cons, show isspace '-' = false by decide, scanSign]
  have hinf : stripPrefixCI (ds ++ ['.', d1, d2]) ['i', 'n', 'f'] = none := by
    rw [hcs]
    simp only [List.cons_append, stripPrefixCI]
    rw [if_neg]
    have : ('i' : Char).toNat = 105 := by decide
    omega
  have hnan : stripPrefixCI (ds ++ ['.', d1, d2]) ['n', 'a', 'n'] = none := by
    rw [hcs]
    simp only [List.cons_append, stripPrefixCI]
    rw [if_neg]
    have : ('n' : Char).toNat = 110 := by decide
    omega
  have hhex : stripPrefixCI (ds ++ ['.', d1, d2]) ['0', 'x'] = none := by
    rw [hcs]
    have hx : ('x' : Char).toNat = 120 := by decide
    cases cs with
    | nil =>
      simp only [List.cons_append, List.nil_append, stripPrefixCI]
      split_ifs with h0
      · exact absurd (show tolower '.' = 120 by rw [← hx]; assumption) (by decide)
      · rfl
      · rfl
    | cons c2 cs2 =>
      have hc2 : isdigit c2 = true := hds c2 (by rw [hcs]; simp)
      obtain ⟨-, hc257, -⟩ := isdigit_tolower c2 hc2
      simp only [List.cons_append, stripPrefixCI]
      split_ifs with h0 h3
      · omega
      · rfl
      · rfl
  obtain ⟨htake, hdrop⟩ := takeWhile_append_stop isdigit ds '.' [d1, d2]
    (takeWhile_all isdigit ds hds).2 (by decide)
  have hfrac : ∀ c ∈ [d1, d2], isdigit c = true := by
    intro x hx
    rcases List.mem_cons.mp hx with rfl | hx
    · exact h1
    · rw [List.mem_singleton.mp hx]; exact h2
  obtain ⟨htake2, hdrop2⟩ := takeWhile_all isdigit [d1, d2] hfrac
  unfold scan_f
  simp only [hsign, hinf, hnan, hhex, htake, hdrop, htake2, hdrop2, if_true, hne, false_and,
    if_false, scanExponent, List.length_cons, List.length_nil]
  rfl

/-- The directive `%f` reads what `%.2f` writes as the amount rounded to two decimals. -/
theorem scan_f_fmt_2f (a : float) : scan_f (fmt_2f a) = some (round2 a) := by
  cases a with
  | nan => decide
  | inf s => cases s <;> decide
  | fin s k =>
    have hd1 := digitChar_props (hundredths k % 100 / 10) (by omega)
    have hd2 := digitChar_props (hundredths k % 10) (by omega)
    have := scan_f_decimal s (natDigits (hundredths k / 100)) _ _
      (natDigits_ne_nil _) (natDigits_isdigit _) hd1.1 hd2.1
    have hv : digitsValue (natDigits (hundredths k / 100) ++
        [digitChar (hundredths k % 100 / 10), digitChar (hundredths k % 10)]) = hundredths k := by
      have e : natDigits (hundredths k / 100) ++
          [digitChar (hundredths k % 100 / 10), digitChar (hundredths k % 10)]
          = (natDigits (hundredths k / 100) ++ [digitChar (hundredths k % 100 / 10)])
            ++ [digitChar (hundredths k % 10)] := by simp
      rw [e, digitsValue_append, digitsValue_append, digitsValue_natDigits, hd1.2.1, hd2.2.1]
      omega
    rw [hv] at this
    simp only [fmt_2f, round2]
    rw [← this]
    cases s <;> simp

/-- The text of `%d` for an `int` has at most 11 characters, none a comma or a line
break. -/
theorem fmt_d_plain (i : Int) (hi : IsInt i) :
    PlainText (fmt_d i) ∧ (fmt_d i).length ≤ 11 ∧ fmt_d i ≠ [] := by
  have hdig := natDigits_isdigit i.natAbs
  have hlen : (natDigits i.natAbs).length ≤ 10 :=
    natDigits_length_le 10 _ (by norm_num) (by unfold IsInt at hi; omega)
  have hplain : PlainText (natDigits i.natAbs) :=
    ⟨fun h => (isdigit_tolower _ (hdig _ h)).2.2.2.2.2.2.1 rfl,
     fun h => (isdigit_tolower _ (hdig _ h)).2.2.2.2.2.2.2 rfl⟩
  unfold fmt_d
  split_ifs
  · refine ⟨⟨?_, ?_⟩, by simp; omega, by simp⟩
    · simp only [List.mem_cons, not_or]; exact ⟨by decide, hplain.1⟩
    · simp only [List.mem_cons, not_or]; exact ⟨by decide, hplain.2⟩
  · exact ⟨hplain, by omega, natDigits_ne_nil _⟩

/-- A rounded quotient is at most the quotient plus one. -/
theorem divRoundEven_le (n d : Nat) : divRoundEven n d ≤ n / d + 1 := by
  unfold divRoundEven
  simp only
  split_ifs <;> omega

/-- The text of `%.2f` for a `float` has at most 43 characters and no line break. -/
theorem fmt_2f_plain (a : float) (ha : a.valid) :
    '\n' ∉ fmt_2f a ∧ (fmt_2f a).length ≤ 43 := by
  cases a with
  | nan => decide
  | inf s => cases s <;> decide
  | fin s k =>
    have hk : k ≤ FLT_MAX_K := ha.2
    have hh : hundredths k / 100 < 10 ^ 39 := by
      have h1 := divRoundEven_le (k * 100) (2 ^ 149)
      have h2 : k * 100 / 2 ^ 149 ≤ FLT_MAX_K * 100 / 2 ^ 149 :=
        Nat.div_le_div_right (Nat.mul_le_mul_right _ hk)
      have h3 : FLT_MAX_K * 100 / 2 ^ 149 + 1 < 10 ^ 39 * 100 := by decide
      unfold hundredths
      rw [Nat.div_lt_iff_lt_mul (by norm_num)]
      omega
    have hlen := natDigits_length_le 39 _ (by norm_num) hh
    have hdig := natDigits_isdigit (hundredths k / 100)
    have hd1 := digitChar_props (hundredths k % 100 / 10) (by omega)
    have hd2 := digitChar_props (hundredths k % 10) (by omega)
    have hbody : '\n' ∉ natDigits (hundredths k / 100) ++
        ['.', digitChar (hundredths k % 100 / 10), digitChar (hundredths k % 10)] := by
      simp only [List.mem_append, List.mem_cons, List.mem_singleton, List.not_mem_nil, or_false,
        not_or]
      exact ⟨fun h => (isdigit_tolower _ (hdig _ h)).2.2.2.2.2.2.2 rfl, by decide,
        fun h => hd1.2.2.2.2.1 h.symm, fun h => hd2.2.2.2.2.1 h.symm⟩
    simp only [fmt_2f]
    split_ifs
    · refine ⟨?_, by simp; omega⟩
      simp only [List.mem_cons, not_or]; exact ⟨by decide, hbody⟩
    · exact ⟨hbody, by simp; omega⟩

/-! ## Lines -/

/-- A well-formed line is parsed into exactly its fields, whatever the prior contents of
memory. -/
theorem parseBoat_wellFormed (u : Uninit) (name lengthText tag detail amountText : List Char)
    (len : Int) (ty : LocationType) (det : LocationDetails) (amount : float)
    (hname : IsField name) (hlen : scan_d lengthText = some (len, []))
    (htag : IsField tag) (hty : tagType tag = some ty)
    (hdetail : IsField detail) (hdet : detailValue ty detail = some det)
    (hamount : scan_f amountText = some amount) :
    parseBoat u (name ++ ',' :: (lengthText ++ ',' :: (tag ++ ',' :: (detail ++ ',' :: amountText))))
      = { name := name, length := len, locationType := ty, details := det,
          amountOwed := amount } := by
  have hs : sscanfBoat u
      (name ++ ',' :: (lengthText ++ ',' :: (tag ++ ',' :: (detail ++ ',' :: amountText))))
      = { boat := { u.boat with name := name, length := len, amountOwed := amount },
          locType := tag, detailStr := detail } := by
    unfold sscanfBoat
    obtain ⟨h1, h2⟩ := takeWhile_field name
      (lengthText ++ ',' :: (tag ++ ',' :: (detail ++ ',' :: amountText))) hname.2
    obtain ⟨h3, h4⟩ := takeWhile_field tag (detail ++ ',' :: amountText) htag.2
    obtain ⟨h5, h6⟩ := takeWhile_field detail amountText hdetail.2
    have h7 := scan_d_append lengthText len ',' (tag ++ ',' :: (detail ++ ',' :: amountText))
      hlen (by decide)
    simp only [h1, h2, h3, h4, h5, h6, h7, hamount, hname.1, htag.1, hdetail.1, if_false,
      ne_eq, not_true_eq_false]
  unfold parseBoat
  rw [hs]
  unfold tagType at hty
  unfold detailValue at hdet
  simp only
  split_ifs at hty ⊢ with c1 c2 c3 c4
  · cases Option.some.inj hty
    simp only at hdet
    cases hsd : scan_d detail with
    | none => simp [hsd] at hdet
    | some r =>
      simp only [hsd, Option.map_some', Option.some.injEq] at hdet
      simp [scanDetail, hsd, hdet]
  · cases Option.some.inj hty
    simp only at hdet
    cases detail with
    | nil => exact absurd rfl hdetail.1
    | cons d ds =>
      simp only [List.head?_cons, Option.map_some', Option.some.injEq] at hdet
      simp [hdet]
  · cases Option.some.inj hty
    simp only [Option.some.injEq] at hdet
    simp [hdet]
  · cases Option.some.inj hty
    simp only at hdet
    cases hsd : scan_d detail with
    | none => simp [hsd] at hdet
    | some r =>
      simp only [hsd, Option.map_some', Option.some.injEq] at hdet
      simp [scanDetail, hsd, hdet]

/-- The loop of `fgets` reads a line that fits, with its newline. -/
theorem fgetsAux_line (line rest : List Char) (n : Nat) (h : '\n' ∉ line)
    (hlen : line.length < n) :
    fgetsAux n (line ++ '\n' :: rest) = (line ++ ['\n'], rest) := by
  induction line generalizing n with
  | nil =>
    cases n with
    | zero => omega
    | succ n => simp [fgetsAux]
  | cons c cs ih =>
    cases n with
    | zero => omega
    | succ n =>
      have hc : c ≠ '\n' := fun hc => h (by rw [hc]; simp)
      have hcs : '\n' ∉ cs := fun hcs => h (List.mem_cons_of_mem _ hcs)
      have hrec := ih n hcs (by simpa using hlen)
      simp only [List.cons_append, fgetsAux, hc, if_false, List.append_eq, hrec]

/-- The call `fgets(line, 256, file)` reads a line of fewer than 255 characters whole. -/
theorem fgets_line (line rest : List Char) (h : '\n' ∉ line) (hlen : line.length < 255) :
    fgets 256 (line ++ '\n' :: rest) = some (line ++ ['\n'], rest) := by
  unfold fgets
  rw [if_neg (by simp)]
  rw [fgetsAux_line line rest 255 h hlen]

/-- The newline at the end of a line is removed. -/
theorem stripNewline_line (line : List Char) : stripNewline (line ++ ['\n']) = line := by
  simp [stripNewline]

/-- A line put together from the fields of a well-formed record fits the line buffer,
has no line break, and is parsed back into the record. -/
theorem line_roundtrip (b : Boat) (tag detailText : List Char) (hb : WellFormed b)
    (htag : IsField tag) (htagn : '\n' ∉ tag) (htagl : tag.length ≤ 7)
    (hty : tagType tag = some b.locationType)
    (hdet : IsField detailText) (hdetn : '\n' ∉ detailText) (hdetl : detailText.length ≤ 11)
    (hdv : detailValue b.locationType detailText = some b.details) :
    '\n' ∉ b.name ++ ',' :: (fmt_d b.length ++ ',' :: (tag ++ ',' ::
        (detailText ++ ',' :: fmt_2f b.amountOwed))) ∧
    (b.name ++ ',' :: (fmt_d b.length ++ ',' :: (tag ++ ',' ::
        (detailText ++ ',' :: fmt_2f b.amountOwed)))).length < 255 ∧
    ∀ u : Uninit, parseBoat u (b.name ++ ',' :: (fmt_d b.length ++ ',' :: (tag ++ ',' ::
        (detailText ++ ',' :: fmt_2f b.amountOwed)))) = reloaded b := by
  obtain ⟨hname, hnlen, hnplain, hlen, -, hamt⟩ := hb
  obtain ⟨hdp, hdl, -⟩ := fmt_d_plain b.length hlen
  obtain ⟨hfn, hfl⟩ := fmt_2f_plain b.amountOwed hamt
  have hcomma : ('\n' : Char) ≠ ',' := by decide
  refine ⟨?_, ?_, ?_⟩
  · simp only [List.mem_append, List.mem_cons, not_or]
    exact ⟨hnplain.2, hcomma, hdp.2, hcomma, htagn, hcomma, hdetn, hcomma, hfn⟩
  · simp only [List.length_append, List.length_cons]
    unfold MAX_NAME_LENGTH at hnlen
    omega
  · intro u
    have := parseBoat_wellFormed u b.name (fmt_d b.length) tag detailText (fmt_2f b.amountOwed)
      b.length b.locationType b.details (round2 b.amountOwed) ⟨hname, hnplain.1⟩
      (scan_d_fmt_d b.length hlen.1 hlen.2) htag hty hdet hdv (scan_f_fmt_2f b.amountOwed)
    rw [this]
    rfl

/-- A well-formed record is written as one line that fits the buffer and is parsed back
into the record with its amount rounded. -/
theorem saveLine_wellFormed (b : Boat) (hb : WellFormed b) :
    ∃ line : List Char, saveLine b = some (line ++ ['\n']) ∧ '\n' ∉ line ∧ line.length < 255 ∧
      ∀ u : Uninit, parseBoat u line = reloaded b := by
  have hloc := hb.2.2.2.2.1
  obtain ⟨name, len, ty, det, amt⟩ := b
  cases ty <;> cases det <;> simp only [WellFormedLocation] at hloc
  case SLIP.slipNumber n =>
    obtain ⟨hp, hl, hne⟩ := fmt_d_plain n hloc
    have := line_roundtrip ⟨name, len, LocationType.SLIP, LocationDetails.slipNumber n, amt⟩
      ['s', 'l', 'i', 'p'] (fmt_d n) hb (by decide) (by decide) (by decide)
      (show tagType ['s', 'l', 'i', 'p'] = some LocationType.SLIP by decide)
      ⟨hne, hp.1⟩ hp.2 hl (by simp [detailValue, scan_d_fmt_d n hloc.1 hloc.2])
    exact ⟨_, by simp [saveLine, saveLocation], this⟩
  case LAND.bayLetter c =>
    have hc : c ≠ ',' ∧ c ≠ '\n' := by
      constructor <;> intro h <;> rw [h] at hloc <;> exact absurd hloc (by decide)
    have := line_roundtrip ⟨name, len, LocationType.LAND, LocationDetails.bayLetter c, amt⟩
      ['l', 'a', 'n', 'd'] [c] hb (by decide) (by decide) (by decide)
      (show tagType ['l', 'a', 'n', 'd'] = some LocationType.LAND by decide)
      ⟨by simp, by simpa using hc.1.symm⟩ (by simpa using hc.2.symm) (by simp)
      (by simp [detailValue])
    exact ⟨_, by simp [saveLine, saveLocation], this⟩
  case TRAILOR.trailorLicense s =>
    obtain ⟨hne, hl, hp⟩ := hloc
    have := line_roundtrip ⟨name, len, LocationType.TRAILOR, LocationDetails.trailorLicense s, amt⟩
      ['t', 'r', 'a', 'i', 'l', 'o', 'r'] s hb (by decide) (by decide) (by decide)
      (show tagType ['t', 'r', 'a', 'i', 'l', 'o', 'r'] = some LocationType.TRAILOR by decide)
      ⟨hne, hp.1⟩ hp.2 (by omega) (by simp [detailValue, List.take_of_length_le hl])
    exact ⟨_, by simp [saveLine, saveLocation], this⟩
  case STORAGE.storageNumber n =>
    obtain ⟨hp, hl, hne⟩ := fmt_d_plain n hloc
    have := line_roundtrip ⟨name, len, LocationType.STORAGE, LocationDetails.storageNumber n, amt⟩
      ['s', 't', 'o', 'r', 'a', 'g', 'e'] (fmt_d n) hb (by decide) (by decide) (by decide)
      (show tagType ['s', 't', 'o', 'r', 'a', 'g', 'e'] = some LocationType.STORAGE by decide)
      ⟨hne, hp.1⟩ hp.2 hl (by simp [detailValue, scan_d_fmt_d n hloc.1 hloc.2])
    exact ⟨_, by simp [saveLine, saveLocation], this⟩

/-- Saving well-formed records succeeds, and the reading loop of `loadBoats` rebuilds them
from the text in the same order. -/
theorem save_load_loop (boats : List Boat) (hwf : ∀ b ∈ boats, WellFormed b) :
    ∃ text : List Char, saveBoats boats = some text ∧
      ∀ (g : Nat → Uninit) (fuel : Nat) (acc : List Boat), boats.length ≤ fuel →
        loadLoop g fuel text acc = acc ++ boats.map reloaded := by
  induction boats with
  | nil =>
    refine ⟨[], rfl, ?_⟩
    intro g fuel acc _
    cases fuel <;> simp [loadLoop, fgets]
  | cons b rest ih =>
    obtain ⟨text, hsave, hload⟩ := ih (fun c hc => hwf c (List.mem_cons_of_mem _ hc))
    obtain ⟨line, hline, hnl, hlen, hparse⟩ := saveLine_wellFormed b (hwf b (List.mem_cons_self _ _))
    refine ⟨(line ++ ['\n']) ++ text, by simp [saveBoats, hline, hsave], ?_⟩
    intro g fuel acc hfuel
    cases fuel with
    | zero => simp at hfuel
    | succ fuel =>
      have hf : fgets 256 (line ++ ['\n'] ++ text) = some (line ++ ['\n'], text) := by
        have := fgets_line line text hnl hlen
        simpa using this
      simp only [loadLoop, hf, stripNewline_line, hparse]
      rw [hload g fuel _ (by simpa using hfuel)]
      simp

/-! ## Claims -/

/-- Claim C1 (round trip of `saveBoats` then `loadBoats`). For every `qsort` and every store
of at most `MAX_BOATS` well-formed records whose names are in ascending order and pairwise
distinct ignoring case, `saveBoats` writes a text, and `loadBoats` on that text gives the
same records in the same order with the same name, length, location type and location
detail, each with its amount owed rounded to two decimals (`reloaded`), and prints nothing.
The indeterminate memory and the store before the load do not matter. -/
theorem save_load_roundtrip (qsort : (Boat → Boat → Int) → List Boat → List Boat)
    (hq : IsQsort qsort) (g : Nat → Uninit) (filename : String) (old boats : List Boat)
    (hcount : boats.length ≤ MAX_BOATS) (hwf : ∀ b ∈ boats, WellFormed b)
    (hsorted : boats.Pairwise (fun a b => compareBoats a b ≤ 0))
    (hdistinct : boats.Pairwise (fun a b => strcasecmp a.name b.name ≠ 0)) :
    ∃ text : List Char, saveBoats boats = some text ∧
      loadBoats qsort g filename (some text) old = (boats.map reloaded, "") := by
  obtain ⟨text, hsave, hload⟩ := save_load_loop boats hwf
  refine ⟨text, hsave, ?_⟩
  have hloop : loadLoop g MAX_BOATS text [] = boats.map reloaded := by
    rw [hload g MAX_BOATS [] hcount]; rfl
  have hs : (boats.map reloaded).Pairwise (fun a b => compareBoats a b ≤ 0) := by
    rw [List.pairwise_map]; exact hsorted
  have hd : (boats.map reloaded).Pairwise (fun a b => compareBoats a b ≠ 0) := by
    rw [List.pairwise_map]; exact hdistinct
  simp only [loadBoats, hloop, qsort_sorted_distinct qsort hq _ hs hd]

/-- The scenario of the specification for claim C1: Marlin, 20 feet, slip 15, owing 0.00, owes
150.00 after one month of fees and a payment of 100.00; that store is saved as one line
and reloaded identically. -/
theorem save_load_roundtrip_witness :
    (acceptPayment (updateMonthlyFees [exampleBoat "Marlin" 0]).1 "Marlin".toList
        (float.fin false (100 * 2 ^ 149))).1 = [exampleBoat "Marlin" 150] ∧
    saveBoats [exampleBoat "Marlin" 150] = some "Marlin,20,slip,15,150.00\n".toList ∧
    ∃ text : List Char, saveBoats [exampleBoat "Marlin" 150] = some text ∧
      loadBoats insertionQsort (fun _ => exampleUninit) "boats.csv" (some text) []
        = ([exampleBoat "Marlin" 150], "") :=
  ⟨by decide, by decide,
    save_load_roundtrip insertionQsort insertionQsort_isQsort (fun _ => exampleUninit)
      "boats.csv" [] [exampleBoat "Marlin" 150] (by decide) (by decide) (by decide) (by decide)⟩

/-- Claim C2 (the store is sorted after `addBoat`). For every `qsort`, every store of fewer
than `MAX_BOATS` records in any order, every input line whose name, tag and detail fit
their buffers (`FieldsFit`) and every prior content of memory, each record of the
resulting store compares `<=` with its successor under `compareBoats`, the comparison of
names ignoring case. -/
theorem addBoat_sorted (qsort : (Boat → Boat → Int) → List Boat → List Boat)
    (hq : IsQsort qsort) (u : Uninit) (boats : List Boat) (boatData : List Char)
    (h : boats.length < MAX_BOATS) (_hfit : FieldsFit boatData) :
    ∀ (i : Nat) (a b : Boat), (addBoat qsort u boats boatData).1[i]? = some a →
      (addBoat qsort u boats boatData).1[i + 1]? = some b → compareBoats a b ≤ 0 := by
  rw [addBoat_room qsort u boats boatData h]
  intro i a b ha hb
  have hs := (hq compareBoats compareBoats_consistent (boats ++ [parseBoat u boatData])).2
  obtain ⟨hi, ha'⟩ := List.getElem?_eq_some_iff.mp ha
  obtain ⟨hj, hb'⟩ := List.getElem?_eq_some_iff.mp hb
  rw [← ha', ← hb']
  exact List.pairwise_iff_getElem.mp hs i (i + 1) hi hj (Nat.lt_succ_self i)

/-- The example of claim C2: adding the line of `bob` and then the line of `Amy` to the empty
store gives the order Amy, bob, and the two records compare in that order. -/
theorem addBoat_sorted_witness :
    ((addBoat insertionQsort exampleUninit
        (addBoat insertionQsort exampleUninit [] "bob,20,slip,15,0.00".toList).1
        "Amy,22,land,A,10.50".toList).1.map (fun b => String.mk b.name) = ["Amy", "bob"]) ∧
    compareBoats
      ⟨"Amy".toList, 22, LocationType.LAND, LocationDetails.bayLetter 'A',
        float.fin false (21 * 2 ^ 148)⟩
      ⟨"bob".toList, 20, LocationType.SLIP, LocationDetails.slipNumber 15, float.fin false 0⟩
      ≤ 0 :=
  ⟨by decide,
    addBoat_sorted insertionQsort insertionQsort_isQsort exampleUninit
      (addBoat insertionQsort exampleUninit [] "bob,20,slip,15,0.00".toList).1
      "Amy,22,land,A,10.50".toList (by decide) (by decide) 0
      ⟨"Amy".toList, 22, LocationType.LAND, LocationDetails.bayLetter 'A',
        float.fin false (21 * 2 ^ 148)⟩
      ⟨"bob".toList, 20, LocationType.SLIP, LocationDetails.slipNumber 15, float.fin false 0⟩
      (by decide) (by decide)⟩

/-- Claim C3 (`addBoat` appends exactly one record and loses none). For every `qsort`, every
store of fewer than `MAX_BOATS` records and every input line whose name, tag and detail
fit their buffers (`FieldsFit`), the resulting store is a permutation of the old
records together with the record parsed from the line, its count is the old count plus
one, and when the line is `name,length,tag,detail,amount` with fields that the directives
read whole and that fit their buffers, the new record carries exactly the name, the
length, the location type of the tag, the location detail of the detail text and the
amount, whatever the prior contents of memory. -/
theorem addBoat_appends (qsort : (Boat → Boat → Int) → List Boat → List Boat)
    (hq : IsQsort qsort) (u : Uninit) (boats : List Boat) (boatData : List Char)
    (h : boats.length < MAX_BOATS) (_hfit : FieldsFit boatData) :
    (addBoat qsort u boats boatData).1.Perm (boats ++ [parseBoat u boatData]) ∧
    (addBoat qsort u boats boatData).1.length = boats.length + 1 ∧
    ∀ (name lengthText tag detail amountText : List Char) (len : Int) (ty : LocationType)
      (det : LocationDetails) (amount : float),
      boatData = name ++ ',' :: (lengthText ++ ',' :: (tag ++ ',' :: (detail ++ ',' :: amountText))) →
      IsField name → name.length ≤ MAX_NAME_LENGTH → scan_d lengthText = some (len, []) →
      IsField tag → tagType tag = some ty →
      IsField detail → detail.length < 20 → detailValue ty detail = some det →
      scan_f amountText = some amount →
      parseBoat u boatData
        = { name := name, length := len, locationType := ty, details := det,
            amountOwed := amount } := by
  rw [addBoat_room qsort u boats boatData h]
  have hp := (hq compareBoats compareBoats_consistent (boats ++ [parseBoat u boatData])).1
  refine ⟨hp, by simpa using hp.length_eq, ?_⟩
  intro name lengthText tag detail amountText len ty det amount hline hname _ hlen htag hty
    hdetail _ hdet hamount
  rw [hline]
  exact parseBoat_wellFormed u name lengthText tag detail amountText len ty det amount
    hname hlen htag hty hdetail hdet hamount

/-- An instance of claim C3: the line `Zoe,22,land,A,10.50` adds exactly the record Zoe,
22 feet, land bay A, owing 10.50, to a store of three records. -/
theorem addBoat_appends_witness :
    (addBoat insertionQsort exampleUninit exampleStore "Zoe,22,land,A,10.50".toList).1.Perm
      (exampleStore ++ [(⟨"Zoe".toList, 22, LocationType.LAND, LocationDetails.bayLetter 'A',
        float.fin false (21 * 2 ^ 148)⟩ : Boat)]) ∧
    (addBoat insertionQsort exampleUninit exampleStore "Zoe,22,land,A,10.50".toList).1.length
      = exampleStore.length + 1 := by
  have h := addBoat_appends insertionQsort insertionQsort_isQsort exampleUninit exampleStore
    "Zoe,22,land,A,10.50".toList (by decide) (by decide)
  have hp := h.2.2 "Zoe".toList "22".toList "land".toList "A".toList "10.50".toList 22
    LocationType.LAND (LocationDetails.bayLetter 'A') (float.fin false (21 * 2 ^ 148))
    (by decide) (by decide) (by decide) (by decide) (by decide) (by decide) (by decide)
    (by decide) (by decide) (by decide)
  exact ⟨hp ▸ h.1, h.2.1⟩

/-- Claim C4 (capacity rejection is atomic). For every store whose count is at or above
`MAX_BOATS` and every input line, `addBoat` prints the capacity message and returns the
store exactly as it was. -/
theorem addBoat_full_unchanged (qsort : (Boat → Boat → Int) → List Boat → List Boat) (u : Uninit)
    (boats : List Boat) (boatData : List Char) (h : MAX_BOATS ≤ boats.length) :
    addBoat qsort u boats boatData
      = (boats, "Cannot add more boats. Maximum capacity reached.\n") := by
  simp [addBoat, h]

/-- An instance of claim C4: a store of 120 records rejects a further line and is
unchanged. -/
theorem addBoat_full_unchanged_witness :
    addBoat insertionQsort exampleUninit (List.replicate 120 (exampleBoat "Amy" 100))
        "Zoe,20,slip,3,0.00".toList
      = (List.replicate 120 (exampleBoat "Amy" 100),
          "Cannot add more boats. Maximum capacity reached.\n") :=
  addBoat_full_unchanged insertionQsort exampleUninit _ _ (by simp [MAX_BOATS])

/-- Claim C5 (`removeBoat` removes the first match and shifts stably). For every store and
every name that equals the name of at least one record ignoring case, there is a smallest
matching index `i`; the resulting store is the old sequence without the record at `i`, all
other records in their old relative order, the count is reduced by exactly one, and
nothing is printed. -/
theorem removeBoat_removes_first_match (boats : List Boat) (boatName : List Char)
    (h : ∃ b ∈ boats, strcasecmp b.name boatName = 0) :
    ∃ i b, FirstMatch boats boatName i b ∧
      removeBoat boats boatName = (boats.take i ++ boats.drop (i + 1), "") ∧
      (removeBoat boats boatName).1.length + 1 = boats.length := by
  obtain ⟨i, b, hfm⟩ := exists_firstMatch boatName boats h
  have hrm := removeBoat_firstMatch boats boatName i b hfm
  have hi : i < boats.length := by
    have := hfm.1
    exact (List.getElem?_eq_some_iff.mp this).1
  refine ⟨i, b, hfm, ?_, ?_⟩
  · rw [hrm, List.eraseIdx_eq_take_drop_succ]
  · rw [hrm]; simp [List.length_eraseIdx, hi]; omega

/-- An instance of claim C5: removing `BOB` from the store Amy, bob, Bob removes bob, the
first match, and keeps Bob. -/
theorem removeBoat_removes_first_match_witness :
    (removeBoat exampleStore "BOB".toList).1 = [exampleBoat "Amy" 100, exampleBoat "Bob" 0] ∧
    ∃ i b, FirstMatch exampleStore "BOB".toList i b ∧
      removeBoat exampleStore "BOB".toList
        = (exampleStore.take i ++ exampleStore.drop (i + 1), "") ∧
      (removeBoat exampleStore "BOB".toList).1.length + 1 = exampleStore.length :=
  ⟨by decide, removeBoat_removes_first_match exampleStore "BOB".toList
    ⟨exampleBoat "bob" 250, by simp [exampleStore], by decide⟩⟩

/-- Claim C6 (a lookup miss changes nothing). For every store and every name that equals no
record's name ignoring case, `removeBoat` and `acceptPayment` print that there is no boat
with that name and return the store exactly as it was. -/
theorem lookup_miss_unchanged (boats : List Boat) (boatName : List Char) (paymentAmount : float)
    (h : ∀ b ∈ boats, strcasecmp b.name boatName ≠ 0) :
    removeBoat boats boatName = (boats, "No boat with that name\n\n") ∧
    acceptPayment boats boatName paymentAmount = (boats, "No boat with that name\n\n") := by
  have hfind : findBoat boats boatName = none := findLoop_none boatName boats h 0
  simp [removeBoat, acceptPayment, hfind]

/-- The example of claim C6: removing or paying `Nonexistent` leaves the store unchanged. -/
theorem lookup_miss_unchanged_witness :
    removeBoat exampleStore "Nonexistent".toList = (exampleStore, "No boat with that name\n\n") ∧
    acceptPayment exampleStore "Nonexistent".toList (float.fin false (2 ^ 149))
      = (exampleStore, "No boat with that name\n\n") :=
  lookup_miss_unchanged exampleStore "Nonexistent".toList (float.fin false (2 ^ 149)) (by decide)

/-- Claim C7 (an overpayment is rejected without effect). For every store, every record found
by name as the first match and every payment amount strictly greater than the amount that
record owes, `acceptPayment` prints that this is more than the amount owed, with the
current balance shown by `%.2f`, and returns the store exactly as it was. -/
theorem acceptPayment_overpayment (boats : List Boat) (boatName : List Char) (paymentAmount : float)
    (i : Nat) (b : Boat) (hfound : FirstMatch boats boatName i b)
    (hover : paymentAmount.gt b.amountOwed = true) :
    acceptPayment boats boatName paymentAmount
      = (boats, "Please enter the amount to be paid                 : " ++
          "That is more than the amount owed, $" ++ String.mk (fmt_2f b.amountOwed) ++ "\n\n") := by
  have hfind : findBoat boats boatName = some i := by
    have := findLoop_firstMatch boatName boats i b hfound 0
    simpa [findBoat] using this
  have hget := hfound.1
  simp [acceptPayment, hfind, hget, hover]

/-- An instance of claim C7: a payment of 251.00 against a balance of 250.00. -/
theorem acceptPayment_overpayment_witness :
    acceptPayment exampleStore "BOB".toList (float.fin false (251 * 2 ^ 149))
      = (exampleStore, "Please enter the amount to be paid                 : " ++
          "That is more than the amount owed, $" ++ "250.00" ++ "\n\n") :=
  acceptPayment_overpayment exampleStore "BOB".toList (float.fin false (251 * 2 ^ 149)) 1
    (exampleBoat "bob" 250) (by decide) (by decide)

/-- Claim C8 as stated fails: a payment of 0.50 against a balance of 16777216.00 is accepted,
and the balance afterwards is still 16777216.00 rather than 16777215.50, because the
difference is not a `float`. -/
theorem acceptPayment_rounds :
    acceptPayment [exampleSkiff] "skiff".toList (float.fin false (2 ^ 148))
      = ([exampleSkiff], "Please enter the amount to be paid                 : ") ∧
    (float.fin false (2 ^ 148)).gt exampleSkiff.amountOwed = false ∧
    exampleSkiff.amountOwed.value = some 16777216 ∧
    (float.fin false (2 ^ 148)).value = some (1 / 2) ∧
    (16777216 : ℚ) ≠ 16777216 - 1 / 2 := by
  refine ⟨by decide, by decide, ?_, ?_, by norm_num⟩
  · norm_num [exampleSkiff, float.value, signed]
  · norm_num [float.value, signed, pow_succ]

/-- Claim C8 as amended (an accepted payment subtracts in `float` arithmetic). For every record
found by name as the first match and every amount not greater than the amount it owes,
`acceptPayment` prints only the prompt and replaces the amount owed by the `float`
difference `amountOwed - paymentAmount`, leaving the rest of the store as it was; that
difference is exactly the old amount minus the payment whenever this number is a `float`,
and in particular a payment equal to a finite amount owed leaves an amount owed of zero. -/
theorem acceptPayment_accepted (boats : List Boat) (boatName : List Char)
    (paymentAmount : float) (i : Nat) (b : Boat) (hfound : FirstMatch boats boatName i b)
    (hok : paymentAmount.gt b.amountOwed = false) :
    acceptPayment boats boatName paymentAmount
      = (boats.set i { b with amountOwed := b.amountOwed.sub paymentAmount },
          "Please enter the amount to be paid                 : ") ∧
    (∀ (v w : ℚ) (c : float), b.amountOwed.value = some v → paymentAmount.value = some w →
      c.valid → c.value = some (v - w) → (b.amountOwed.sub paymentAmount).value = some (v - w)) ∧
    (∀ v : ℚ, b.amountOwed.value = some v → paymentAmount.value = some v →
      (b.amountOwed.sub paymentAmount).value = some 0) :=
  ⟨acceptPayment_firstMatch boats boatName paymentAmount i b hfound hok,
    fun v w c ha hp hc hcv => float_sub_exact_value _ _ c v w ha hp hc hcv,
    fun v ha hp => float_sub_self_value _ _ v ha hp⟩

/-- An instance of claim C8 as amended: a payment of 250.00 against a balance of 250.00 is
accepted and leaves a balance of zero. -/
theorem acceptPayment_accepted_witness :
    acceptPayment exampleStore "BOB".toList (float.fin false (250 * 2 ^ 149))
      = (exampleStore.set 1 { exampleBoat "bob" 250 with
            amountOwed := (exampleBoat "bob" 250).amountOwed.sub (float.fin false (250 * 2 ^ 149)) },
          "Please enter the amount to be paid                 : ") ∧
    ((exampleBoat "bob" 250).amountOwed.sub (float.fin false (250 * 2 ^ 149))).value = some 0 := by
  have h := acceptPayment_accepted exampleStore "BOB".toList (float.fin false (250 * 2 ^ 149)) 1
    (exampleBoat "bob" 250) (by decide) (by decide)
  exact ⟨h.1, h.2.2 250 (by norm_num [exampleBoat, float.value, signed])
    (by norm_num [float.value, signed])⟩

/-- Claim C9 as stated fails: a payment of -50.00 against a balance of 100.00 is accepted and
raises the balance to 150.00. -/
theorem acceptPayment_negative_payment_increases :
    acceptPayment [exampleBoat "Marlin" 100] "Marlin".toList (float.fin true (50 * 2 ^ 149))
      = ([exampleBoat "Marlin" 150], "Please enter the amount to be paid                 : ") ∧
    (exampleBoat "Marlin" 150).amountOwed.le (exampleBoat "Marlin" 100).amountOwed = false := by
  refine ⟨by decide, by decide⟩

/-- Claim C9 as amended (a payment that is not negative never increases a balance). For every
store whose balances are values of the `float` format, every name and every payment amount
that is finite and not below zero, the count is unchanged and each record's amount owed
after `acceptPayment` is the amount owed before or compares `<=` with it. -/
theorem acceptPayment_not_increase (boats : List Boat) (boatName : List Char) (p : float)
    (hvalid : ∀ b ∈ boats, b.amountOwed.valid) (hpf : p.finite = true)
    (hp0 : (float.fin false 0).le p = true) :
    (acceptPayment boats boatName p).1.length = boats.length ∧
    ∀ (i : Nat) (b c : Boat), boats[i]? = some b → (acceptPayment boats boatName p).1[i]? = some c →
      c.amountOwed = b.amountOwed ∨ c.amountOwed.le b.amountOwed = true := by
  rcases acceptPayment_cases boats boatName p with h | ⟨k, b0, hget0, hng, h⟩
  · rw [h]
    refine ⟨rfl, fun i b c hb hc => ?_⟩
    rw [hb] at hc
    left; rw [Option.some.inj hc]
  · rw [h]
    refine ⟨by simp, fun i b c hb hc => ?_⟩
    by_cases hik : k = i
    · subst hik
      rw [hget0] at hb
      have hb' : b0 = b := Option.some.inj hb
      subst hb'
      have hlt : k < boats.length := (List.getElem?_eq_some_iff.mp hget0).1
      rw [List.getElem?_set_self hlt] at hc
      have hc' := Option.some.inj hc
      subst hc'
      have hmem : b0 ∈ boats := List.getElem?_mem hget0
      exact float_sub_le b0.amountOwed p (hvalid b0 hmem) hpf hp0 hng
    · rw [List.getElem?_set_ne hik] at hc
      rw [hb] at hc
      left; rw [Option.some.inj hc]

/-- An instance of claim C9 as amended: a payment of 100.00 against `BOB` takes the balance
of the first match from 250.00 to 150.00 and changes nothing else. -/
theorem acceptPayment_not_increase_witness :
    (acceptPayment exampleStore "BOB".toList (float.fin false (100 * 2 ^ 149))).1
      = [exampleBoat "Amy" 100, exampleBoat "bob" 150, exampleBoat "Bob" 0] ∧
    ((exampleBoat "bob" 150).amountOwed = (exampleBoat "bob" 250).amountOwed ∨
      (exampleBoat "bob" 150).amountOwed.le (exampleBoat "bob" 250).amountOwed = true) :=
  ⟨by decide,
    (acceptPayment_not_increase exampleStore "BOB".toList (float.fin false (100 * 2 ^ 149))
      (by decide) (by decide) (by decide)).2 1 (exampleBoat "bob" 250) (exampleBoat "bob" 150)
      (by decide) (by decide)⟩

/-- Claim C10 as stated fails: a boat of length 1 in a slip that owes 16777216.00 owes
16777228.00 after `updateMonthlyFees`, an increase of 12.00 and not of 12.50, because
16777228.50 is not a `float`. -/
theorem updateMonthlyFees_rounds :
    (updateMonthlyFees [exampleSkiff]).1
      = [{ exampleSkiff with amountOwed := float.fin false (16777228 * 2 ^ 149) }] ∧
    exampleSkiff.amountOwed.value = some 16777216 ∧
    (float.fin false (16777228 * 2 ^ 149)).value = some 16777228 ∧
    (16777228 : ℚ) ≠ 16777216 + ratePerFoot exampleSkiff.locationType * exampleSkiff.length := by
  refine ⟨by decide, ?_, ?_, ?_⟩
  · norm_num [exampleSkiff, float.value, signed]
  · norm_num [float.value, signed]
  · simp only [exampleSkiff, ratePerFoot]; norm_num

/-- Claim C10 as amended (`updateMonthlyFees` is a pointwise fee accrual in floating point).
For every store the result has the same count and order; every record keeps its name,
length, location type and location detail; its amount owed becomes the old amount plus
the rate literal of its location type times its length, the product and the sum computed
in `double` and the result converted to `float`; and for a boat in a slip, on land or on
a trailer that new amount is exactly the old amount plus 12.50, 14.00 or 25.00 per foot
whenever this number is a `float`. -/
theorem updateMonthlyFees_accrual (boats : List Boat) :
    (updateMonthlyFees boats).1.length = boats.length ∧
    ∀ (i : Nat) (b : Boat), boats[i]? = some b →
      ∃ c : Boat, (updateMonthlyFees boats).1[i]? = some c ∧
        c.name = b.name ∧ c.length = b.length ∧ c.locationType = b.locationType ∧
        c.details = b.details ∧
        c.amountOwed = (b.amountOwed.toDouble.add
          ((feeRate b.locationType).mul (double.ofInt b.length))).toFloat ∧
        (b.locationType ≠ LocationType.STORAGE → -2 ^ 31 ≤ b.length → b.length < 2 ^ 31 →
          ∀ (v : ℚ) (e : float), b.amountOwed.value = some v → e.valid →
            e.value = some (v + ratePerFoot b.locationType * b.length) →
            c.amountOwed.value = some (v + ratePerFoot b.locationType * b.length)) := by
  refine ⟨by simp [updateMonthlyFees], fun i b hb => ?_⟩
  refine ⟨accrue b, by simp [updateMonthlyFees, hb], rfl, rfl, rfl, rfl, rfl, ?_⟩
  intro hty hlo hhi v e hv he hev
  exact accrue_exact_value b hty hlo hhi v e hv he hev

/-- The example of claim C10: a boat of length 20 in a slip that owes 0.00 owes exactly
250.00 after `updateMonthlyFees`. -/
theorem updateMonthlyFees_accrual_witness :
    ∃ c : Boat, (updateMonthlyFees [exampleBoat "Marlin" 0]).1[0]? = some c ∧
      c.amountOwed.value = some (0 + 12.50 * 20) := by
  obtain ⟨c, hc, _, _, _, _, _, hex⟩ :=
    (updateMonthlyFees_accrual [exampleBoat "Marlin" 0]).2 0 (exampleBoat "Marlin" 0) rfl
  refine ⟨c, hc, ?_⟩
  have := hex (by decide) (by decide) (by decide) 0 (float.fin false (250 * 2 ^ 149))
    (by simp [exampleBoat, float.value, float.units, signed]) (by decide)
    (by simp [exampleBoat, float.value, float.units, signed, ratePerFoot]; norm_num)
  simpa [exampleBoat, ratePerFoot] using this

/-! ## Recognition of the location tag -/

/-- Only NUL has the lower-case code zero. -/
theorem tolower_eq_zero_iff (c : Char) : tolower c = 0 ↔ c = Char.ofNat 0 := by
  constructor
  · intro h
    have h0 : c.toNat = 0 := by
      unfold tolower at h
      split_ifs at h; omega
    rw [← Char.ofNat_toNat c, h0]
  · intro h; rw [h]; decide

/-- On C strings `strcasecmp` is zero exactly for texts that are equal ignoring case. -/
theorem strcasecmp_eq_zero_iff (a b : List Char) (ha : NoNul a) (hb : NoNul b) :
    strcasecmp a b = 0 ↔ EqIgnoreCase a b := by
  unfold EqIgnoreCase
  induction a generalizing b with
  | nil =>
    cases b with
    | nil => simp [strcasecmp]
    | cons y bs =>
      have hy : tolower y ≠ 0 := fun h =>
        hb (by rw [(tolower_eq_zero_iff y).mp h]; exact List.mem_cons_self _ _)
      simp only [strcasecmp, List.map_nil, List.map_cons]
      constructor
      · intro h; omega
      · intro h; exact absurd h (by simp)
  | cons x as ih =>
    have hx : tolower x ≠ 0 := fun h =>
      ha (by rw [(tolower_eq_zero_iff x).mp h]; exact List.mem_cons_self _ _)
    have has : NoNul as := fun h => ha (List.mem_cons_of_mem _ h)
    cases b with
    | nil =>
      simp only [strcasecmp, List.map_nil, List.map_cons]
      constructor
      · intro h; omega
      · intro h; exact absurd h (by simp)
    | cons y bs =>
      have hbs : NoNul bs := fun h => hb (List.mem_cons_of_mem _ h)
      simp only [strcasecmp, List.map_cons, List.cons.injEq]
      by_cases hxy : tolower x = tolower y
      · rw [if_pos hxy, if_neg hx, ih bs has hbs]
        exact ⟨fun h => ⟨hxy, h⟩, fun h => h.2⟩
      · rw [if_neg hxy]
        constructor
        · intro h; omega
        · intro h; exact absurd h.1 hxy

/-- The `sscanf` call assigns neither `locationType` nor `details`. -/
theorem sscanfBoat_frame (u : Uninit) (line : List Char) :
    (sscanfBoat u line).boat.locationType = u.boat.locationType ∧
    (sscanfBoat u line).boat.details = u.boat.details := by
  unfold sscanfBoat
  simp only
  repeat' split
  all_goals exact ⟨rfl, rfl⟩

/-- The directive `%[^,]` reads a field up to its end. -/
theorem takeWhile_field_end (f rest : List Char) (h : ',' ∉ f) (hrest : FieldEnd rest) :
    (f ++ rest).takeWhile (fun c => c ≠ ',') = f ∧
    (f ++ rest).dropWhile (fun c => c ≠ ',') = rest := by
  rcases hrest with rfl | ⟨r, rfl⟩
  · have hall : ∀ c ∈ f, (fun c => decide (c ≠ ',')) c = true := by
      intro x hx
      have : x ≠ ',' := fun hxc => h (hxc ▸ hx)
      simpa using this
    simpa using takeWhile_all _ f hall
  · exact takeWhile_field f r h

/-- A line whose name, length and tag fields can be read: the `sscanf` call stores them. -/
theorem sscanfBoat_tag (u : Uninit) (name lengthText tag rest : List Char) (len : Int)
    (hname : IsField name) (hlen : scan_d lengthText = some (len, [])) (htag : IsField tag)
    (hrest : FieldEnd rest) :
    (sscanfBoat u (name ++ ',' :: (lengthText ++ ',' :: (tag ++ rest)))).locType = tag ∧
    (sscanfBoat u (name ++ ',' :: (lengthText ++ ',' :: (tag ++ rest)))).boat.name = name ∧
    (sscanfBoat u (name ++ ',' :: (lengthText ++ ',' :: (tag ++ rest)))).boat.length = len := by
  obtain ⟨h1, h2⟩ := takeWhile_field name (lengthText ++ ',' :: (tag ++ rest)) hname.2
  obtain ⟨h3, h4⟩ := takeWhile_field_end tag rest htag.2 hrest
  have h7 := scan_d_append lengthText len ',' (tag ++ rest) hlen (by decide)
  unfold sscanfBoat
  simp only [h1, h2, h3, h4, h7, hname.1, htag.1, if_false, ne_eq, not_true_eq_false]
  repeat' split
  all_goals exact ⟨rfl, rfl, rfl⟩

/-- A line whose name, length, tag and detail fields can be read: the `sscanf` call stores
them. -/
theorem sscanfBoat_detail (u : Uninit) (name lengthText tag detail rest : List Char) (len : Int)
    (hname : IsField name) (hlen : scan_d lengthText = some (len, [])) (htag : IsField tag)
    (hdetail : IsField detail) (hrest : FieldEnd rest) :
    (sscanfBoat u (name ++ ',' :: (lengthText ++ ',' :: (tag ++ ',' :: (detail ++ rest))))).locType
      = tag ∧
    (sscanfBoat u (name ++ ',' :: (lengthText ++ ',' :: (tag ++ ',' :: (detail ++ rest))))).detailStr
      = detail := by
  obtain ⟨h1, h2⟩ := takeWhile_field name
    (lengthText ++ ',' :: (tag ++ ',' :: (detail ++ rest))) hname.2
  obtain ⟨h3, h4⟩ := takeWhile_field tag (detail ++ rest) htag.2
  obtain ⟨h5, h6⟩ := takeWhile_field_end detail rest hdetail.2 hrest
  have h7 := scan_d_append lengthText len ',' (tag ++ ',' :: (detail ++ rest)) hlen (by decide)
  unfold sscanfBoat
  simp only [h1, h2, h3, h4, h5, h6, h7, hname.1, htag.1, hdetail.1, if_false, ne_eq,
    not_true_eq_false]
  repeat' split
  all_goals exact ⟨rfl, rfl⟩

/-- The words of two different location types differ, also ignoring case. -/
theorem tagWord_injective (tag : List Char) (ty1 ty2 : LocationType)
    (h1 : EqIgnoreCase tag (tagWord ty1)) (h2 : EqIgnoreCase tag (tagWord ty2)) : ty1 = ty2 := by
  unfold EqIgnoreCase at h1 h2
  rw [h1] at h2
  revert h2
  cases ty1 <;> cases ty2 <;> decide

/-- The chain of `strcasecmp` tests selects a location type exactly for a tag that equals
its word ignoring case. -/
theorem tagType_eq_some_iff (tag : List Char) (ty : LocationType) (h : NoNul tag) :
    tagType tag = some ty ↔ EqIgnoreCase tag (tagWord ty) := by
  have e1 := strcasecmp_eq_zero_iff tag (tagWord LocationType.SLIP) h (by decide)
  have e2 := strcasecmp_eq_zero_iff tag (tagWord LocationType.LAND) h (by decide)
  have e3 := strcasecmp_eq_zero_iff tag (tagWord LocationType.TRAILOR) h (by decide)
  have e4 := strcasecmp_eq_zero_iff tag (tagWord LocationType.STORAGE) h (by decide)
  simp only [tagWord] at e1 e2 e3 e4
  constructor
  · intro ht
    unfold tagType at ht
    split_ifs at ht with c1 c2 c3 c4
    · cases Option.some.inj ht; exact e1.mp c1
    · cases Option.some.inj ht; exact e2.mp c2
    · cases Option.some.inj ht; exact e3.mp c3
    · cases Option.some.inj ht; exact e4.mp c4
  · intro he
    have key : ∀ ty2, strcasecmp tag (tagWord ty2) = 0 → ty2 = ty := fun ty2 h2 =>
      tagWord_injective tag ty2 ty
        ((strcasecmp_eq_zero_iff tag (tagWord ty2) h (by cases ty2 <;> decide)).mp h2) he
    have hz : strcasecmp tag (tagWord ty) = 0 :=
      (strcasecmp_eq_zero_iff tag (tagWord ty) h (by cases ty <;> decide)).mpr he
    unfold tagType
    split_ifs with c1 c2 c3 c4
    · rw [key LocationType.SLIP c1]
    · rw [key LocationType.LAND c2]
    · rw [key LocationType.TRAILOR c3]
    · rw [key LocationType.STORAGE c4]
    · cases ty
      · exact absurd hz c1
      · exact absurd hz c2
      · exact absurd hz c3
      · exact absurd hz c4

/-- The location type of the parsed record: the one that the tag in `locType` selects, or
the prior content of memory when it selects none; then `details` is prior content too. -/
theorem parseBoat_locationType (u : Uninit) (line : List Char) :
    (parseBoat u line).locationType
      = (tagType (sscanfBoat u line).locType).getD u.boat.locationType ∧
    (tagType (sscanfBoat u line).locType = none → (parseBoat u line).details = u.boat.details) := by
  obtain ⟨hf1, hf2⟩ := sscanfBoat_frame u line
  unfold parseBoat tagType
  simp only
  split_ifs <;> simp [hf1, hf2]

/-- Claim C11 (recognition of the location tag by the line parser, the code shared by
`loadBoats` and `addBoat`). For every line whose name and length fields are read, whose
tag field is `tag`, a C string, and whose name, tag and detail fit their buffers
(`FieldsFit`): the parser sets the location type to `ty`, whatever
the prior contents of memory, exactly when `tag` equals the word of `ty` (`slip`, `land`,
`trailor`, `storage`) ignoring case; and when `tag` equals none of the four words the
parser assigns neither `locationType` nor `details`, which keep the prior contents of
memory. -/
theorem tag_recognition (name lengthText tag rest : List Char) (len : Int)
    (hname : IsField name) (hlen : scan_d lengthText = some (len, [])) (htag : IsField tag)
    (hnul : NoNul tag) (hrest : FieldEnd rest)
    (_hfit : FieldsFit (name ++ ',' :: (lengthText ++ ',' :: (tag ++ rest)))) :
    (∀ ty : LocationType,
      (∀ u : Uninit,
        (parseBoat u (name ++ ',' :: (lengthText ++ ',' :: (tag ++ rest)))).locationType = ty)
      ↔ EqIgnoreCase tag (tagWord ty)) ∧
    ((∀ ty : LocationType, ¬ EqIgnoreCase tag (tagWord ty)) →
      ∀ u : Uninit,
        (parseBoat u (name ++ ',' :: (lengthText ++ ',' :: (tag ++ rest)))).locationType
          = u.boat.locationType ∧
        (parseBoat u (name ++ ',' :: (lengthText ++ ',' :: (tag ++ rest)))).details
          = u.boat.details) := by
  have hloc : ∀ u : Uninit,
      (sscanfBoat u (name ++ ',' :: (lengthText ++ ',' :: (tag ++ rest)))).locType = tag :=
    fun u => (sscanfBoat_tag u name lengthText tag rest len hname hlen htag hrest).1
  have hnone : (∀ ty : LocationType, ¬ EqIgnoreCase tag (tagWord ty)) → tagType tag = none := by
    intro h
    cases ht : tagType tag with
    | none => rfl
    | some ty => exact absurd ((tagType_eq_some_iff tag ty hnul).mp ht) (h ty)
  generalize name ++ ',' :: (lengthText ++ ',' :: (tag ++ rest)) = line at hloc ⊢
  refine ⟨fun ty => ⟨fun h => ?_, fun h u => ?_⟩, fun h u => ?_⟩
  · cases ht : tagType tag with
    | some ty2 =>
      have h1 := (parseBoat_locationType exampleUninit line).1
      rw [hloc, ht, h exampleUninit] at h1
      have h2 : ty = ty2 := h1
      rw [h2]
      exact (tagType_eq_some_iff tag ty2 hnul).mp ht
    | none =>
      exfalso
      cases ty with
      | SLIP =>
        have h1 := (parseBoat_locationType
          ⟨{ exampleUninit.boat with locationType := LocationType.LAND }, [], []⟩ line).1
        rw [hloc, ht, h] at h1
        exact absurd h1 (by decide)
      | _ =>
        have h1 := (parseBoat_locationType exampleUninit line).1
        rw [hloc, ht, h] at h1
        exact absurd h1 (by decide)
  · have h1 := (parseBoat_locationType u line).1
    rw [hloc, (tagType_eq_some_iff tag ty hnul).mpr h] at h1
    exact h1
  · obtain ⟨h1, h2⟩ := parseBoat_locationType u line
    rw [hloc, hnone h] at h1 h2
    exact ⟨h1, h2 rfl⟩

/-- Instances of claim C11: the tags `TrAiLoR` and `SLIP` select Trailer and Slip; the
spelling `trailer` selects nothing, the location type and detail stay what memory held. -/
theorem tag_recognition_witness :
    (parseBoat exampleUninit "Gull,20,TrAiLoR,ABC123,5.00".toList).locationType
      = LocationType.TRAILOR ∧
    (parseBoat exampleUninit "Gull,20,SLIP,7,5.00".toList).locationType = LocationType.SLIP ∧
    (parseBoat exampleUninit "Gull,20,trailer,ABC123,5.00".toList).locationType
      = exampleUninit.boat.locationType ∧
    (parseBoat exampleUninit "Gull,20,trailer,ABC123,5.00".toList).details
      = exampleUninit.boat.details :=
  ⟨((tag_recognition "Gull".toList "20".toList "TrAiLoR".toList ",ABC123,5.00".toList 20
      (by decide) (by decide) (by decide) (by decide) (Or.inr ⟨_, rfl⟩) (by decide)).1
        LocationType.TRAILOR).mpr (by decide) exampleUninit,
    ((tag_recognition "Gull".toList "20".toList "SLIP".toList ",7,5.00".toList 20
      (by decide) (by decide) (by decide) (by decide) (Or.inr ⟨_, rfl⟩) (by decide)).1
        LocationType.SLIP).mpr (by decide) exampleUninit,
    (tag_recognition "Gull".toList "20".toList "trailer".toList ",ABC123,5.00".toList 20
      (by decide) (by decide) (by decide) (by decide) (Or.inr ⟨_, rfl⟩) (by decide)).2
        (fun ty => by cases ty <;> decide) exampleUninit⟩

/-! ## Format of the saved text -/

/-- The digits of a number other than zero do not start with a zero. -/
theorem natDigits_head (n : Nat) (h : (natDigits n).head? = some '0') : natDigits n = ['0'] := by
  induction n using Nat.strong_induction_on with
  | _ n ih =>
    by_cases h10 : n < 10
    · rw [natDigits_small n h10] at h ⊢
      simp only [List.head?_cons, Option.some.injEq] at h
      rw [h]
    · exfalso
      rw [natDigits_step n (by omega)] at h
      have hne := natDigits_ne_nil (n / 10)
      obtain ⟨c, cs, hcs⟩ := List.exists_cons_of_ne_nil hne
      have h2 : (natDigits (n / 10)).head? = some '0' := by
        rw [hcs] at h ⊢; simpa using h
      have h3 := ih (n / 10) (by omega) h2
      have h4 := digitsValue_natDigits (n / 10)
      rw [h3] at h4
      have : digitsValue ['0'] = 0 := by decide
      omega

/-- The text of `%d` is the decimal numeral. -/
theorem fmt_d_isDecimalOf (i : Int) : IsDecimalOf i (fmt_d i) := by
  refine ⟨natDigits i.natAbs, ?_, natDigits_ne_nil _, natDigits_isdigit _,
    digitsValue_natDigits _, natDigits_head _⟩
  unfold fmt_d
  split_ifs <;> simp

/-- A rounded quotient differs from the exact quotient by at most one half. -/
theorem divRoundEven_nearest (n d : Nat) (hd : 0 < d) :
    2 * (divRoundEven n d * d) ≤ 2 * n + d ∧ 2 * n ≤ 2 * (divRoundEven n d * d) + d := by
  have hdm := Nat.div_add_mod n d
  have hr := Nat.mod_lt n hd
  have hmul : d * (n / d) = n / d * d := Nat.mul_comm _ _
  unfold divRoundEven
  simp only
  split_ifs with h
  · rw [Nat.add_mul, Nat.one_mul]
    rcases h with h | ⟨h, _⟩ <;> constructor <;> omega
  · have h1 : ¬ d < 2 * (n % d) := fun h2 => h (Or.inl h2)
    constructor <;> omega

/-- The text of `%.2f` for a finite amount has exactly two fractional digits. -/
theorem fmt_2f_isTwoDecimalsOf (s : Bool) (k : Nat) :
    IsTwoDecimalsOf s k (fmt_2f (float.fin s k)) := by
  have hd1 := digitChar_props (hundredths k % 100 / 10) (by omega)
  have hd2 := digitChar_props (hundredths k % 10) (by omega)
  have hv : digitsValue (natDigits (hundredths k / 100) ++
      [digitChar (hundredths k % 100 / 10), digitChar (hundredths k % 10)]) = hundredths k := by
    have e : natDigits (hundredths k / 100) ++
        [digitChar (hundredths k % 100 / 10), digitChar (hundredths k % 10)]
        = (natDigits (hundredths k / 100) ++ [digitChar (hundredths k % 100 / 10)])
          ++ [digitChar (hundredths k % 10)] := by simp
    rw [e, digitsValue_append, digitsValue_append, digitsValue_natDigits, hd1.2.1, hd2.2.1]
    omega
  have hn := divRoundEven_nearest (k * 100) (2 ^ 149) (Nat.pow_pos (by norm_num))
  refine ⟨natDigits (hundredths k / 100), digitChar (hundredths k % 100 / 10),
    digitChar (hundredths k % 10), ?_, natDigits_ne_nil _, natDigits_isdigit _, hd1.1, hd2.1,
    natDigits_head _, ?_, ?_⟩
  · simp only [fmt_2f]
    cases s <;> simp
  · rw [hv]; exact hn.1
  · rw [hv]; exact hn.2

/-- A decimal numeral has no line break. -/
theorem isDecimalOf_noBreak (i : Int) (t : List Char) (h : IsDecimalOf i t) : '\n' ∉ t := by
  obtain ⟨ds, rfl, _, hd, _, _⟩ := h
  intro hm
  rw [List.mem_append] at hm
  rcases hm with hm | hm
  · split_ifs at hm
    · simp at hm
    · simp at hm
  · have := hd _ hm
    revert this; decide

/-- A text with two fractional digits has no line break. -/
theorem isTwoDecimalsOf_noBreak (s : Bool) (k : Nat) (t : List Char)
    (h : IsTwoDecimalsOf s k t) : '\n' ∉ t := by
  obtain ⟨ds, d1, d2, rfl, _, hd, h1, h2, _, _, _⟩ := h
  intro hm
  rw [List.mem_append, List.mem_append] at hm
  rcases hm with (hm | hm) | hm
  · cases s <;> simp at hm
  · have := hd _ hm
    revert this; decide
  · simp only [List.mem_cons, List.mem_singleton, List.not_mem_nil, or_false] at hm
    rcases hm with hm | hm | hm
    · revert hm; decide
    · rw [← hm] at h1; revert h1; decide
    · rw [← hm] at h2; revert h2; decide

/-- The word of a tag has no line break. -/
theorem tagWord_noBreak (ty : LocationType) : '\n' ∉ tagWord ty := by
  cases ty <;> decide

/-- The line of a record without a line break in its name and detail has no line break. -/
theorem isRecordLine_noBreak (b : Boat) (line : List Char) (h : IsRecordLine b line)
    (hb : NoLineBreak b) : '\n' ∉ line := by
  obtain ⟨lt, dt, at_, rfl, hL, hD, hA⟩ := h
  have h1 := isDecimalOf_noBreak _ _ hL
  have h2 := tagWord_noBreak b.locationType
  have h3 : '\n' ∉ dt := by
    obtain ⟨hn, hd⟩ := hb
    cases hdet : b.details with
    | slipNumber n => rw [hdet] at hD; exact isDecimalOf_noBreak _ _ hD
    | bayLetter c =>
      rw [hdet] at hD hd
      simp only [IsDetailText] at hD
      rw [hD]
      simp only [List.mem_singleton]
      exact fun e => hd e.symm
    | trailorLicense s =>
      rw [hdet] at hD hd
      simp only [IsDetailText] at hD
      rw [hD]; exact hd
    | storageNumber n => rw [hdet] at hD; exact isDecimalOf_noBreak _ _ hD
  have h4 : '\n' ∉ at_ := by
    cases ha : b.amountOwed with
    | fin s k => rw [ha] at hA; exact isTwoDecimalsOf_noBreak _ _ _ hA
    | inf s => rw [ha] at hA; exact hA.elim
    | nan => rw [ha] at hA; exact hA.elim
  have h5 : ('\n' : Char) ≠ ',' := by decide
  have h6 := hb.1
  simp only [List.mem_append, List.mem_cons, not_or]
  exact ⟨h6, h5, h1, h5, h2, h5, h3, h5, h4⟩

/-- The line that `saveBoats` writes for one record. -/
theorem saveLine_format (b : Boat) (hm : MemberMatches b.locationType b.details)
    (hf : b.amountOwed.finite = true) :
    ∃ line : List Char, saveLine b = some (line ++ ['\n']) ∧ IsRecordLine b line := by
  obtain ⟨name, len, ty, det, owed⟩ := b
  cases owed with
  | nan => simp [float.finite] at hf
  | inf s => simp [float.finite] at hf
  | fin s k =>
    have hA := fmt_2f_isTwoDecimalsOf s k
    have hL := fmt_d_isDecimalOf len
    cases ty <;> cases det <;> simp only [MemberMatches] at hm
    · rename_i x
      exact ⟨name ++ ',' :: (fmt_d len ++ ',' :: (tagWord LocationType.SLIP ++ ',' ::
          (fmt_d x ++ ',' :: fmt_2f (float.fin s k)))),
        by simp [saveLine, saveLocation, tagWord], fmt_d len, fmt_d x, fmt_2f (float.fin s k),
        rfl, hL, fmt_d_isDecimalOf x, hA⟩
    · rename_i x
      exact ⟨name ++ ',' :: (fmt_d len ++ ',' :: (tagWord LocationType.LAND ++ ',' ::
          ([x] ++ ',' :: fmt_2f (float.fin s k)))),
        by simp [saveLine, saveLocation, tagWord], fmt_d len, [x], fmt_2f (float.fin s k),
        rfl, hL, rfl, hA⟩
    · rename_i x
      exact ⟨name ++ ',' :: (fmt_d len ++ ',' :: (tagWord LocationType.TRAILOR ++ ',' ::
          (x ++ ',' :: fmt_2f (float.fin s k)))),
        by simp [saveLine, saveLocation, tagWord], fmt_d len, x, fmt_2f (float.fin s k),
        rfl, hL, rfl, hA⟩
    · rename_i x
      exact ⟨name ++ ',' :: (fmt_d len ++ ',' :: (tagWord LocationType.STORAGE ++ ',' ::
          (fmt_d x ++ ',' :: fmt_2f (float.fin s k)))),
        by simp [saveLine, saveLocation, tagWord], fmt_d len, fmt_d x, fmt_2f (float.fin s k),
        rfl, hL, fmt_d_isDecimalOf x, hA⟩

/-- The text of a list of lines, each followed by a newline. -/
theorem saveBoats_format_aux (boats : List Boat)
    (h : ∀ b ∈ boats, MemberMatches b.locationType b.details ∧ b.amountOwed.finite = true) :
    ∃ lines : List (List Char), saveBoats boats = some (fileText lines) ∧
      List.Forall₂ IsRecordLine boats lines := by
  induction boats with
  | nil => exact ⟨[], rfl, List.Forall₂.nil⟩
  | cons b rest ih =>
    obtain ⟨lines, hs, hl⟩ := ih (fun c hc => h c (List.mem_cons_of_mem _ hc))
    obtain ⟨line, h1, h2⟩ := saveLine_format b (h b (List.mem_cons_self _ _)).1
      (h b (List.mem_cons_self _ _)).2
    refine ⟨line :: lines, ?_, List.Forall₂.cons h2 hl⟩
    simp only [saveBoats, h1, hs, fileText, List.flatMap_cons]

/-- Claim C12 fails for a record with an infinite balance. The line `Marlin,20,slip,15,1e39` is parsed into a record that owes
an infinite amount, since `1e39` is beyond the range of `float`, and `saveBoats` writes the
amount of that record as `inf`, without fractional digits. -/
theorem saveBoats_infinite_amount :
    parseBoat exampleUninit "Marlin,20,slip,15,1e39".toList = exampleInfinite ∧
    saveBoats [exampleInfinite] = some "Marlin,20,slip,15,inf\n".toList ∧
    ¬ ∃ (ds : List Char) (d1 d2 : Char), fmt_2f exampleInfinite.amountOwed = ds ++ ['.', d1, d2] := by
  refine ⟨by decide, by decide, ?_⟩
  rintro ⟨ds, d1, d2, h⟩
  have h2 : '.' ∈ fmt_2f exampleInfinite.amountOwed := by rw [h]; simp
  revert h2; decide

/-- Claim C12 (format of the text written by `saveBoats`), amended. For every store whose
records hold a finite amount owed and the detail member that their location type selects,
`saveBoats` writes the lines of the records in store order, each followed by a newline
(`fileText`). The line of a record is `name,length,tag,detail,amount`: the name as stored,
the decimal numeral of the length, the lower-case word of the location type, the detail
(decimal slip number, the bay letter, the plate as stored, decimal storage number) and the
amount with exactly two fractional digits, within half a hundredth of the stored amount.
A line has no line break inside when the name, bay letter and plate have none. -/
theorem saveBoats_format (boats : List Boat)
    (h : ∀ b ∈ boats, MemberMatches b.locationType b.details ∧ b.amountOwed.finite = true) :
    ∃ lines : List (List Char), saveBoats boats = some (fileText lines) ∧
      List.Forall₂ (fun b line => IsRecordLine b line ∧ (NoLineBreak b → '\n' ∉ line))
        boats lines := by
  obtain ⟨lines, h1, h2⟩ := saveBoats_format_aux boats h
  exact ⟨lines, h1, h2.imp (fun b line hl => ⟨hl, isRecordLine_noBreak b line hl⟩)⟩

/-- An instance of claim C12: a store with a boat on land, on a trailer, in a slip and in
storage, and the four lines written for it. -/
theorem saveBoats_format_witness :
    saveBoats exampleFleet = some
      "Ark,30,land,C,0.00\nGull,18,trailor,ABC123,12.50\nMarlin,20,slip,15,150.00\nDinghy,1,storage,7,0.00\n".toList ∧
    ∃ lines : List (List Char), saveBoats exampleFleet = some (fileText lines) ∧
      List.Forall₂ (fun b line => IsRecordLine b line ∧ (NoLineBreak b → '\n' ∉ line))
        exampleFleet lines :=
  ⟨by decide, saveBoats_format exampleFleet (by decide)⟩

/-! ## Loading a file of lines -/

/-- The call of `fgets` on a last line without a newline. -/
theorem fgetsAux_last (s : List Char) (n : Nat) (h : '\n' ∉ s) (hlen : s.length ≤ n) :
    fgetsAux n s = (s, []) := by
  induction s generalizing n with
  | nil => cases n <;> rfl
  | cons c s ih =>
    cases n with
    | zero => simp at hlen
    | succ n =>
      have hc : c ≠ '\n' := fun e => h (e ▸ List.mem_cons_self _ _)
      have hs : '\n' ∉ s := fun e => h (List.mem_cons_of_mem _ e)
      simp only [fgetsAux, if_neg hc, ih n hs (by simpa using hlen)]

/-- A last line without a newline is left as it is. -/
theorem stripNewline_last (s : List Char) (h : '\n' ∉ s) : stripNewline s = s := by
  unfold stripNewline
  rw [if_neg]
  intro e
  exact h (List.mem_of_mem_getLast? e)

/-- The reading loop at the end of the file. -/
theorem loadLoop_nil (g : Nat → Uninit) (fuel : Nat) (acc : List Boat) :
    loadLoop g fuel [] acc = acc := by
  cases fuel <;> rfl

/-- The text of a file that starts with a line. -/
theorem fileText_cons (l : List Char) (ls : List (List Char)) (last : List Char) :
    fileText (l :: ls) ++ last = l ++ '\n' :: (fileText ls ++ last) := by
  simp [fileText]

/-- The lines of a file that starts with a line. -/
theorem allLines_cons (l : List Char) (ls : List (List Char)) (last : List Char) :
    allLines (l :: ls) last = l :: allLines ls last := by
  unfold allLines
  split_ifs <;> rfl

/-- The reading loop makes one record of each line, in order, as long as there is room. -/
theorem loadLoop_lines (g : Nat → Uninit) (lines : List (List Char)) (last : List Char)
    (hlines : ∀ l ∈ lines, '\n' ∉ l ∧ l.length < 255)
    (hlast : '\n' ∉ last ∧ last.length < 255) (fuel : Nat) (acc : List Boat) :
    loadLoop g fuel (fileText lines ++ last) acc
      = acc ++ parseLines g acc.length ((allLines lines last).take fuel) := by
  induction lines generalizing fuel acc with
  | nil =>
    cases fuel with
    | zero => simp [loadLoop, parseLines]
    | succ fuel =>
      by_cases hl : last = []
      · subst hl
        simp [loadLoop, fgets, fileText, allLines, parseLines]
      · have hf : fgets 256 last = some (last, []) := by
          unfold fgets
          rw [if_neg hl, fgetsAux_last last _ hlast.1 (by omega)]
        simp only [fileText, List.flatMap_nil, List.nil_append, loadLoop, hf,
          stripNewline_last last hlast.1, loadLoop_nil, allLines, if_neg hl]
        simp [parseLines]
  | cons l ls ih =>
    cases fuel with
    | zero => simp [loadLoop, parseLines]
    | succ fuel =>
      have hl := hlines l (List.mem_cons_self _ _)
      rw [fileText_cons, allLines_cons]
      simp only [loadLoop, fgets_line l _ hl.1 hl.2, stripNewline_line, List.take_succ_cons,
        parseLines]
      rw [ih (fun x hx => hlines x (List.mem_cons_of_mem _ hx))]
      simp

/-- The strings of the lines of a file fit their buffers when they do for each line that
is read. -/
theorem streamFits_lines (lines : List (List Char)) (last : List Char)
    (hlines : ∀ l ∈ lines, '\n' ∉ l ∧ l.length < 255)
    (hlast : '\n' ∉ last ∧ last.length < 255) (fuel : Nat)
    (hfit : ∀ l ∈ (allLines lines last).take fuel, FieldsFit l) :
    streamFits fuel (fileText lines ++ last) = true := by
  induction lines generalizing fuel with
  | nil =>
    cases fuel with
    | zero => rfl
    | succ fuel =>
      by_cases hl : last = []
      · subst hl
        simp [streamFits, fgets, fileText]
      · have hf : fgets 256 last = some (last, []) := by
          unfold fgets
          rw [if_neg hl, fgetsAux_last last _ hlast.1 (by omega)]
        have h1 : FieldsFit last := hfit last (by simp [allLines, hl])
        have h2 : streamFits fuel [] = true := by cases fuel <;> rfl
        simp [fileText, streamFits, hf, stripNewline_last last hlast.1, h1, h2]
  | cons l ls ih =>
    cases fuel with
    | zero => rfl
    | succ fuel =>
      have hl := hlines l (List.mem_cons_self _ _)
      rw [allLines_cons] at hfit
      rw [fileText_cons]
      simp only [streamFits, fgets_line l _ hl.1 hl.2, stripNewline_line, Bool.and_eq_true,
        decide_eq_true_eq]
      exact ⟨hfit l (by simp), ih (fun x hx => hlines x (List.mem_cons_of_mem _ hx)) fuel
        (fun x hx => hfit x (by simp [hx]))⟩

/-- The reading loop adds at most as many records as fit. -/
theorem loadLoop_length_le (g : Nat → Uninit) (fuel : Nat) (stream : List Char)
    (acc : List Boat) : (loadLoop g fuel stream acc).length ≤ acc.length + fuel := by
  induction fuel generalizing stream acc with
  | zero => simp [loadLoop]
  | succ fuel ih =>
    unfold loadLoop
    split
    · omega
    · rename_i line rest _
      have := ih rest (acc ++ [parseBoat (g acc.length) (stripNewline line)])
      simp only [List.length_append, List.length_singleton] at this
      omega

/-- One record is made of each line. -/
theorem parseLines_length (g : Nat → Uninit) (start : Nat) (lines : List (List Char)) :
    (parseLines g start lines).length = lines.length := by
  induction lines generalizing start with
  | nil => rfl
  | cons l ls ih => simp [parseLines, ih]

/-- A line that describes a record is parsed into that record, whatever the memory held. -/
theorem parseBoat_describes (u : Uninit) (line : List Char) (b : Boat) (h : Describes line b) :
    parseBoat u line = b := by
  obtain ⟨lengthText, tag, detail, amountText, rfl, h1, h2, h3, h4, h5, h6, h7⟩ := h
  exact parseBoat_wellFormed u b.name lengthText tag detail amountText b.length b.locationType
    b.details b.amountOwed h1 h2 h3 h4 h5 h6 h7

/-- The store after `loadBoats` on a file of short lines that fit. -/
theorem loadBoats_lines (qsort : (Boat → Boat → Int) → List Boat → List Boat)
    (g : Nat → Uninit) (filename : String) (old : List Boat)
    (lines : List (List Char)) (last : List Char)
    (hlines : ∀ l ∈ lines, '\n' ∉ l ∧ l.length < 255)
    (hlast : '\n' ∉ last ∧ last.length < 255) :
    loadBoats qsort g filename (some (fileText lines ++ last)) old
      = (qsort compareBoats (parseLines g 0 ((allLines lines last).take MAX_BOATS)), "") := by
  simp only [loadBoats, loadLoop_lines g lines last hlines hlast, List.nil_append,
    List.length_nil]

/-- The search either finds nothing, when no name matches, or finds the first match. -/
theorem findBoat_cases (boats : List Boat) (boatName : List Char) :
    (findBoat boats boatName = none ∧ ∀ b ∈ boats, strcasecmp b.name boatName ≠ 0) ∨
    ∃ (i : Nat) (b : Boat), FirstMatch boats boatName i b ∧ findBoat boats boatName = some i := by
  by_cases h : ∃ b ∈ boats, strcasecmp b.name boatName = 0
  · obtain ⟨i, b, hf⟩ := exists_firstMatch boatName boats h
    refine Or.inr ⟨i, b, hf, ?_⟩
    have := findLoop_firstMatch boatName boats i b hf 0
    simpa [findBoat] using this
  · have h2 : ∀ b ∈ boats, strcasecmp b.name boatName ≠ 0 := fun b hb e => h ⟨b, hb, e⟩
    exact Or.inl ⟨findLoop_none boatName boats h2 0, h2⟩

/-- Either `removeBoat` leaves the store alone or it erases the first match. -/
theorem removeBoat_cases (boats : List Boat) (boatName : List Char) :
    (removeBoat boats boatName).1 = boats ∨
    ∃ (i : Nat) (b : Boat), FirstMatch boats boatName i b ∧
      (removeBoat boats boatName).1 = boats.eraseIdx i := by
  rcases findBoat_cases boats boatName with ⟨h, _⟩ | ⟨i, b, hf, _⟩
  · left; simp [removeBoat, h]
  · right; exact ⟨i, b, hf, by rw [removeBoat_firstMatch boats boatName i b hf]⟩

/-- Either `acceptPayment` leaves the store alone or it subtracts the payment from the
amount owed by the first match. -/
theorem acceptPayment_first_cases (boats : List Boat) (boatName : List Char) (p : float) :
    (acceptPayment boats boatName p).1 = boats ∨
    ∃ (i : Nat) (b : Boat), FirstMatch boats boatName i b ∧
      (acceptPayment boats boatName p).1
        = boats.set i { b with amountOwed := b.amountOwed.sub p } := by
  rcases findBoat_cases boats boatName with ⟨h, _⟩ | ⟨i, b, hf, hfind⟩
  · left; simp [acceptPayment, h]
  · by_cases hgt : p.gt b.amountOwed = true
    · left; simp [acceptPayment, hfind, hf.1, hgt]
    · right
      refine ⟨i, b, hf, ?_⟩
      rw [acceptPayment_firstMatch boats boatName p i b hf (by simpa using hgt)]

/-- The count after `addBoat` is within the capacity. -/
theorem addBoat_length_le (qsort : (Boat → Boat → Int) → List Boat → List Boat)
    (hq : IsQsort qsort) (u : Uninit) (boats : List Boat) (boatData : List Char)
    (h : boats.length ≤ MAX_BOATS) : (addBoat qsort u boats boatData).1.length ≤ MAX_BOATS := by
  unfold addBoat
  split_ifs with hfull
  · exact h
  · have := (hq compareBoats compareBoats_consistent (boats ++ [parseBoat u boatData])).1.length_eq
    simp only [this, List.length_append, List.length_singleton]
    omega

/-- The count after `removeBoat` is not greater than before. -/
theorem removeBoat_length_le (boats : List Boat) (boatName : List Char) :
    (removeBoat boats boatName).1.length ≤ boats.length := by
  rcases removeBoat_cases boats boatName with h | ⟨i, b, _, h⟩
  · rw [h]
  · rw [h, List.length_eraseIdx]
    split_ifs <;> omega

/-- The count after `acceptPayment` is the same as before. -/
theorem acceptPayment_length (boats : List Boat) (boatName : List Char) (p : float) :
    (acceptPayment boats boatName p).1.length = boats.length := by
  rcases acceptPayment_first_cases boats boatName p with h | ⟨i, b, _, h⟩
  · rw [h]
  · rw [h, List.length_set]

/-- Claim C14 (the count stays within the capacity). For every `qsort` and every prior
content of memory: `loadBoats` gives a store of at most `MAX_BOATS` records for every file
content of which the strings of the lines read fit their buffers (`streamFits`), and
leaves the store as it is when the file cannot be opened; of a file of lines without a line
break inside, each shorter than 255 characters, it loads the first `MAX_BOATS` lines and
no others (the store is a permutation of their records), when the name, tag and detail of
these lines fit their buffers (`FieldsFit`); and `addBoat`, for a line that fits,
`removeBoat`, `acceptPayment` and `updateMonthlyFees` map a store of at most `MAX_BOATS`
records to a store of at most `MAX_BOATS` records. -/
theorem capacity_invariant (qsort : (Boat → Boat → Int) → List Boat → List Boat)
    (hq : IsQsort qsort) (g : Nat → Uninit) (u : Uninit) (filename : String) :
    (∀ (stream : List Char) (old : List Boat), streamFits MAX_BOATS stream = true →
      (loadBoats qsort g filename (some stream) old).1.length ≤ MAX_BOATS) ∧
    (∀ old : List Boat, (loadBoats qsort g filename none old).1 = old) ∧
    (∀ (lines : List (List Char)) (last : List Char) (old : List Boat),
      (∀ l ∈ lines, '\n' ∉ l ∧ l.length < 255) → '\n' ∉ last ∧ last.length < 255 →
      (∀ l ∈ (allLines lines last).take MAX_BOATS, FieldsFit l) →
      (loadBoats qsort g filename (some (fileText lines ++ last)) old).1.Perm
          (parseLines g 0 ((allLines lines last).take MAX_BOATS)) ∧
      (loadBoats qsort g filename (some (fileText lines ++ last)) old).1.length
        = min MAX_BOATS (allLines lines last).length) ∧
    (∀ (boats : List Boat) (boatData boatName : List Char) (p : float),
      boats.length ≤ MAX_BOATS →
      (FieldsFit boatData → (addBoat qsort u boats boatData).1.length ≤ MAX_BOATS) ∧
      (removeBoat boats boatName).1.length ≤ MAX_BOATS ∧
      (acceptPayment boats boatName p).1.length ≤ MAX_BOATS ∧
      (updateMonthlyFees boats).1.length ≤ MAX_BOATS) := by
  refine ⟨?_, fun _ => rfl, ?_, ?_⟩
  · intro stream old _
    simp only [loadBoats]
    rw [(hq compareBoats compareBoats_consistent _).1.length_eq]
    have := loadLoop_length_le g MAX_BOATS stream []
    simpa using this
  · intro lines last old hlines hlast _
    rw [loadBoats_lines qsort g filename old lines last hlines hlast]
    have hp := (hq compareBoats compareBoats_consistent
      (parseLines g 0 ((allLines lines last).take MAX_BOATS))).1
    exact ⟨hp, by rw [hp.length_eq, parseLines_length, List.length_take]⟩
  · intro boats boatData boatName p h
    refine ⟨fun _ => addBoat_length_le qsort hq u boats boatData h,
      le_trans (removeBoat_length_le boats boatName) h, ?_, ?_⟩
    · rw [acceptPayment_length]; exact h
    · simpa [updateMonthlyFees] using h

/-- An instance of claim C14: of a file of 121 lines, 120 records are loaded, a file of two
lines gives a store within the capacity, and the four operations on the store of three
records give stores of at most 120 records. -/
theorem capacity_invariant_witness :
    (loadBoats insertionQsort (fun _ => exampleUninit) "BoatData.csv"
      (some (fileText (List.replicate 121 "Marlin,20,slip,15,150.00".toList) ++ []))
      exampleStore).1.length = 120 ∧
    (loadBoats insertionQsort (fun _ => exampleUninit) "BoatData.csv"
      (some "Marlin,20,slip,15,150.00\nGull".toList) exampleStore).1.length ≤ MAX_BOATS ∧
    (addBoat insertionQsort exampleUninit exampleStore "Gull,18,land,C,5.00".toList).1.length
      ≤ MAX_BOATS ∧
    (removeBoat exampleStore "bob".toList).1.length ≤ MAX_BOATS ∧
    (acceptPayment exampleStore "bob".toList (float.fin false (2 ^ 149))).1.length
      ≤ MAX_BOATS ∧
    (updateMonthlyFees exampleStore).1.length ≤ MAX_BOATS :=
  have h := capacity_invariant insertionQsort insertionQsort_isQsort (fun _ => exampleUninit)
    exampleUninit "BoatData.csv"
  ⟨((h.2.2.1 (List.replicate 121 "Marlin,20,slip,15,150.00".toList) [] exampleStore
      (fun l hl => by rw [List.eq_of_mem_replicate hl]; decide) (by decide)
      (fun l hl => by rw [List.eq_of_mem_replicate (List.mem_of_mem_take hl)]; decide)).2).trans
      (by decide),
    h.1 "Marlin,20,slip,15,150.00\nGull".toList exampleStore (by decide),
    (h.2.2.2 exampleStore "Gull,18,land,C,5.00".toList "bob".toList (float.fin false (2 ^ 149))
      (by decide)).1 (by decide),
    (h.2.2.2 exampleStore "Gull,18,land,C,5.00".toList "bob".toList (float.fin false (2 ^ 149))
      (by decide)).2.1,
    (h.2.2.2 exampleStore "Gull,18,land,C,5.00".toList "bob".toList (float.fin false (2 ^ 149))
      (by decide)).2.2⟩

/-- Writing a new amount into one place keeps the names. -/
theorem set_amount_names (boats : List Boat) (i : Nat) (b : Boat) (x : float)
    (h : boats[i]? = some b) :
    (boats.set i { b with amountOwed := x }).map Boat.name = boats.map Boat.name := by
  apply List.ext_getElem?
  intro j
  simp only [List.getElem?_map, List.getElem?_set]
  split_ifs with hij hlt
  · subst hij; simp [h]
  · subst hij
    have := (List.getElem?_eq_some_iff.mp h).1
    omega
  · rfl

/-- Whether a store is in order depends on the names only. -/
theorem sortedByName_of_names (l1 l2 : List Boat) (h : l1.map Boat.name = l2.map Boat.name)
    (hs : SortedByName l1) : SortedByName l2 := by
  have key : ∀ l : List Boat, SortedByName l ↔
      (l.map Boat.name).Pairwise (fun x y => strcasecmp x y ≤ 0) := by
    intro l
    unfold SortedByName compareBoats
    rw [List.pairwise_map]
  rw [key] at hs ⊢
  rw [← h]; exact hs

/-- Claim C16 (`acceptPayment` acts on the first match only). For every store, name and
amount, the store after `acceptPayment` has the same count, and the record at each index
has the same name, length, location type and location detail as before; its amount owed
is different only if the index is the smallest one whose name equals the given name
ignoring case (`FirstMatch`). -/
theorem acceptPayment_first_match_only (boats : List Boat) (boatName : List Char) (p : float) :
    (acceptPayment boats boatName p).1.length = boats.length ∧
    ∀ (j : Nat) (a : Boat), boats[j]? = some a →
      ∃ c : Boat, (acceptPayment boats boatName p).1[j]? = some c ∧
        c.name = a.name ∧ c.length = a.length ∧ c.locationType = a.locationType ∧
        c.details = a.details ∧
        (c.amountOwed ≠ a.amountOwed → FirstMatch boats boatName j a) := by
  refine ⟨acceptPayment_length boats boatName p, ?_⟩
  intro j a ha
  rcases acceptPayment_first_cases boats boatName p with h | ⟨i, b, hf, h⟩
  · rw [h]
    exact ⟨a, ha, rfl, rfl, rfl, rfl, fun hne => (hne rfl).elim⟩
  · rw [h]
    by_cases hij : i = j
    · subst hij
      have hab : b = a := by
        have := hf.1
        rw [ha] at this
        exact (Option.some.inj this).symm
      subst hab
      have hi := (List.getElem?_eq_some_iff.mp ha).1
      exact ⟨{ b with amountOwed := b.amountOwed.sub p },
        by simp [List.getElem?_set, hi], rfl, rfl, rfl, rfl, fun _ => hf⟩
    · refine ⟨a, ?_, rfl, rfl, rfl, rfl, fun hne => (hne rfl).elim⟩
      rw [List.getElem?_set_ne hij]
      exact ha

/-- An instance of claim C16: in a store that holds Amy twice, a payment of 40.00 for `AMY`
changes the amount owed by the first of them, from 100.00 to 60.00, and nothing else. -/
theorem acceptPayment_first_match_only_witness :
    (acceptPayment exampleTwins "AMY".toList (float.fin false (40 * 2 ^ 149))).1
      = [exampleBoat "Amy" 60, exampleBoat "amy" 250, exampleBoat "Bob" 0] ∧
    (acceptPayment exampleTwins "AMY".toList (float.fin false (40 * 2 ^ 149))).1.length
      = exampleTwins.length ∧
    ∃ c : Boat, (acceptPayment exampleTwins "AMY".toList (float.fin false (40 * 2 ^ 149))).1[1]?
        = some c ∧
      c.name = (exampleBoat "amy" 250).name ∧ c.length = (exampleBoat "amy" 250).length ∧
      c.locationType = (exampleBoat "amy" 250).locationType ∧
      c.details = (exampleBoat "amy" 250).details ∧
      (c.amountOwed ≠ (exampleBoat "amy" 250).amountOwed →
        FirstMatch exampleTwins "AMY".toList 1 (exampleBoat "amy" 250)) :=
  ⟨by decide,
    (acceptPayment_first_match_only exampleTwins "AMY".toList (float.fin false (40 * 2 ^ 149))).1,
    (acceptPayment_first_match_only exampleTwins "AMY".toList (float.fin false (40 * 2 ^ 149))).2
      1 (exampleBoat "amy" 250) (by decide)⟩

/-- Claim C17 (the order by name is kept). For every `qsort` and every prior content of
memory: the store that `loadBoats` gives for a file is in ascending order of the names
compared ignoring case, for every file content of which the strings of the lines read
fit their buffers (`streamFits`); when the file cannot be opened the store stays as it is;
and `addBoat`, for a line whose name, tag and detail fit their buffers (`FieldsFit`),
`removeBoat`, `acceptPayment` and `updateMonthlyFees` map a store in that order to a
store in that order. -/
theorem sortedness_invariant (qsort : (Boat → Boat → Int) → List Boat → List Boat)
    (hq : IsQsort qsort) (g : Nat → Uninit) (u : Uninit) (filename : String) :
    (∀ (stream : List Char) (old : List Boat), streamFits MAX_BOATS stream = true →
      SortedByName (loadBoats qsort g filename (some stream) old).1) ∧
    (∀ old : List Boat, (loadBoats qsort g filename none old).1 = old) ∧
    (∀ (boats : List Boat) (boatData boatName : List Char) (p : float), SortedByName boats →
      (FieldsFit boatData → SortedByName (addBoat qsort u boats boatData).1) ∧
      SortedByName (removeBoat boats boatName).1 ∧
      SortedByName (acceptPayment boats boatName p).1 ∧
      SortedByName (updateMonthlyFees boats).1) := by
  refine ⟨?_, fun _ => rfl, ?_⟩
  · intro stream old _
    exact (hq compareBoats compareBoats_consistent _).2
  · intro boats boatData text p hs
    refine ⟨fun _ => ?_, ?_, ?_, ?_⟩
    · unfold addBoat
      split_ifs
      · exact hs
      · exact (hq compareBoats compareBoats_consistent _).2
    · rcases removeBoat_cases boats text with h | ⟨i, b, _, h⟩
      · rw [h]; exact hs
      · rw [h]
        exact List.Pairwise.sublist (List.eraseIdx_sublist boats i) hs
    · rcases acceptPayment_first_cases boats text p with h | ⟨i, b, hf, h⟩
      · rw [h]; exact hs
      · rw [h]
        exact sortedByName_of_names boats _ (set_amount_names boats i b _ hf.1).symm hs
    · refine sortedByName_of_names boats _ ?_ hs
      simp only [updateMonthlyFees, List.map_map]
      rfl

/-- An instance of claim C17: a file in the order bob, Amy, Cleo is loaded in the order Amy,
bob, Cleo, and the four operations on the store Amy, bob, Bob give stores in order. -/
theorem sortedness_invariant_witness :
    (loadBoats insertionQsort (fun _ => exampleUninit) "BoatData.csv"
      (some "bob,20,slip,15,250.00\nAmy,20,slip,15,100.00\nCleo,20,slip,15,0.00\n".toList) []).1
      = [exampleBoat "Amy" 100, exampleBoat "bob" 250, exampleBoat "Cleo" 0] ∧
    SortedByName (loadBoats insertionQsort (fun _ => exampleUninit) "BoatData.csv"
      (some "bob,20,slip,15,250.00\nAmy,20,slip,15,100.00\nCleo,20,slip,15,0.00\n".toList) []).1 ∧
    SortedByName exampleStore ∧
    SortedByName (addBoat insertionQsort exampleUninit exampleStore
      "Bea,20,slip,15,0.00".toList).1 ∧
    SortedByName (removeBoat exampleStore "bob".toList).1 ∧
    SortedByName (acceptPayment exampleStore "bob".toList (float.fin false (2 ^ 149))).1 ∧
    SortedByName (updateMonthlyFees exampleStore).1 :=
  have h := sortedness_invariant insertionQsort insertionQsort_isQsort (fun _ => exampleUninit)
    exampleUninit "BoatData.csv"
  ⟨by decide, h.1 _ [] (by decide), by decide,
    (h.2.2 exampleStore "Bea,20,slip,15,0.00".toList "bob".toList (float.fin false (2 ^ 149))
      (by decide)).1 (by decide),
    (h.2.2 exampleStore "Bea,20,slip,15,0.00".toList "bob".toList (float.fin false (2 ^ 149))
      (by decide)).2⟩

/-! ## Names and plates -/

/-- The `sscanf` call stores the whole name field when it is not empty. -/
theorem sscanfBoat_name (u : Uninit) (line : List Char) (h : nameField line ≠ []) :
    (sscanfBoat u line).boat.name = nameField line := by
  unfold nameField at h ⊢
  unfold sscanfBoat
  simp only [if_neg h]
  repeat' split
  all_goals rfl

/-- The name of the record is the name that the `sscanf` call stored. -/
theorem parseBoat_name (u : Uninit) (line : List Char) :
    (parseBoat u line).name = (sscanfBoat u line).boat.name := by
  unfold parseBoat
  simp only
  split_ifs <;> rfl

/-- A tag that equals a tag word ignoring case is a field and a C string. -/
theorem eqIgnoreCase_tagWord (tag : List Char) (ty : LocationType)
    (h : EqIgnoreCase tag (tagWord ty)) : IsField tag ∧ NoNul tag := by
  unfold EqIgnoreCase at h
  have hmem : ∀ c ∈ tag, tolower c ∈ (tagWord ty).map tolower := by
    intro c hc
    rw [← h]
    exact List.mem_map_of_mem _ hc
  refine ⟨⟨?_, ?_⟩, ?_⟩
  · intro e
    rw [e] at h
    revert h
    cases ty <;> decide
  · intro hc
    have := hmem _ hc
    revert this
    cases ty <;> decide
  · intro hc
    have := hmem _ hc
    revert this
    cases ty <;> decide

/-- The tests that the chain of `strcasecmp` makes for a tag that selects a trailer. -/
theorem tagType_trailor (tag : List Char) (h : tagType tag = some LocationType.TRAILOR) :
    strcasecmp tag ['s', 'l', 'i', 'p'] ≠ 0 ∧ strcasecmp tag ['l', 'a', 'n', 'd'] ≠ 0 ∧
    strcasecmp tag ['t', 'r', 'a', 'i', 'l', 'o', 'r'] = 0 := by
  unfold tagType at h
  split_ifs at h with h1 h2 h3 h4
  · exact absurd h (by decide)
  · exact absurd h (by decide)
  · exact ⟨h1, h2, h3⟩
  · exact absurd h (by decide)

/-- The plate that the parsing code stores for a tag that selects a trailer. -/
theorem parseBoat_trailor (u : Uninit) (line : List Char)
    (h : tagType (sscanfBoat u line).locType = some LocationType.TRAILOR) :
    (parseBoat u line).locationType = LocationType.TRAILOR ∧
    (parseBoat u line).details
      = LocationDetails.trailorLicense ((sscanfBoat u line).detailStr.take 9) := by
  obtain ⟨h1, h2, h3⟩ := tagType_trailor _ h
  unfold parseBoat
  simp only [if_neg h1, if_neg h2, if_pos h3, and_self]

/-- The name field of the record made of a line with 130 characters before the first comma
has 130 characters, more than `MAX_NAME_LENGTH`, whatever memory held: contrary to claim
C15. The line has 145 characters, so `fgets` hands it whole to `loadBoats` and to
`addBoat`, and both stores then hold that record. -/
theorem parseBoat_long_name :
    exampleLongLine.length = 145 ∧
    (∀ u : Uninit, (parseBoat u exampleLongLine).name = List.replicate 130 'A' ∧
      MAX_NAME_LENGTH < (parseBoat u exampleLongLine).name.length) ∧
    (addBoat insertionQsort exampleUninit [] exampleLongLine).1
      = [⟨List.replicate 130 'A', 20, LocationType.SLIP, LocationDetails.slipNumber 1,
          float.fin false 0⟩] ∧
    (loadBoats insertionQsort (fun _ => exampleUninit) "BoatData.csv"
        (some (exampleLongLine ++ ['\n'])) []).1
      = [⟨List.replicate 130 'A', 20, LocationType.SLIP, LocationDetails.slipNumber 1,
          float.fin false 0⟩] := by
  refine ⟨by decide, ?_, by decide, by decide⟩
  intro u
  have h : (parseBoat u exampleLongLine).name = List.replicate 130 'A' := by
    rw [parseBoat_name, sscanfBoat_name u exampleLongLine (by decide)]
    decide
  rw [h]
  exact ⟨rfl, by decide⟩

/-- Claim C18 fails for a line with the tag `trailor` and an empty detail field: the
directive for the detail fails, `detailStr` keeps what memory held, here the detail
`ABC123` of an earlier line, and the plate of the record is `ABC123`, not the empty detail
field of the line. The strings of the line fit their buffers. -/
theorem parseBoat_trailor_stale :
    FieldsFit "Heron,22,trailor,,3.00".toList ∧
    "Heron,22,trailor,,3.00".toList
      = "Heron".toList ++ ',' :: ("22".toList ++ ',' :: ("trailor".toList ++ ',' ::
          ([] ++ ',' :: "3.00".toList))) ∧
    (parseBoat exampleStale "Heron,22,trailor,,3.00".toList).locationType
      = LocationType.TRAILOR ∧
    (parseBoat exampleStale "Heron,22,trailor,,3.00".toList).details
      = LocationDetails.trailorLicense "ABC123".toList ∧
    (parseBoat exampleStale "Heron,22,trailor,,3.00".toList).details
      ≠ LocationDetails.trailorLicense (([] : List Char).take 9) := by
  decide

/-- A line without a detail leaves `detailStr` as it was. -/
theorem sscanfBoat_noDetail (u : Uninit) (name lengthText tag rest : List Char) (len : Int)
    (hname : IsField name) (hlen : scan_d lengthText = some (len, [])) (htag : IsField tag)
    (hrest : NoDetail rest) :
    (sscanfBoat u (name ++ ',' :: (lengthText ++ ',' :: (tag ++ rest)))).detailStr
      = u.detailStr := by
  have hend : FieldEnd rest := by
    rcases hrest with h | h | ⟨r, h⟩
    · exact Or.inl h
    · exact Or.inr ⟨[], h⟩
    · exact Or.inr ⟨',' :: r, h⟩
  obtain ⟨h1, h2⟩ := takeWhile_field name (lengthText ++ ',' :: (tag ++ rest)) hname.2
  obtain ⟨h3, h4⟩ := takeWhile_field_end tag rest htag.2 hend
  have h7 := scan_d_append lengthText len ',' (tag ++ rest) hlen (by decide)
  unfold sscanfBoat
  simp only [h1, h2, h3, h4, h7, hname.1, htag.1, if_false, ne_eq, not_true_eq_false]
  rcases hrest with h | h | ⟨r, h⟩ <;> subst h <;> simp

/-- The strings of a line with a name, a length, a tag and a detail fit their buffers when
the name has at most `MAX_NAME_LENGTH` characters, the tag fewer than 10 and the detail
fewer than 20. -/
theorem fieldsFit_fields (name lengthText tag detail rest : List Char) (len : Int)
    (hname : IsField name) (hlen : scan_d lengthText = some (len, [])) (htag : IsField tag)
    (hdetail : IsField detail) (hrest : FieldEnd rest) :
    FieldsFit (name ++ ',' :: (lengthText ++ ',' :: (tag ++ ',' :: (detail ++ rest)))) ↔
      name.length ≤ MAX_NAME_LENGTH ∧ tag.length < 10 ∧ detail.length < 20 := by
  obtain ⟨h1, h2⟩ := sscanfBoat_detail blankMemory name lengthText tag detail rest len hname
    hlen htag hdetail hrest
  have h3 := (sscanfBoat_tag blankMemory name lengthText tag (',' :: (detail ++ rest)) len
    hname hlen htag (Or.inr ⟨_, rfl⟩)).2.1
  unfold FieldsFit
  rw [h1, h2, h3]

/-- Claim C18 (the plate of a boat on a trailer), amended. For every line
`name,length,tag` followed by the end of the line or a comma, with a name that is not
empty, a length that is a numeral and a tag that equals `trailor` ignoring case, whose
name, tag and detail fit their buffers (`FieldsFit`), and for every prior content of
memory, the parsing code shared by `loadBoats` and `addBoat` makes a record on a trailer
whose plate has at most 9 characters; when the tag is followed by a comma and a detail
field that is not empty, the plate is the first 9 characters of the detail field, which is
the whole field when it has 9 characters or fewer; and when the detail field is empty or
missing (`NoDetail`), the plate is the first 9 characters of what `detailStr` held
before. -/
theorem trailor_plate (name lengthText tag rest : List Char) (len : Int)
    (hname : IsField name) (hlen : scan_d lengthText = some (len, []))
    (htag : EqIgnoreCase tag (tagWord LocationType.TRAILOR)) (hrest : FieldEnd rest)
    (_hfit : FieldsFit (name ++ ',' :: (lengthText ++ ',' :: (tag ++ rest)))) :
    (∀ u : Uninit, ∃ plate : List Char, plate.length ≤ 9 ∧
      (parseBoat u (name ++ ',' :: (lengthText ++ ',' :: (tag ++ rest)))).locationType
        = LocationType.TRAILOR ∧
      (parseBoat u (name ++ ',' :: (lengthText ++ ',' :: (tag ++ rest)))).details
        = LocationDetails.trailorLicense plate) ∧
    (∀ detail rest2 : List Char, rest = ',' :: (detail ++ rest2) → IsField detail →
      FieldEnd rest2 → ∀ u : Uninit,
      (parseBoat u (name ++ ',' :: (lengthText ++ ',' :: (tag ++ rest)))).details
        = LocationDetails.trailorLicense (detail.take 9) ∧
      (detail.length ≤ 9 → detail.take 9 = detail)) ∧
    (NoDetail rest → ∀ u : Uninit,
      (parseBoat u (name ++ ',' :: (lengthText ++ ',' :: (tag ++ rest)))).details
        = LocationDetails.trailorLicense (u.detailStr.take 9)) := by
  obtain ⟨hfield, hnul⟩ := eqIgnoreCase_tagWord tag _ htag
  have hty : tagType tag = some LocationType.TRAILOR :=
    (tagType_eq_some_iff tag _ hnul).mpr htag
  have hloc : ∀ u : Uninit,
      (sscanfBoat u (name ++ ',' :: (lengthText ++ ',' :: (tag ++ rest)))).locType = tag :=
    fun u => (sscanfBoat_tag u name lengthText tag rest len hname hlen hfield hrest).1
  refine ⟨?_, ?_, ?_⟩
  · intro u
    obtain ⟨h1, h2⟩ := parseBoat_trailor u _ (by rw [hloc u]; exact hty)
    exact ⟨_, by simp, h1, h2⟩
  · intro detail rest2 hr hdetail hrest2 u
    obtain ⟨_, h2⟩ := parseBoat_trailor u _ (by rw [hloc u]; exact hty)
    subst hr
    rw [h2, (sscanfBoat_detail u name lengthText tag detail rest2 len hname hlen hfield
      hdetail hrest2).2]
    exact ⟨rfl, fun hl => List.take_of_length_le hl⟩
  · intro hno u
    obtain ⟨_, h2⟩ := parseBoat_trailor u _ (by rw [hloc u]; exact hty)
    rw [h2, sscanfBoat_noDetail u name lengthText tag rest len hname hlen hfield hno]

/-- Instances of claim C18: the plate `XYZ789` is stored whole, of the detail `ABCDEFGHIJKL`
the first 9 characters are stored, both with the tag `TrAiLoR`; and for a line that ends
after the tag the plate is what `detailStr` held before, `ABC123`. -/
theorem trailor_plate_witness :
    (parseBoat exampleStale "Gull,18,TrAiLoR,XYZ789,12.50".toList).details
      = LocationDetails.trailorLicense "XYZ789".toList ∧
    (parseBoat exampleStale "Gull,18,TrAiLoR,ABCDEFGHIJKL,12.50".toList).details
      = LocationDetails.trailorLicense "ABCDEFGHI".toList ∧
    (parseBoat exampleStale "Gull,18,trailor".toList).details
      = LocationDetails.trailorLicense "ABC123".toList :=
  ⟨((trailor_plate "Gull".toList "18".toList "TrAiLoR".toList ",XYZ789,12.50".toList 18
      (by decide) (by decide) (by decide) (Or.inr ⟨_, rfl⟩) (by decide)).2.1 "XYZ789".toList
      ",12.50".toList rfl (by decide) (Or.inr ⟨_, rfl⟩) exampleStale).1,
   ((trailor_plate "Gull".toList "18".toList "TrAiLoR".toList ",ABCDEFGHIJKL,12.50".toList 18
      (by decide) (by decide) (by decide) (Or.inr ⟨_, rfl⟩) (by decide)).2.1
      "ABCDEFGHIJKL".toList ",12.50".toList rfl (by decide) (Or.inr ⟨_, rfl⟩) exampleStale).1,
   (trailor_plate "Gull".toList "18".toList "trailor".toList [] 18
      (by decide) (by decide) (by decide) (Or.inl rfl) (by decide)).2.2 (Or.inl rfl)
      exampleStale⟩

/-! ## Loading and repeated adding -/

/-- Two stores in order with the same records, whose names are distinct ignoring case, are
the same. -/
theorem sorted_perm_unique (l1 l2 p : List Boat) (h1 : l1.Perm p) (h2 : l2.Perm p)
    (hs1 : SortedByName l1) (hs2 : SortedByName l2)
    (hd : p.Pairwise (fun a b => compareBoats a b ≠ 0)) : l1 = l2 := by
  refine List.Perm.eq_of_sorted ?_ hs1 hs2 (h1.trans h2.symm)
  intro a b ha hb hab hba
  by_contra hne
  have hsym : Symmetric (fun a b : Boat => compareBoats a b ≠ 0) := by
    intro x y hxy
    have := strcasecmp_antisymm x.name y.name
    unfold compareBoats at hxy ⊢
    omega
  have := List.Pairwise.forall hsym hd (h1.subset ha) (h2.subset hb) hne
  have h3 := strcasecmp_antisymm a.name b.name
  unfold compareBoats at this hab hba
  omega

/-- The names of the records made of lines whose name fields are not empty. -/
theorem parseLines_names (g : Nat → Uninit) (start : Nat) (lines : List (List Char))
    (h : ∀ l ∈ lines, nameField l ≠ []) :
    (parseLines g start lines).map Boat.name = lines.map nameField := by
  induction lines generalizing start with
  | nil => rfl
  | cons l ls ih =>
    simp only [parseLines, List.map_cons]
    rw [parseBoat_name, sscanfBoat_name _ l (h l (List.mem_cons_self _ _)),
      ih (start + 1) (fun x hx => h x (List.mem_cons_of_mem _ hx))]

/-- The records made of lines whose name fields are distinct have distinct names. -/
theorem parseLines_distinct (g : Nat → Uninit) (start : Nat) (lines : List (List Char))
    (h : ∀ l ∈ lines, nameField l ≠ [])
    (hd : lines.Pairwise (fun a b => strcasecmp (nameField a) (nameField b) ≠ 0)) :
    (parseLines g start lines).Pairwise (fun a b => compareBoats a b ≠ 0) := by
  have h1 : ((parseLines g start lines).map Boat.name).Pairwise
      (fun x y => strcasecmp x y ≠ 0) := by
    rw [parseLines_names g start lines h, List.pairwise_map]
    exact hd
  rw [List.pairwise_map] at h1
  exact h1

/-- The store after adding lines one by one, while there is room: the records of the store
and of the lines, in order. -/
theorem addEach_perm (qsort : (Boat → Boat → Int) → List Boat → List Boat)
    (hq : IsQsort qsort) (g : Nat → Uninit) (lines : List (List Char)) (boats : List Boat)
    (hroom : boats.length + lines.length ≤ MAX_BOATS) (hs : SortedByName boats) :
    (addEach qsort g boats lines).Perm (boats ++ parseLines g boats.length lines) ∧
    SortedByName (addEach qsort g boats lines) := by
  induction lines generalizing boats with
  | nil => simpa [addEach, parseLines] using hs
  | cons l ls ih =>
    simp only [List.length_cons] at hroom
    obtain ⟨hp, hsorted⟩ := hq compareBoats compareBoats_consistent
      (boats ++ [parseBoat (g boats.length) l])
    have hlen := hp.length_eq
    simp only [List.length_append, List.length_singleton] at hlen
    simp only [addEach, addBoat_room qsort (g boats.length) boats l (by omega), parseLines]
    obtain ⟨ih1, ih2⟩ := ih (qsort compareBoats (boats ++ [parseBoat (g boats.length) l]))
      (by omega) hsorted
    rw [hlen] at ih1
    refine ⟨ih1.trans ?_, ih2⟩
    have := hp.append_right (parseLines g (boats.length + 1) ls)
    simpa using this

/-- The records made of lines that describe a record do not depend on what memory held. -/
theorem parseLines_describes (g1 g2 : Nat → Uninit) (start : Nat) (lines : List (List Char))
    (h : ∀ l ∈ lines, ∃ b : Boat, Describes l b) :
    parseLines g1 start lines = parseLines g2 start lines := by
  induction lines generalizing start with
  | nil => rfl
  | cons l ls ih =>
    obtain ⟨b, hb⟩ := h l (List.mem_cons_self _ _)
    simp only [parseLines, parseBoat_describes _ l b hb,
      ih (start + 1) (fun x hx => h x (List.mem_cons_of_mem _ hx))]

/-- The store after adding lines one by one depends on the records made of them only. -/
theorem addEach_congr (qsort : (Boat → Boat → Int) → List Boat → List Boat)
    (g1 g2 : Nat → Uninit) (lines : List (List Char)) (boats : List Boat)
    (h : ∀ l ∈ lines, ∃ b : Boat, Describes l b) :
    addEach qsort g1 boats lines = addEach qsort g2 boats lines := by
  induction lines generalizing boats with
  | nil => rfl
  | cons l ls ih =>
    obtain ⟨b, hb⟩ := h l (List.mem_cons_self _ _)
    have e : ∀ g : Nat → Uninit, (addBoat qsort (g boats.length) boats l).1
        = (addBoat qsort exampleUninit boats l).1 := by
      intro g
      unfold addBoat
      split_ifs
      · rfl
      · simp only [parseBoat_describes _ l b hb]
    simp only [addEach, e g1, e g2]
    exact ih _ (fun x hx => h x (List.mem_cons_of_mem _ hx))

/-- Claim C19 (`loadBoats` agrees with repeated `addBoat`), amended. For every `qsort`, every prior
content of memory and every file of at most `MAX_BOATS` lines without a line break inside,
each shorter than 255 characters, whose name, tag and detail fit their buffers
(`FieldsFit`) and whose name fields are not empty and pairwise distinct under
`strcasecmp`: the store that `loadBoats` gives is the store obtained from the empty
store by `addBoat` on each line in turn (`addEach`), with the same records in the same
order, when the record of each line is made in the same memory in both; and when every
line describes a record, the two stores are the same whatever memory held in either. -/
theorem loadBoats_eq_addEach (qsort : (Boat → Boat → Int) → List Boat → List Boat)
    (hq : IsQsort qsort) (g : Nat → Uninit) (filename : String) (old : List Boat)
    (lines : List (List Char)) (last : List Char)
    (hcount : (allLines lines last).length ≤ MAX_BOATS)
    (hlines : ∀ l ∈ lines, '\n' ∉ l ∧ l.length < 255)
    (hlast : '\n' ∉ last ∧ last.length < 255)
    (_hfit : ∀ l ∈ allLines lines last, FieldsFit l)
    (hnames : ∀ l ∈ allLines lines last, nameField l ≠ [])
    (hdistinct : (allLines lines last).Pairwise
      (fun a b => strcasecmp (nameField a) (nameField b) ≠ 0)) :
    (loadBoats qsort g filename (some (fileText lines ++ last)) old).1
      = addEach qsort g [] (allLines lines last) ∧
    ((∀ l ∈ allLines lines last, ∃ b : Boat, Describes l b) → ∀ g2 : Nat → Uninit,
      (loadBoats qsort g filename (some (fileText lines ++ last)) old).1
        = addEach qsort g2 [] (allLines lines last)) := by
  have key : (loadBoats qsort g filename (some (fileText lines ++ last)) old).1
      = addEach qsort g [] (allLines lines last) := by
    rw [loadBoats_lines qsort g filename old lines last hlines hlast,
      List.take_of_length_le hcount]
    obtain ⟨hp, hs⟩ := hq compareBoats compareBoats_consistent
      (parseLines g 0 (allLines lines last))
    obtain ⟨hp2, hs2⟩ := addEach_perm qsort hq g (allLines lines last) []
      (by simpa using hcount) List.Pairwise.nil
    exact sorted_perm_unique _ _ _ hp (by simpa using hp2) hs hs2
      (parseLines_distinct g 0 _ hnames hdistinct)
  refine ⟨key, fun hd g2 => ?_⟩
  rw [key]
  exact addEach_congr qsort g g2 _ [] hd

/-- An instance of claim C19: the file with the lines bob, Amy, Cleo, the last without a
newline, is loaded as Amy, bob, Cleo, which is also the store after adding the three lines
one by one. -/
theorem loadBoats_eq_addEach_witness :
    fileText ["bob,20,slip,15,250.00".toList, "Amy,20,slip,15,100.00".toList] ++ "Cleo".toList
      = "bob,20,slip,15,250.00\nAmy,20,slip,15,100.00\nCleo".toList ∧
    addEach insertionQsort (fun _ => exampleUninit) [] exampleLines
      = [exampleBoat "Amy" 100, exampleBoat "bob" 250,
          { exampleUninit.boat with name := "Cleo".toList }] ∧
    (loadBoats insertionQsort (fun _ => exampleUninit) "BoatData.csv"
      (some (fileText ["bob,20,slip,15,250.00".toList, "Amy,20,slip,15,100.00".toList]
        ++ "Cleo".toList)) exampleStore).1
      = addEach insertionQsort (fun _ => exampleUninit) []
          (allLines ["bob,20,slip,15,250.00".toList, "Amy,20,slip,15,100.00".toList]
            "Cleo".toList) :=
  ⟨by decide, by decide,
    (loadBoats_eq_addEach insertionQsort insertionQsort_isQsort (fun _ => exampleUninit)
      "BoatData.csv" exampleStore
      ["bob,20,slip,15,250.00".toList, "Amy,20,slip,15,100.00".toList] "Cleo".toList
      (by decide) (by decide) (by decide) (by decide) (by decide) (by decide)).1⟩

/-- Claim C19 fails for a line of 255 characters or more. `fgets` hands the line of 300
characters to `loadBoats` in two pieces, of which `loadBoats` makes two records, the
second with the 45 remaining digits as its name; `addBoat` makes one record of the line.
The strings that `addBoat` and `loadBoats` write for it fit their buffers. -/
theorem loadBoats_long_line :
    exampleLongAmount.length = 300 ∧ '\n' ∉ exampleLongAmount ∧
    FieldsFit exampleLongAmount ∧
    streamFits MAX_BOATS (fileText [exampleLongAmount] ++ []) = true ∧
    nameField exampleLongAmount = "Amy".toList ∧
    (loadBoats insertionQsort (fun _ => exampleUninit) "BoatData.csv"
      (some (fileText [exampleLongAmount] ++ [])) []).1
      = [{ exampleUninit.boat with name := List.replicate 45 '0' }, exampleBoat "Amy" 100] ∧
    addEach insertionQsort (fun _ => exampleUninit) [] (allLines [exampleLongAmount] [])
      = [exampleBoat "Amy" 100] := by
  decide

end BoatManagement
